import Mathlib

/-!
# HNSW index (`src/src/hnsw.hpp`) and compressed radix tree (`src/radix_tree/radix.hpp`):
shallow embedding and verified properties

Modelling conventions.

* The heap of `Node` objects is an arena `List Node`; a `Node*` is `Option Nat`
  (`none` is `nullptr`, `some i` is the `i`-th allocated node).  Nodes are never freed, so a
  non-null pointer held by the index always designates a node of the arena.
* A `std::unordered_set<Node*>` is a duplicate-free `List Nat`.  The order in which a
  range-based `for` visits it is not fixed by the C++ standard; it is supplied by an
  `IterOrder`, an arbitrary function returning a permutation of the stored elements.  The
  element returned by `std::priority_queue::top` among several of equal distance is left to
  the same order.
* `HNSWLab::l2distance` and `HNSWLab::get_random_level` live in `util/util.hpp`, which is
  not part of the sources.  The distance is a parameter `dist` of every function; where a
  property depends on it, its values are assumed to lie strictly between `LONG_MIN` and
  `LONG_MAX` (`DistInRange`).  The concrete `l2distance` follows the specification.  The
  sampled level is an explicit argument `L : Nat` of `insert`.
* Every function that can dereference `nullptr` or index `neighbors` out of bounds returns
  `Option`; `none` stands for that undefined behaviour (or for an exhausted loop budget in
  `searchLoop`, which is shown never to happen on a well-formed graph).
* `int` values are `Int`; the comparisons with `size()` convert them to `size_t` (`toSizeT`).
* The radix tree is an arena `List CompressedRadixTree.Node` with the root at position 0; a
  `unique_ptr<Node>` or `Node*` is `Option Nat`.  A node destroyed by a `unique_ptr` stays in
  the arena, referenced from nowhere; the code never reads a destroyed node.  `uint32_t`
  values are `Nat` reduced modulo `2^32`.  Every method returns `Except Fault`: an error is
  undefined behaviour of the C++ code on which the control flow depends (a shift count
  outside `0..31` in a comparison or an index, a null dereference, an array index outside
  `0..3`); the fourth error, an exhausted loop budget, is shown never to be returned.  The
  shift of the merge in `remove`, whose value is only stored in `p->val`, yields an
  arbitrary 32-bit value for a count outside `0..31` (`shlStored`).
-/

namespace HNSWLab

/-- An `int*` vector of `vec_dim` coordinates. -/
abbrev Vec := List Int

/-- The value of `LONG_MAX` for a 64-bit `long`. -/
def LONG_MAX : Int := 9223372036854775807

/-- The value of `LONG_MIN` for a 64-bit `long`. -/
def LONG_MIN : Int := -9223372036854775808

/-- Conversion of an `int` to `size_t` (64 bit), as done by the usual arithmetic conversions
in `W.size() < ef` and `size() > M_max`. -/
def toSizeT (x : Int) : Nat := (x % 18446744073709551616).toNat

/-- The signature of `HNSWLab::l2distance(a, b, vec_dim)`, whose result is stored in a `long`. -/
abbrev Dist := Vec → Vec → Int → Int

/-- Iteration order of `std::unordered_set`: any function listing exactly the stored
elements. -/
structure IterOrder where
  run : List Nat → List Nat
  perm : ∀ l, (run l).Perm l

/-- The order in which elements were stored. -/
def IterOrder.stored : IterOrder := ⟨fun l => l, fun l => List.Perm.refl l⟩

/-- The reverse of the order in which elements were stored. -/
def IterOrder.reversed : IterOrder := ⟨fun l => l.reverse, fun l => List.reverse_perm l⟩

/-- The `unordered_set::insert` operation. -/
def setInsert (s : List Nat) (n : Nat) : List Nat := if n ∈ s then s else s ++ [n]

/-- The `unordered_set::erase(key)` operation; erasing `nullptr` removes nothing. -/
def setErase (s : List Nat) (p : Option Nat) : List Nat :=
  match p with
  | none => s
  | some n => s.erase n

/-- The class `Node` (the field `global_id` is assigned by the constructor and used by no
method; it is left out). -/
structure Node where
  data : Vec
  label : Int
  max_level : Nat
  neighbors : List (List Nat)
deriving DecidableEq

/-- The constructor `Node(data, label, max_level)`: `neighbors.resize(max_level + 1)`. -/
def Node.new (data : Vec) (label : Int) (max_level : Nat) : Node :=
  ⟨data, label, max_level, List.replicate (max_level + 1) []⟩

/-- The class `HNSW` together with the nodes it has allocated. -/
structure HNSW where
  nodes : List Node
  entry_point : Option Nat
  M : Int
  M_max : Int
  ef_construction : Int
  ef_search : Int
  vec_dim : Int
  max_level : Nat
deriving DecidableEq

/-- The constructor `HNSW(dim)`. -/
def HNSW.new (dim : Int) : HNSW :=
  ⟨[], none, 30, 30, 100, 50, dim, 0⟩

/-- The field `n->data`. -/
def HNSW.dataOf (h : HNSW) (n : Nat) : Vec :=
  match h.nodes[n]? with
  | some nd => nd.data
  | none => []

/-- The field `n->label`. -/
def HNSW.labelOf (h : HNSW) (n : Nat) : Int :=
  match h.nodes[n]? with
  | some nd => nd.label
  | none => 0

/-- The access `n->neighbors[layer]`; `none` when `layer` is out of bounds. -/
def HNSW.nbAt (h : HNSW) (layer : Nat) (n : Nat) : Option (List Nat) :=
  match h.nodes[n]? with
  | some nd => nd.neighbors[layer]?
  | none => none

/-- The value `l2distance(n->data, q, vec_dim)`. -/
def HNSW.distTo (dist : Dist) (h : HNSW) (q : Vec) (n : Nat) : Int :=
  dist (h.dataOf n) q h.vec_dim

/-- One iteration of the loop of `get_nearest` on the pair `(mind, nearest)`. -/
def nearestStep (d : Nat → Int) (acc : Int × Option Nat) (n : Nat) : Int × Option Nat :=
  if d n < acc.1 then (d n, some n) else acc

/-- One iteration of the loop of `get_furthest` on the pair `(maxd, furthest)`. -/
def furthestStep (d : Nat → Int) (acc : Int × Option Nat) (n : Nat) : Int × Option Nat :=
  if d n > acc.1 then (d n, some n) else acc

/-- The loop of `get_nearest` over a set, for the distance `d`. -/
def nearestOf (o : IterOrder) (d : Nat → Int) (candidates : List Nat) : Option Nat :=
  ((o.run candidates).foldl (nearestStep d) (LONG_MAX, none)).2

/-- The loop of `get_furthest` over a set, for the distance `d`. -/
def furthestOf (o : IterOrder) (d : Nat → Int) (candidates : List Nat) : Option Nat :=
  ((o.run candidates).foldl (furthestStep d) (LONG_MIN, none)).2

/-- The method `HNSW::get_nearest`. -/
def HNSW.get_nearest (o : IterOrder) (dist : Dist) (h : HNSW) (candidates : List Nat)
    (q : Vec) : Option Nat :=
  nearestOf o (h.distTo dist q) candidates

/-- The method `HNSW::get_furthest`. -/
def HNSW.get_furthest (o : IterOrder) (dist : Dist) (h : HNSW) (candidates : List Nat)
    (q : Vec) : Option Nat :=
  furthestOf o (h.distTo dist q) candidates

/-- The body of `for (auto n : c->neighbors[layer])` in `search_layer`, on the sets `W`, `V`,
`C`.  The test `W.size() < ef || d(n) < d(f)` dereferences `f` only when `W.size() >= ef`. -/
def visitStep (o : IterOrder) (d : Nat → Int) (ef : Int) (n : Nat)
    (W V C : List Nat) : Option (List Nat × List Nat × List Nat) :=
  if n ∈ V then some (W, V, C)
  else
    let V1 := setInsert V n
    let f := furthestOf o d W
    let closer : Option Bool :=
      if W.length < toSizeT ef then some true
      else match f with
        | none => none
        | some fi => some (decide (d n < d fi))
    match closer with
    | none => none
    | some false => some (W, V1, C)
    | some true =>
      let W1 := setInsert W n
      let C1 := setInsert C n
      some (if toSizeT ef < W1.length then setErase W1 f else W1, V1, C1)

/-- The inner `for (auto n : c->neighbors[layer])` loop of `search_layer`, on the neighbours
in iteration order. -/
def visitAll (o : IterOrder) (d : Nat → Int) (ef : Int) :
    List Nat → List Nat → List Nat → List Nat → Option (List Nat × List Nat × List Nat)
  | [], W, V, C => some (W, V, C)
  | n :: ns, W, V, C =>
    match visitStep o d ef n W V C with
    | none => none
    | some (W1, V1, C1) => visitAll o d ef ns W1 V1 C1

/-- The body of `while (!C.empty())` in `search_layer`; `adj c` is `c->neighbors[layer]`.  The
result is `Sum.inl W` when the loop is left by `break` and `Sum.inr (W, V, C)` otherwise. -/
def searchBody (o : IterOrder) (d : Nat → Int) (adj : Nat → Option (List Nat)) (ef : Int)
    (W V C : List Nat) : Option (List Nat ⊕ (List Nat × List Nat × List Nat)) :=
  match nearestOf o d C with
  | none => none
  | some c =>
    let C1 := setErase C (some c)
    match furthestOf o d W with
    | none => none
    | some f =>
      if d c > d f then some (Sum.inl W)
      else
        match adj c with
        | none => none
        | some nbs =>
          match visitAll o d ef (o.run nbs) W V C1 with
          | none => none
          | some r => some (Sum.inr r)

/-- The `while (!C.empty())` loop of `search_layer`.  The first argument bounds the number of
iterations. -/
def searchLoop (o : IterOrder) (d : Nat → Int) (adj : Nat → Option (List Nat)) (ef : Int) :
    Nat → List Nat → List Nat → List Nat → Option (List Nat)
  | 0, _, _, _ => none
  | fuel + 1, W, V, C =>
    if C = [] then some W
    else
      match searchBody o d adj ef W V C with
      | none => none
      | some (Sum.inl R) => some R
      | some (Sum.inr (W2, V2, C2)) => searchLoop o d adj ef fuel W2 V2 C2

/-- The method `HNSW::search_layer`.  Each iteration of the loop removes from `C` a node that
entered `C` when it was first visited, so `nodes.length + 1` rounds are enough. -/
def HNSW.search_layer (o : IterOrder) (dist : Dist) (h : HNSW) (q : Vec) (ep : Option Nat)
    (ef : Int) (layer : Nat) : Option (List Nat) :=
  match ep with
  | none => none
  | some e => searchLoop o (h.distTo dist q) (h.nbAt layer) ef (h.nodes.length + 1) [e] [e] [e]

/-- The member `pq.top()` of the min-priority queue of `select_neighbors`: an element of least
distance (which one among equals is left to the iteration order). -/
def pq_top (o : IterOrder) (d : Nat → Int) (pq : List Nat) : Option Nat :=
  match o.run pq with
  | [] => none
  | x :: xs => some (xs.foldl (fun b n => if d n < d b then n else b) x)

/-- The loop `for (i = 0; i < num && !pq.empty(); i++)` of `select_neighbors`. -/
def popLoop (o : IterOrder) (d : Nat → Int) : Nat → List Nat → List Nat → List Nat
  | 0, _, res => res
  | i + 1, pq, res =>
    match pq_top o d pq with
    | none => res
    | some t => popLoop o d i (pq.erase t) (setInsert res t)

/-- The selection performed by `select_neighbors` for the distance `d`. -/
def selectOf (o : IterOrder) (d : Nat → Int) (candidates : List Nat) (num : Int) : List Nat :=
  popLoop o d num.toNat (o.run candidates) []

/-- The method `HNSW::select_neighbors`. -/
def HNSW.select_neighbors (o : IterOrder) (dist : Dist) (h : HNSW) (q : Vec)
    (candidates : List Nat) (num : Int) : List Nat :=
  selectOf o (h.distTo dist q) candidates num

/-- The assignment `n->neighbors[layer] = nbs`; `none` when out of bounds. -/
def HNSW.set_neighbors (h : HNSW) (n : Nat) (nbs : List Nat) (layer : Nat) : Option HNSW :=
  match h.nodes[n]? with
  | none => none
  | some nd =>
    if layer < nd.neighbors.length then
      some { h with nodes := h.nodes.set n { nd with neighbors := nd.neighbors.set layer nbs } }
    else none

/-- The effect of `add_neighbor(new_node, layer)` and of the following `if` on the set
`nb = n->neighbors[layer]`: the new node is stored and, when the size then exceeds `M_max`,
the result of `get_furthest(n->neighbors[layer], n->data)` is erased. -/
def addPruned (o : IterOrder) (dist : Dist) (h : HNSW) (newId n : Nat) (nb : List Nat) :
    List Nat :=
  let nb1 := setInsert nb newId
  if toSizeT h.M_max < nb1.length then
    setErase nb1 (h.get_furthest o dist nb1 (h.dataOf n))
  else nb1

/-- The body of `for (auto n : neighbors)` in `insert`: `add_neighbor` followed by the
eviction of the furthest neighbour when the degree exceeds `M_max`. -/
def linkOne (o : IterOrder) (dist : Dist) (newId layer : Nat) (n : Nat) (h : HNSW) :
    Option HNSW :=
  match h.nbAt layer n with
  | none => none
  | some nb => h.set_neighbors n (addPruned o dist h newId n nb) layer

/-- The loop `for (auto n : neighbors)` of `insert`, on the neighbours in iteration order. -/
def linkNeighbors (o : IterOrder) (dist : Dist) (newId layer : Nat) :
    List Nat → HNSW → Option HNSW
  | [], h => some h
  | n :: ns, h =>
    match linkOne o dist newId layer n h with
    | none => none
    | some h1 => linkNeighbors o dist newId layer ns h1

/-- The body of `for (layer = max_level; layer > L; layer--)` in `insert` and `query`. -/
def descendStep (o : IterOrder) (dist : Dist) (h : HNSW) (q : Vec) (layer : Nat)
    (ep : Option Nat) : Option (Option Nat) :=
  match h.search_layer o dist q ep 1 layer with
  | none => none
  | some W => some (h.get_nearest o dist W q)

/-- The loop `for (layer = max_level; layer > L; layer--)` of `insert` and `query`, with
`cnt` layers left above `L`. -/
def descend (o : IterOrder) (dist : Dist) (h : HNSW) (q : Vec) :
    Nat → Nat → Option Nat → Option (Option Nat)
  | 0, _, ep => some ep
  | cnt + 1, L, ep =>
    match descendStep o dist h q (L + cnt + 1) ep with
    | none => none
    | some ep1 => descend o dist h q cnt L ep1

/-- The body of `for (layer = min(L, max_level); layer >= 0; layer--)` in `insert`. -/
def linkStep (o : IterOrder) (dist : Dist) (data : Vec) (newId : Nat) (layer : Nat)
    (h : HNSW) (ep : Option Nat) : Option (HNSW × Option Nat) :=
  match h.search_layer o dist data ep h.ef_construction layer with
  | none => none
  | some W =>
    let neighbors := h.select_neighbors o dist data W h.M
    match h.set_neighbors newId neighbors layer with
    | none => none
    | some h1 =>
      match linkNeighbors o dist newId layer (o.run neighbors) h1 with
      | none => none
      | some h2 => some (h2, h2.get_nearest o dist W data)

/-- The loop `for (layer = min(L, max_level); layer >= 0; layer--)` of `insert`; the first
argument is `layer + 1`. -/
def linkLayers (o : IterOrder) (dist : Dist) (data : Vec) (newId : Nat) :
    Nat → HNSW → Option Nat → Option (HNSW × Option Nat)
  | 0, h, ep => some (h, ep)
  | layer + 1, h, ep =>
    match linkStep o dist data newId layer h ep with
    | none => none
    | some (h1, ep1) => linkLayers o dist data newId layer h1 ep1

/-- The allocation `new Node(data, label, L)`: the new node is the last one of the arena. -/
def HNSW.alloc (h : HNSW) (data : Vec) (label : Int) (L : Nat) : HNSW :=
  { h with nodes := h.nodes ++ [Node.new data label L] }

/-- The method `HNSW::insert`; `L` is the value returned by `get_random_level()`. -/
def HNSW.insert (o : IterOrder) (dist : Dist) (h : HNSW) (data : Vec) (label : Int)
    (L : Nat) : Option HNSW :=
  match h.entry_point with
  | none => some { h.alloc data label 0 with entry_point := some h.nodes.length }
  | some e =>
    let newId := h.nodes.length
    let h0 : HNSW := h.alloc data label L
    match descend o dist h0 data (h.max_level - L) L (some e) with
    | none => none
    | some ep =>
      match linkLayers o dist data newId (min L h.max_level + 1) h0 ep with
      | none => none
      | some (h1, _) =>
        some (if L > h.max_level then { h1 with max_level := L, entry_point := some newId }
              else h1)

/-- The nodes visited by the final loop `for (auto n : neighbors)` of `query`, in the order
in which their labels are pushed to the result. -/
def HNSW.queryNodes (o : IterOrder) (dist : Dist) (h : HNSW) (data : Vec) (k : Int) :
    Option (List Nat) :=
  match h.entry_point with
  | none => some []
  | some e =>
    match descend o dist h data h.max_level 0 (some e) with
    | none => none
    | some ep =>
      match h.search_layer o dist data ep h.ef_search 0 with
      | none => none
      | some W => some (o.run (h.select_neighbors o dist data W k))

/-- The method `HNSW::query`: `res.push_back(n->label)` for the nodes of `queryNodes`. -/
def HNSW.query (o : IterOrder) (dist : Dist) (h : HNSW) (data : Vec) (k : Int) :
    Option (List Int) :=
  match h.queryNodes o dist data k with
  | none => none
  | some ns => some (ns.map h.labelOf)

/-- The value of `INT_MAX` for a 32-bit `int`. -/
def INT_MAX : Int := 2147483647

/-- The results of `l2distance` lie strictly between `LONG_MIN` and `LONG_MAX`, the two
sentinels with which `get_furthest` and `get_nearest` start. -/
def DistInRange (dist : Dist) : Prop :=
  ∀ a b n, LONG_MIN < dist a b n ∧ dist a b n < LONG_MAX

/-- The node `b` is referenced from `a->neighbors[layer]`, where `adj a` is that set. -/
def Edge (adj : Nat → Option (List Nat)) (a b : Nat) : Prop :=
  ∃ nbs, adj a = some nbs ∧ b ∈ nbs

/-- The node `x` is `ep` or is reached from `ep` by following `neighbors[layer]` references. -/
def Reach (adj : Nat → Option (List Nat)) (ep x : Nat) : Prop :=
  Relation.ReflTransGen (Edge adj) ep x

/-- The loop invariant of `search_layer` on the sets `W`, `V`, `C`, for a set `G` of nodes
closed under `neighbors[layer]`. -/
structure SearchInv (G : Nat → Prop) (ef : Int) (W V C : List Nat) : Prop where
  W_ne : W ≠ []
  W_nodup : W.Nodup
  W_len : W.length ≤ max 1 (toSizeT ef)
  V_nodup : V.Nodup
  C_nodup : C.Nodup
  W_sub : ∀ x ∈ W, x ∈ V
  C_sub : ∀ x ∈ C, x ∈ V
  V_good : ∀ x ∈ V, G x

/-- The node `n` exists and `n->neighbors[layer]` is within bounds. -/
def HNSW.hasLayer (h : HNSW) (layer n : Nat) : Prop :=
  (h.nbAt layer n).isSome = true

instance (h : HNSW) (layer n : Nat) : Decidable (h.hasLayer layer n) := by
  unfold HNSW.hasLayer
  infer_instance

/-- The part of a node that `insert` never changes once the node is allocated: `data`,
`label`, `max_level` and the number of layers of `neighbors`. -/
def Node.shapeOf (nd : Node) : Vec × Int × Nat × Nat :=
  (nd.data, nd.label, nd.max_level, nd.neighbors.length)

/-- The states `h` and `h1` differ at most in the contents of neighbour sets. -/
structure Frame (h h1 : HNSW) : Prop where
  entry : h1.entry_point = h.entry_point
  cM : h1.M = h.M
  cM_max : h1.M_max = h.M_max
  cefc : h1.ef_construction = h.ef_construction
  cefs : h1.ef_search = h.ef_search
  cdim : h1.vec_dim = h.vec_dim
  lvl : h1.max_level = h.max_level
  shape : h1.nodes.map Node.shapeOf = h.nodes.map Node.shapeOf

/-- Level containment: every node referenced from some `neighbors[layer]` exists and has
that layer. -/
def LevelClosed (h : HNSW) : Prop :=
  ∀ layer n nb, h.nbAt layer n = some nb → ∀ m ∈ nb, h.hasLayer layer m

/-- No set `neighbors[layer]` references the node `x`. -/
def NoRef (h : HNSW) (layer x : Nat) : Prop :=
  ∀ n nb, h.nbAt layer n = some nb → x ∉ nb

/-- The layer `l` of `h2` is the layer `l` of `h` after one round of the linking loop of
`insert` for the new node `newId`: a search from some node `e`, the selection `S` of `M`
neighbours, `S` stored in the new node, and the new node added (with eviction) to the
members of `S`. -/
def LinkedLayer (o : IterOrder) (dist : Dist) (h h2 : HNSW) (data : Vec) (newId l : Nat) :
    Prop :=
  ∃ e W, e ≠ newId ∧ h.hasLayer l e ∧
    h.search_layer o dist data (some e) h.ef_construction l = some W ∧
    W.Nodup ∧ (∀ x ∈ W, Reach (h.nbAt l) e x) ∧
    ∀ m, h2.nbAt l m =
      if m = newId then some (h.select_neighbors o dist data W h.M)
      else if m ∈ h.select_neighbors o dist data W h.M then
        (h.nbAt l m).map (addPruned o dist h newId m)
      else h.nbAt l m

/-- Well-formedness of an index state: level containment, one neighbour set per layer
`0..max_level` of every node, and a valid entry point of maximal level. -/
structure WF (h : HNSW) : Prop where
  closed : LevelClosed h
  layers : ∀ (n : Nat) (nd : Node), h.nodes[n]? = some nd →
    nd.neighbors.length = nd.max_level + 1
  entry_none : h.entry_point = none → h.nodes = [] ∧ h.max_level = 0
  entry_some : ∀ e, h.entry_point = some e →
    ∃ nd, h.nodes[e]? = some nd ∧ nd.max_level = h.max_level
  levels : ∀ (n : Nat) (nd : Node), h.nodes[n]? = some nd → nd.max_level ≤ h.max_level

/-- An index on which `insert` has not been called yet: the state left by the constructor,
whose public configuration fields may have been reassigned. -/
def HNSW.isFresh (h : HNSW) : Prop :=
  h.nodes = [] ∧ h.entry_point = none ∧ h.max_level = 0

/-- The states reached from `h0` by calls of `insert` that return; every call has its own
iteration order and sampled level. -/
inductive Reachable (dist : Dist) (h0 : HNSW) : HNSW → Prop
  | init : Reachable dist h0 h0
  | step {h h1 : HNSW} (o : IterOrder) (data : Vec) (label : Int) (L : Nat) :
      Reachable dist h0 h → h.insert o dist data label L = some h1 → Reachable dist h0 h1

/-- Modelled from the spec: the `int` range onto which a 32-bit accumulation wraps. -/
def wrapInt32 (x : Int) : Int := (x + 2147483648) % 4294967296 - 2147483648

/-- Modelled from the spec: `HNSWLab::l2distance` of the absent `util/util.hpp`, the squared
Euclidean distance of the first `vec_dim` coordinates, accumulated on a 32-bit path. -/
def l2distance : Dist := fun a b vec_dim =>
  wrapInt32 ((((a.zip b).take vec_dim.toNat).map (fun p => (p.1 - p.2) * (p.1 - p.2))).sum)

/-- Every neighbour set of `h` is duplicate-free and has at most `K` members. -/
def SetsBounded (h : HNSW) (K : Int) : Prop :=
  ∀ l n nb, h.nbAt l n = some nb → nb.Nodup ∧ (nb.length : Int) ≤ K

/-- The sequence of nodes `ids` is ordered nearest-first with respect to `q`: the distances
to `q` do not decrease along it. -/
def NearestFirst (dist : Dist) (h : HNSW) (q : Vec) (ids : List Nat) : Prop :=
  List.Pairwise (fun a b => h.distTo dist q a ≤ h.distTo dist q b) ids

instance (dist : Dist) (h : HNSW) (q : Vec) (ids : List Nat) :
    Decidable (NearestFirst dist h q ids) := by
  unfold NearestFirst
  infer_instance

/-- An empty index of dimension 2 with `M = M_max = 2` and `ef_construction = ef_search = 4`. -/
def demoIndex0 : HNSW :=
  { HNSW.new 2 with M := 2, M_max := 2, ef_construction := 4, ef_search := 4 }

/-- The index `demoIndex0` after `insert((0,0), 0)`. -/
def demoIndex1 : HNSW :=
  { demoIndex0 with nodes := [⟨[0, 0], 0, 0, [[]]⟩], entry_point := some 0 }

/-- The index `demoIndex1` after `insert((10,10), 1)` with sampled level 0. -/
def demoIndex2 : HNSW :=
  { demoIndex1 with nodes := [⟨[0, 0], 0, 0, [[1]]⟩, ⟨[10, 10], 1, 0, [[0]]⟩] }

/-- The index `demoIndex2` after `insert((0,10), 2)` with sampled level 0. -/
def demoIndex3 : HNSW :=
  { demoIndex1 with nodes := [⟨[0, 0], 0, 0, [[1, 2]]⟩, ⟨[10, 10], 1, 0, [[0, 2]]⟩,
      ⟨[0, 10], 2, 0, [[0, 1]]⟩] }

/-- The index `demoIndex3` after `insert((10,0), 3)` with sampled level 0. -/
def demoIndex4 : HNSW :=
  { demoIndex1 with nodes := [⟨[0, 0], 0, 0, [[2, 3]]⟩, ⟨[10, 10], 1, 0, [[2, 3]]⟩,
      ⟨[0, 10], 2, 0, [[0, 1]]⟩, ⟨[10, 0], 3, 0, [[0, 1]]⟩] }

/-- The invariant behind symmetry: neighbour sets are duplicate-free, no node is its own
neighbour, and every reference has its reverse. -/
structure SymInv (h : HNSW) : Prop where
  nodup : ∀ l n nb, h.nbAt l n = some nb → nb.Nodup
  noself : ∀ l n nb, h.nbAt l n = some nb → n ∉ nb
  sym : ∀ l a b nbA nbB, h.nbAt l a = some nbA → h.nbAt l b = some nbB → a ∈ nbB → b ∈ nbA

/-- An empty index of dimension 1 with `M = M_max = 1`. -/
def lineIndex0 : HNSW := { HNSW.new 1 with M := 1, M_max := 1 }

/-- The index `lineIndex0` after `insert((0), 0)`. -/
def lineIndex1 : HNSW :=
  { lineIndex0 with nodes := [⟨[0], 0, 0, [[]]⟩], entry_point := some 0 }

/-- The index `lineIndex1` after `insert((1), 1)` with sampled level 0. -/
def lineIndex2 : HNSW :=
  { lineIndex1 with nodes := [⟨[0], 0, 0, [[1]]⟩, ⟨[1], 1, 0, [[0]]⟩] }

/-- The index `lineIndex2` after `insert((3), 2)` with sampled level 0: node 1 received the
new node 2, exceeded `M_max = 1` and erased its furthest neighbour, which is node 2. -/
def lineIndex3 : HNSW :=
  { lineIndex1 with nodes := [⟨[0], 0, 0, [[1]]⟩, ⟨[1], 1, 0, [[0]]⟩, ⟨[3], 2, 0, [[1]]⟩] }

/-- The additional loop invariant of `search_layer` when all nodes reachable from `ep` fit
into `W`: nothing is evicted, and every visited node that has left `C` has all its neighbours
visited. -/
structure FullInv (adj : Nat → Option (List Nat)) (ep : Nat) (W V C : List Nat) : Prop where
  V_sub : ∀ x ∈ V, x ∈ W
  C_subW : ∀ x ∈ C, x ∈ W
  ep_mem : ep ∈ V
  closed : ∀ x ∈ V, x ∉ C → ∀ nbs, adj x = some nbs → ∀ n ∈ nbs, n ∈ V

/-- The index `h` has the configuration of `demoIndex0` and holds exactly the records
`pts`, the record at position `m` carrying the label `m`. -/
structure Holds (h : HNSW) (pts : List Vec) : Prop where
  wf : WF h
  len : h.nodes.length = pts.length
  cM : h.M = 2
  cM_max : h.M_max = 2
  cefc : h.ef_construction = 4
  cefs : h.ef_search = 4
  cdim : h.vec_dim = 2
  data : ∀ m, m < pts.length → h.dataOf m = pts.getD m []
  label : ∀ m, m < pts.length → h.labelOf m = (m : Int)

/-- The loop body of the layer search as the specification words it (§4.3, step b): stop
only if `c` is farther from the query than the farthest member of the result and the result
already has `ef` members.  Step c is the loop `visitAll` of the code. -/
def searchBodySpec (o : IterOrder) (d : Nat → Int) (adj : Nat → Option (List Nat)) (ef : Int)
    (W V C : List Nat) : Option (List Nat ⊕ (List Nat × List Nat × List Nat)) :=
  match nearestOf o d C with
  | none => none
  | some c =>
    let C1 := setErase C (some c)
    match furthestOf o d W with
    | none => none
    | some f =>
      if d c > d f ∧ toSizeT ef ≤ W.length then some (Sum.inl W)
      else
        match adj c with
        | none => none
        | some nbs =>
          match visitAll o d ef (o.run nbs) W V C1 with
          | none => none
          | some r => some (Sum.inr r)

/-- The loop of the layer search with the body `searchBodySpec`. -/
def searchLoopSpec (o : IterOrder) (d : Nat → Int) (adj : Nat → Option (List Nat)) (ef : Int) :
    Nat → List Nat → List Nat → List Nat → Option (List Nat)
  | 0, _, _, _ => none
  | fuel + 1, W, V, C =>
    if C = [] then some W
    else
      match searchBodySpec o d adj ef W V C with
      | none => none
      | some (Sum.inl R) => some R
      | some (Sum.inr (W2, V2, C2)) => searchLoopSpec o d adj ef fuel W2 V2 C2

/-- The layer search of the specification: `search_layer` with the stopping rule of
`searchBodySpec`. -/
def HNSW.search_layer_spec (o : IterOrder) (dist : Dist) (h : HNSW) (q : Vec)
    (ep : Option Nat) (ef : Int) (layer : Nat) : Option (List Nat) :=
  match ep with
  | none => none
  | some e =>
    searchLoopSpec o (h.distTo dist q) (h.nbAt layer) ef (h.nodes.length + 1) [e] [e] [e]

/-- The values of `W`, `V`, `C` with which the `while` loop of `search_layer`, started at
`ep`, evaluates its condition. -/
inductive LoopState (o : IterOrder) (d : Nat → Int) (adj : Nat → Option (List Nat)) (ef : Int)
    (ep : Nat) : List Nat → List Nat → List Nat → Prop
  | init : LoopState o d adj ef ep [ep] [ep] [ep]
  | step {W V C W2 V2 C2 : List Nat} : LoopState o d adj ef ep W V C → C ≠ [] →
      searchBody o d adj ef W V C = some (Sum.inr (W2, V2, C2)) →
      LoopState o d adj ef ep W2 V2 C2

/-- While `W` has fewer than `ef` members every candidate is a member of `W`, and `W` never
has more than `ef` members (one member when `ef` is 0). -/
def BreakInv (ef : Int) (W C : List Nat) : Prop :=
  (W.length < toSizeT ef → ∀ x ∈ C, x ∈ W) ∧ W.length ≤ max 1 (toSizeT ef)

/-- The loop invariant of `search_layer` for `ef = 1`: `W` holds one node `w`, which is
nearest to the query among all visited nodes, and `w` is still a candidate or all its
neighbours are visited. -/
def GreedyInv (d : Nat → Int) (adj : Nat → Option (List Nat)) (ep : Nat)
    (W V C : List Nat) : Prop :=
  ∃ w, W = [w] ∧ w ∈ V ∧ ep ∈ V ∧ (∀ x ∈ V, d w ≤ d x) ∧
    (w ∈ C ∨ ∀ nb, adj w = some nb → ∀ n ∈ nb, n ∈ V)

/-- The loop `while (!C.empty())` of `search_layer` as in `searchLoop`, returning in addition
the number of times the loop body was entered (the iteration left by `break` included). -/
def searchLoopCount (o : IterOrder) (d : Nat → Int) (adj : Nat → Option (List Nat))
    (ef : Int) : Nat → List Nat → List Nat → List Nat → Option (List Nat × Nat)
  | 0, _, _, _ => none
  | fuel + 1, W, V, C =>
    if C = [] then some (W, 0)
    else
      match searchBody o d adj ef W V C with
      | none => none
      | some (Sum.inl R) => some (R, 1)
      | some (Sum.inr (W2, V2, C2)) =>
        match searchLoopCount o d adj ef fuel W2 V2 C2 with
        | none => none
        | some (R, n) => some (R, n + 1)

/-- The test `n->neighbors[layer].size() > M_max` of `insert` for the existing node `m` at
layer `l`, read off the state `h` before the call and the state `h2` after it: `m` is in the
set stored in the new node at layer `l`, so `add_neighbor(new_node, l)` was called on it, and
its set with the new node added has more than `M_max` members. -/
def HNSW.evictsAt (h h2 : HNSW) (l m : Nat) : Bool :=
  match h2.nbAt l h.nodes.length, h.nbAt l m with
  | some S, some nb =>
    decide (m ∈ S) && decide (toSizeT h.M_max < (setInsert nb h.nodes.length).length)
  | _, _ => false

/-- The call of `insert` that led from `h` to `h2` erased nothing: at no layer and for no
existing node was the test `n->neighbors[layer].size() > M_max` true. -/
def NoEviction (h h2 : HNSW) : Prop :=
  ∀ l, l < h2.max_level + 1 → ∀ m, m < h.nodes.length → h.evictsAt h2 l m = false

instance (h h2 : HNSW) : Decidable (NoEviction h h2) := by
  unfold NoEviction
  infer_instance

/-- The states reached from `h0` by calls of `insert` that return and erase nothing. -/
inductive ReachableQuiet (dist : Dist) (h0 : HNSW) : HNSW → Prop
  | init : ReachableQuiet dist h0 h0
  | step {h h1 : HNSW} (o : IterOrder) (data : Vec) (label : Int) (L : Nat) :
      ReachableQuiet dist h0 h → h.insert o dist data label L = some h1 →
      NoEviction h h1 → ReachableQuiet dist h0 h1

/-- The work of a call counted in two ways: the number of calls of `l2distance` and the
number of reads of a field of a `Node` (`n->data`, `n->label`, `n->neighbors[layer]`). -/
structure Cost where
  distances : Nat
  reads : Nat
deriving DecidableEq

/-- The sum of two counts. -/
def Cost.add (a b : Cost) : Cost := ⟨a.distances + b.distances, a.reads + b.reads⟩

instance : Add Cost := ⟨Cost.add⟩

/-- The count of `n` evaluations of `l2distance(x->data, q, vec_dim)`: `n` calls, each reading
one field `data`. -/
def Cost.dists (n : Nat) : Cost := ⟨n, n⟩

/-- The count of `n` reads of a field without a distance. -/
def Cost.fields (n : Nat) : Cost := ⟨0, n⟩

/-- The count of the body of `for (auto n : c->neighbors[layer])` in `search_layer` run by
`visitStep`: nothing for a visited node; otherwise `get_furthest(W, q)` evaluates one distance
per member of `W`, and the test evaluates two more unless `W.size() < ef`. -/
def visitStepCost (ef : Int) (n : Nat) (W V : List Nat) : Cost :=
  if n ∈ V then Cost.dists 0
  else if W.length < toSizeT ef then Cost.dists W.length
  else Cost.dists W.length + Cost.dists 2

/-- The loop `visitAll` together with its count. -/
def visitAllCost (o : IterOrder) (d : Nat → Int) (ef : Int) :
    List Nat → List Nat → List Nat → List Nat →
      Option ((List Nat × List Nat × List Nat) × Cost)
  | [], W, V, C => some ((W, V, C), Cost.dists 0)
  | n :: ns, W, V, C =>
    match visitStep o d ef n W V C with
    | none => none
    | some (W1, V1, C1) =>
      match visitAllCost o d ef ns W1 V1 C1 with
      | none => none
      | some (r, k) => some (r, visitStepCost ef n W V + k)

/-- The body `searchBody` of the loop of `search_layer` together with its count:
`get_nearest(C, q)` and `get_furthest(W, q)` evaluate one distance per member, the test of the
`break` two more, and a round that goes on reads `c->neighbors[layer]`. -/
def searchBodyCost (o : IterOrder) (d : Nat → Int) (adj : Nat → Option (List Nat)) (ef : Int)
    (W V C : List Nat) :
    Option ((List Nat ⊕ (List Nat × List Nat × List Nat)) × Cost) :=
  match nearestOf o d C with
  | none => none
  | some c =>
    let C1 := setErase C (some c)
    match furthestOf o d W with
    | none => none
    | some f =>
      let k0 := Cost.dists C.length + Cost.dists W.length + Cost.dists 2
      if d c > d f then some (Sum.inl W, k0)
      else
        match adj c with
        | none => none
        | some nbs =>
          match visitAllCost o d ef (o.run nbs) W V C1 with
          | none => none
          | some (r, k) => some (Sum.inr r, k0 + Cost.fields 1 + k)

/-- The loop `searchLoop` of `search_layer` together with its count. -/
def searchLoopCost (o : IterOrder) (d : Nat → Int) (adj : Nat → Option (List Nat))
    (ef : Int) : Nat → List Nat → List Nat → List Nat → Option (List Nat × Cost)
  | 0, _, _, _ => none
  | fuel + 1, W, V, C =>
    if C = [] then some (W, Cost.dists 0)
    else
      match searchBodyCost o d adj ef W V C with
      | none => none
      | some (Sum.inl R, k) => some (R, k)
      | some (Sum.inr (W2, V2, C2), k) =>
        match searchLoopCost o d adj ef fuel W2 V2 C2 with
        | none => none
        | some (R, k2) => some (R, k + k2)

/-- The method `HNSW::search_layer` together with its count. -/
def HNSW.search_layerCost (o : IterOrder) (dist : Dist) (h : HNSW) (q : Vec)
    (ep : Option Nat) (ef : Int) (layer : Nat) : Option (List Nat × Cost) :=
  match ep with
  | none => none
  | some e =>
    searchLoopCost o (h.distTo dist q) (h.nbAt layer) ef (h.nodes.length + 1) [e] [e] [e]

/-- The loop `descend` of `query` together with its count: per layer one `search_layer` and
one `get_nearest(W, data)`, which evaluates one distance per member of `W`. -/
def descendCost (o : IterOrder) (dist : Dist) (h : HNSW) (q : Vec) :
    Nat → Nat → Option Nat → Option (Option Nat × Cost)
  | 0, _, ep => some (ep, Cost.dists 0)
  | cnt + 1, L, ep =>
    match h.search_layerCost o dist q ep 1 (L + cnt + 1) with
    | none => none
    | some (W, k) =>
      match descendCost o dist h q cnt L (h.get_nearest o dist W q) with
      | none => none
      | some (ep2, k2) => some (ep2, k + Cost.dists W.length + k2)

/-- The method `HNSW::query` together with its count: nothing when `entry_point` is null;
otherwise the descent, the layer-0 search, one distance per member of `W` pushed to the
priority queue of `select_neighbors`, and one read of `n->label` per returned node. -/
def HNSW.queryCost (o : IterOrder) (dist : Dist) (h : HNSW) (data : Vec) (k : Int) :
    Option (List Int × Cost) :=
  match h.entry_point with
  | none => some ([], Cost.dists 0)
  | some e =>
    match descendCost o dist h data h.max_level 0 (some e) with
    | none => none
    | some (ep, k1) =>
      match h.search_layerCost o dist data ep h.ef_search 0 with
      | none => none
      | some (W, k2) =>
        let S := o.run (h.select_neighbors o dist data W k)
        some (S.map h.labelOf, k1 + k2 + Cost.dists W.length + Cost.fields S.length)

end HNSWLab

/-! ## The compressed radix tree of `radix_tree/radix.hpp` -/

/-- The ways in which a call of a method of `CompressedRadixTree` leaves defined behaviour:
a shift whose count is negative or not less than the width of its 32-bit operand, the
dereference of a null pointer, an index outside a `std::array` of four children, and (for the
loops of this model only) an exhausted iteration budget. -/
inductive Fault where
  | shiftCount
  | nullDeref
  | arrayIndex
  | loopBudget
  deriving DecidableEq

/-- The struct `CompressedRadixTree::Node`: `val` is a `uint32_t`, `len` an `int`, and a
`Node*` or `unique_ptr<Node>` is the position of the node in the arena (`none` when null). -/
structure CompressedRadixTree.Node where
  val : Nat
  len : Int
  parent : Option Nat
  children : List (Option Nat)
  deriving DecidableEq

/-- The class `CompressedRadixTree` with the nodes it has allocated: `root` is position 0,
and a node that was deleted stays in `nodes`, referenced from nowhere. -/
structure CompressedRadixTree where
  nodes : List CompressedRadixTree.Node
  deriving DecidableEq

namespace CompressedRadixTree

/-- The value-initialised member `children`: four null pointers. -/
def nullChildren : List (Option Nat) := [none, none, none, none]

/-- The member initialiser `root = std::make_unique<Node>()`: the tree after construction. -/
def empty : CompressedRadixTree := ⟨[⟨0, 0, none, nullChildren⟩]⟩

/-- The conversion `(uint32_t)value`. -/
def toU32 (value : Int) : Nat := (value % 4294967296).toNat

/-- The expression `x << c` on a `uint32_t`. -/
def shl32 (x : Nat) (c : Int) : Except Fault Nat :=
  if 0 ≤ c ∧ c < 32 then .ok ((x * 2 ^ c.toNat) % 4294967296) else .error .shiftCount

/-- The expression `x >> c` on a `uint32_t`. -/
def shr32 (x : Nat) (c : Int) : Except Fault Nat :=
  if 0 ≤ c ∧ c < 32 then .ok (x / 2 ^ c.toNat) else .error .shiftCount

/-- The expression `(value >> (i - 2)) & 0x3` on the `int32_t value`: an arithmetic shift. -/
def bitAt (value : Int) (i : Int) : Except Fault Nat :=
  if 0 ≤ i - 2 ∧ i - 2 < 32 then .ok ((Int.shiftRight value (i - 2).toNat % 4).toNat)
  else .error .shiftCount

/-- The dereference of the pointer `p`. -/
def node (t : CompressedRadixTree) (p : Nat) : Except Fault Node :=
  match t.nodes[p]? with
  | some nd => .ok nd
  | none => .error .nullDeref

/-- An assignment to fields of the node `*p`. -/
def setNode (t : CompressedRadixTree) (p : Nat) (nd : Node) : CompressedRadixTree :=
  ⟨t.nodes.set p nd⟩

/-- The call `std::make_unique<Node>(...)`; the new node has position `t.nodes.length`. -/
def alloc (t : CompressedRadixTree) (nd : Node) : CompressedRadixTree :=
  ⟨t.nodes ++ [nd]⟩

/-- The loop `while (mask) { mask >>= 1; ++len2; }` of `insert`; a 32-bit `mask` is zero
after at most 32 rounds. -/
def bitLength : Nat → Nat → Int → Int
  | 0, _, len2 => len2
  | fuel + 1, mask, len2 => if mask = 0 then len2 else bitLength fuel (mask / 2) (len2 + 1)

/-- The statement `if (len2 % 2 != 0) len2++;` of `insert`. -/
def roundEven (len2 : Int) : Int := if len2 % 2 ≠ 0 then len2 + 1 else len2

/-- The loop `for (int j = 0; j < 4; ++j)` of `insert` that moves the children of `tmp` to
`new_child` and redirects their parent pointers; the list holds the values of `j` to run. -/
def moveChildren (tmp newChild : Nat) :
    List Nat → CompressedRadixTree → Except Fault CompressedRadixTree
  | [], t => .ok t
  | j :: js, t =>
    match t.node tmp with
    | .error e => .error e
    | .ok tn =>
      let c := tn.children.getD j none
      let t1 := t.setNode tmp { tn with children := tn.children.set j none }
      match t1.node newChild with
      | .error e => .error e
      | .ok nn =>
        let t2 := t1.setNode newChild { nn with children := nn.children.set j c }
        match c with
        | none => moveChildren tmp newChild js t2
        | some k =>
          match t2.node k with
          | .error e => .error e
          | .ok kn => moveChildren tmp newChild js (t2.setNode k { kn with parent := some newChild })

/-- The body of `if (bit2 != tmp->val)` in `insert`: the split of the node `tmp`. -/
def insertSplit (value : Int) (t : CompressedRadixTree) (tmp : Nat) (i : Int) (bit : Nat)
    (bit2 : Nat) : Except Fault CompressedRadixTree := do
  let tn ← t.node tmp
  let len := tn.len
  let mask := bit2 ^^^ tn.val
  let len2 := roundEven (bitLength 32 mask 0)
  let p := tn.parent
  let v ← shr32 tn.val len2
  let newChild := t.nodes.length
  let t1 := t.alloc ⟨v, len - len2, p, nullChildren⟩
  let t2 ← moveChildren tmp newChild [0, 1, 2, 3] t1
  let tn2 ← t2.node tmp
  let one ← shl32 1 len2
  let t3 := t2.setNode tmp
    { tn2 with parent := some newChild, val := tn2.val &&& (one - 1), len := len2 }
  let bias := i - len + len2
  let y ← shl32 (toU32 value) (32 - bias)
  let val ← shr32 y (32 - bias)
  let idx ← shr32 val (len2 - 2)
  if 4 ≤ idx then .error .arrayIndex
  else
    let leaf := t3.nodes.length
    let t4 := t3.alloc ⟨val, bias, some newChild, nullChildren⟩
    let nn ← t4.node newChild
    let t5 := t4.setNode newChild { nn with children := nn.children.set idx (some leaf) }
    match p with
    | none => .error .nullDeref
    | some pid => do
      let pn ← t5.node pid
      .ok (t5.setNode pid { pn with children := pn.children.set bit (some newChild) })

/-- The loop `for (int i = 32; i > 0;)` of `insert`, at the node `tmp`.  A round that does
not leave the loop has `1 <= len <= 32` (its shift by `32 - len` is defined), so 32 rounds
are enough. -/
def insertLoop (value : Int) :
    Nat → CompressedRadixTree → Nat → Int → Except Fault CompressedRadixTree
  | 0, _, _, _ => .error .loopBudget
  | fuel + 1, t, tmp, i =>
    if i ≤ 0 then .ok t
    else
      match bitAt value i, t.node tmp with
      | .error e, _ => .error e
      | _, .error e => .error e
      | .ok bit, .ok tn =>
        match tn.children.getD bit none with
        | none =>
          match shl32 (toU32 value) (32 - i) with
          | .error e => .error e
          | .ok x =>
            match shr32 x (32 - i) with
            | .error e => .error e
            | .ok val =>
              let t1 := t.alloc ⟨val, i, some tmp, nullChildren⟩
              .ok (t1.setNode tmp { tn with children := tn.children.set bit (some t.nodes.length) })
        | some c =>
          match t.node c with
          | .error e => .error e
          | .ok cn =>
            match shl32 (toU32 value) (32 - i) with
            | .error e => .error e
            | .ok x =>
              match shr32 x (32 - cn.len) with
              | .error e => .error e
              | .ok bit2 =>
                if bit2 ≠ cn.val then insertSplit value t c i bit bit2
                else insertLoop value fuel t c (i - cn.len)

/-- The method `CompressedRadixTree::insert`. -/
def insert (t : CompressedRadixTree) (value : Int) : Except Fault CompressedRadixTree :=
  insertLoop value 33 t 0 32

/-- The loop `for (int i = 32; i > 0;)` of `find` and, with the same text, of `remove`, at
the node `tmp`: `none` when the loop executes `return false`, the last node otherwise. -/
def pathLoop (value : Int) (t : CompressedRadixTree) :
    Nat → Nat → Int → Except Fault (Option Nat)
  | 0, _, _ => .error .loopBudget
  | fuel + 1, tmp, i =>
    if i ≤ 0 then .ok (some tmp)
    else
      match bitAt value i, t.node tmp with
      | .error e, _ => .error e
      | _, .error e => .error e
      | .ok bit, .ok tn =>
        match tn.children.getD bit none with
        | none => .ok none
        | some c =>
          match t.node c with
          | .error e => .error e
          | .ok cn =>
            match shl32 (toU32 value) (32 - i) with
            | .error e => .error e
            | .ok x =>
              match shr32 x (32 - cn.len) with
              | .error e => .error e
              | .ok bit2 =>
                if bit2 ≠ cn.val then .ok none else pathLoop value t fuel c (i - cn.len)

/-- The method `CompressedRadixTree::find`. -/
def find (t : CompressedRadixTree) (value : Int) : Except Fault Bool :=
  match pathLoop value t 33 0 32 with
  | .error e => .error e
  | .ok none => .ok false
  | .ok (some _) => .ok true

/-- The loop of `remove` that sets `idx` to the last `i` with `p->children[i].get() == tmp`;
`none` is `idx == -1`. -/
def findIdx (children : List (Option Nat)) (tmp : Nat) : Option Nat :=
  [0, 1, 2, 3].foldl (fun idx i => if children.getD i none = some tmp then some i else idx) none

/-- The loop of `remove` that counts the non-null children: the pair `(cnt, child_idx)`. -/
def countChildren (children : List (Option Nat)) : Nat × Option Nat :=
  [0, 1, 2, 3].foldl
    (fun acc i => if (children.getD i none).isSome then (acc.1 + 1, some i) else acc) (0, none)

/-- The loop `for (int i = 0; i < 4; ++i)` of the merge in `remove`; `child` is a reference to
`p->children[child_idx]` and is read again in every round. -/
def mergeLoop (p childIdx : Nat) :
    List Nat → CompressedRadixTree → Except Fault CompressedRadixTree
  | [], t => .ok t
  | i :: rest, t =>
    match t.node p with
    | .error e => .error e
    | .ok pn =>
      match pn.children.getD childIdx none with
      | none => .error .nullDeref
      | some c =>
        match t.node c with
        | .error e => .error e
        | .ok cn =>
          match cn.children.getD i none with
          | none => mergeLoop p childIdx rest t
          | some g =>
            let t1 := t.setNode c { cn with children := cn.children.set i none }
            match t1.node p with
            | .error e => .error e
            | .ok pn1 =>
              let t2 := t1.setNode p { pn1 with children := pn1.children.set i (some g) }
              match t2.node g with
              | .error e => .error e
              | .ok gn => mergeLoop p childIdx rest (t2.setNode g { gn with parent := some p })

/-- The expression `x << c` on a `uint32_t` whose value is only stored.  For a count outside
`0..31` C++ does not define the result; the compiled code goes on with whatever value the
machine produced, here `wide x c` reduced to 32 bits, for an arbitrary function `wide`. -/
def shlStored (wide : Nat → Int → Nat) (x : Nat) (c : Int) : Nat :=
  if 0 ≤ c ∧ c < 32 then (x * 2 ^ c.toNat) % 4294967296 else wide x c % 4294967296

/-- The body of `if (cnt == 1)` in `remove`: the path of the only child is merged into `p`.
The shifted value goes to `p->val` and nowhere else. -/
def mergeChild (wide : Nat → Int → Nat) (t : CompressedRadixTree) (p childIdx : Nat) :
    Except Fault CompressedRadixTree := do
  let pn ← t.node p
  match pn.children.getD childIdx none with
  | none => .error .nullDeref
  | some c => do
    let cn ← t.node c
    let sh := shlStored wide pn.val cn.len
    let t1 := t.setNode p { pn with val := sh ||| cn.val, len := pn.len + cn.len }
    mergeLoop p childIdx [0, 1, 2, 3] t1

/-- The method `CompressedRadixTree::remove`: the returned `bool` and the tree afterwards. -/
def remove (wide : Nat → Int → Nat) (t : CompressedRadixTree) (value : Int) :
    Except Fault (Bool × CompressedRadixTree) :=
  match pathLoop value t 33 0 32 with
  | .error e => .error e
  | .ok none => .ok (false, t)
  | .ok (some tmp) =>
    match t.node tmp with
    | .error e => .error e
    | .ok tn =>
      match tn.parent with
      | none => .ok (false, t)
      | some p =>
        match t.node p with
        | .error e => .error e
        | .ok pn =>
          match findIdx pn.children tmp with
          | none => .ok (true, t)
          | some idx =>
            let t1 := t.setNode p { pn with children := pn.children.set idx none }
            match (countChildren (pn.children.set idx none)) with
            | (1, some childIdx) =>
              match mergeChild wide t1 p childIdx with
              | .error e => .error e
              | .ok t2 => .ok (true, t2)
            | _ => .ok (true, t1)

/-- The tree after `insert(0)` on the empty tree: one leaf holding all 32 bits. -/
def tree0 : CompressedRadixTree :=
  ⟨[⟨0, 0, none, [some 1, none, none, none]⟩, ⟨0, 32, some 0, nullChildren⟩]⟩

/-- The tree `tree0` after `insert(1)`: the root references the node 2 made by the split,
whose only child is the leaf 3 for the value 1; the former leaf 1 was deleted. -/
def tree01 : CompressedRadixTree :=
  ⟨[⟨0, 0, none, [some 2, none, none, none]⟩, ⟨0, 2, some 2, nullChildren⟩,
    ⟨0, 30, some 0, [none, some 3, none, none]⟩, ⟨1, 2, some 2, nullChildren⟩]⟩

/-- The tree `tree0` after `insert(1073741824)`: two leaves of 32 bits under the root. -/
def treeTwoLeaves : CompressedRadixTree :=
  ⟨[⟨0, 0, none, [some 1, some 2, none, none]⟩, ⟨0, 32, some 0, nullChildren⟩,
    ⟨1073741824, 32, some 0, nullChildren⟩]⟩

/-- The trees built from the empty tree by calls of `insert` that return. -/
inductive Built : CompressedRadixTree → Prop
  | empty : Built empty
  | insert {t t2 : CompressedRadixTree} (value : Int) :
      Built t → t.insert value = .ok t2 → Built t2

/-- The node `k` is referenced from the `children` of a node of the arena. -/
def IsChild (t : CompressedRadixTree) (k : Nat) : Prop :=
  ∃ (a : Nat) (nd : Node), t.nodes[a]? = some nd ∧ some k ∈ nd.children

/-- The node `k` exists and its `parent` is a non-null pointer to an existing node. -/
def HasParent (t : CompressedRadixTree) (k : Nat) : Prop :=
  ∃ (kn : Node) (p : Nat), t.nodes[k]? = some kn ∧ kn.parent = some p ∧ p < t.nodes.length

/-- Every node referenced as a child exists and has a non-null parent. -/
def ChildrenOk (t : CompressedRadixTree) : Prop :=
  ∀ k, IsChild t k → HasParent t k

end CompressedRadixTree

namespace HNSWLab

/-! ## Sets -/

theorem mem_setInsert {s : List Nat} {n x : Nat} : x ∈ setInsert s n ↔ x ∈ s ∨ x = n := by
  unfold setInsert
  split
  · constructor
    · exact Or.inl
    · rintro (h | rfl)
      · exact h
      · assumption
  · simp

theorem nodup_setInsert {s : List Nat} {n : Nat} (hs : s.Nodup) : (setInsert s n).Nodup := by
  unfold setInsert
  split
  · exact hs
  · rename_i hn
    exact List.Nodup.append hs (List.nodup_singleton n) (by simpa using hn)

theorem length_setInsert_le (s : List Nat) (n : Nat) :
    (setInsert s n).length ≤ s.length + 1 := by
  unfold setInsert
  split <;> simp

theorem length_setInsert_of_not_mem {s : List Nat} {n : Nat} (hn : n ∉ s) :
    (setInsert s n).length = s.length + 1 := by
  unfold setInsert
  simp [hn]

theorem length_le_setInsert (s : List Nat) (n : Nat) : s.length ≤ (setInsert s n).length := by
  unfold setInsert
  split <;> simp

theorem setInsert_ne_nil (s : List Nat) (n : Nat) : setInsert s n ≠ [] := by
  intro h
  have : n ∈ setInsert s n := mem_setInsert.2 (Or.inr rfl)
  rw [h] at this
  exact List.not_mem_nil _ this

theorem mem_of_mem_setErase {s : List Nat} {p : Option Nat} {x : Nat}
    (hx : x ∈ setErase s p) : x ∈ s := by
  cases p with
  | none => exact hx
  | some n => exact List.mem_of_mem_erase hx

theorem nodup_setErase {s : List Nat} (p : Option Nat) (hs : s.Nodup) :
    (setErase s p).Nodup := by
  cases p with
  | none => exact hs
  | some n => exact hs.erase n

theorem mem_setErase_some {s : List Nat} {n x : Nat} (hs : s.Nodup) :
    x ∈ setErase s (some n) ↔ x ≠ n ∧ x ∈ s := by
  unfold setErase
  exact hs.mem_erase_iff

theorem length_setErase_some {s : List Nat} {n : Nat} (hn : n ∈ s) :
    (setErase s (some n)).length + 1 = s.length := by
  unfold setErase
  have h1 := List.length_erase_of_mem hn
  have h2 : 0 < s.length := List.length_pos_of_mem hn
  simp only [h1]
  omega

theorem length_setErase_le (s : List Nat) (p : Option Nat) :
    (setErase s p).length ≤ s.length := by
  cases p with
  | none => exact le_refl _
  | some n => exact List.length_erase_le n s

theorem IterOrder.mem_run (o : IterOrder) {l : List Nat} {x : Nat} : x ∈ o.run l ↔ x ∈ l :=
  (o.perm l).mem_iff

theorem IterOrder.run_nil (o : IterOrder) : o.run [] = [] :=
  List.Perm.eq_nil (o.perm [])

theorem IterOrder.run_ne_nil (o : IterOrder) {l : List Nat} (hl : l ≠ []) : o.run l ≠ [] := by
  intro h
  have := o.perm l
  rw [h] at this
  exact hl (List.Perm.nil_eq this).symm

theorem IterOrder.length_run (o : IterOrder) (l : List Nat) : (o.run l).length = l.length :=
  (o.perm l).length_eq

theorem IterOrder.nodup_run (o : IterOrder) {l : List Nat} (hl : l.Nodup) : (o.run l).Nodup :=
  (o.perm l).nodup_iff.2 hl

/-! ## `get_nearest` and `get_furthest` -/

theorem foldl_nearestStep (d : Nat → Int) (l : List Nat) (acc : Int × Option Nat) :
    (l.foldl (nearestStep d) acc).1 ≤ acc.1 ∧
    (∀ y ∈ l, (l.foldl (nearestStep d) acc).1 ≤ d y) ∧
    (l.foldl (nearestStep d) acc = acc ∨
      ∃ x ∈ l, l.foldl (nearestStep d) acc = (d x, some x)) := by
  induction l generalizing acc with
  | nil => simp
  | cons a t ih =>
    simp only [List.foldl_cons]
    obtain ⟨h1, h2, h3⟩ := ih (nearestStep d acc a)
    have hstep : (nearestStep d acc a).1 ≤ acc.1 ∧ (nearestStep d acc a).1 ≤ d a ∧
        (nearestStep d acc a = acc ∨ nearestStep d acc a = (d a, some a)) := by
      unfold nearestStep
      split
      · rename_i hlt
        exact ⟨le_of_lt hlt, le_refl _, Or.inr rfl⟩
      · rename_i hlt
        exact ⟨le_refl _, not_lt.1 hlt, Or.inl rfl⟩
    refine ⟨le_trans h1 hstep.1, ?_, ?_⟩
    · intro y hy
      rcases List.mem_cons.1 hy with rfl | hy
      · exact le_trans h1 hstep.2.1
      · exact h2 y hy
    · rcases h3 with h3 | ⟨x, hx, h3⟩
      · rcases hstep.2.2 with h4 | h4
        · exact Or.inl (h3.trans h4)
        · exact Or.inr ⟨a, List.mem_cons_self _ _, h3.trans h4⟩
      · exact Or.inr ⟨x, List.mem_cons_of_mem _ hx, h3⟩

theorem foldl_furthestStep (d : Nat → Int) (l : List Nat) (acc : Int × Option Nat) :
    acc.1 ≤ (l.foldl (furthestStep d) acc).1 ∧
    (∀ y ∈ l, d y ≤ (l.foldl (furthestStep d) acc).1) ∧
    (l.foldl (furthestStep d) acc = acc ∨
      ∃ x ∈ l, l.foldl (furthestStep d) acc = (d x, some x)) := by
  induction l generalizing acc with
  | nil => simp
  | cons a t ih =>
    simp only [List.foldl_cons]
    obtain ⟨h1, h2, h3⟩ := ih (furthestStep d acc a)
    have hstep : acc.1 ≤ (furthestStep d acc a).1 ∧ d a ≤ (furthestStep d acc a).1 ∧
        (furthestStep d acc a = acc ∨ furthestStep d acc a = (d a, some a)) := by
      unfold furthestStep
      split
      · rename_i hlt
        exact ⟨le_of_lt hlt, le_refl _, Or.inr rfl⟩
      · rename_i hlt
        exact ⟨le_refl _, not_lt.1 hlt, Or.inl rfl⟩
    refine ⟨le_trans hstep.1 h1, ?_, ?_⟩
    · intro y hy
      rcases List.mem_cons.1 hy with rfl | hy
      · exact le_trans hstep.2.1 h1
      · exact h2 y hy
    · rcases h3 with h3 | ⟨x, hx, h3⟩
      · rcases hstep.2.2 with h4 | h4
        · exact Or.inl (h3.trans h4)
        · exact Or.inr ⟨a, List.mem_cons_self _ _, h3.trans h4⟩
      · exact Or.inr ⟨x, List.mem_cons_of_mem _ hx, h3⟩

theorem nearestOf_some {o : IterOrder} {d : Nat → Int} {l : List Nat} {x : Nat}
    (h : nearestOf o d l = some x) : x ∈ l ∧ ∀ y ∈ l, d x ≤ d y := by
  unfold nearestOf at h
  obtain ⟨-, h2, h3⟩ := foldl_nearestStep d (o.run l) (LONG_MAX, none)
  rcases h3 with h3 | ⟨z, hz, h3⟩
  · rw [h3] at h
    cases h
  · rw [h3] at h h2
    simp only [Option.some.injEq] at h
    subst h
    exact ⟨o.mem_run.1 hz, fun y hy => h2 y (o.mem_run.2 hy)⟩

theorem furthestOf_some {o : IterOrder} {d : Nat → Int} {l : List Nat} {x : Nat}
    (h : furthestOf o d l = some x) : x ∈ l ∧ ∀ y ∈ l, d y ≤ d x := by
  unfold furthestOf at h
  obtain ⟨-, h2, h3⟩ := foldl_furthestStep d (o.run l) (LONG_MIN, none)
  rcases h3 with h3 | ⟨z, hz, h3⟩
  · rw [h3] at h
    cases h
  · rw [h3] at h h2
    simp only [Option.some.injEq] at h
    subst h
    exact ⟨o.mem_run.1 hz, fun y hy => h2 y (o.mem_run.2 hy)⟩

theorem nearestOf_exists (o : IterOrder) {d : Nat → Int} {l : List Nat} (hl : l ≠ [])
    (hd : ∀ y ∈ l, d y < LONG_MAX) : ∃ x, nearestOf o d l = some x := by
  unfold nearestOf
  obtain ⟨-, h2, h3⟩ := foldl_nearestStep d (o.run l) (LONG_MAX, none)
  rcases h3 with h3 | ⟨z, -, h3⟩
  · exfalso
    obtain ⟨y, hy⟩ := List.exists_mem_of_ne_nil l hl
    have := h2 y (o.mem_run.2 hy)
    rw [h3] at this
    exact absurd (hd y hy) (not_lt.2 this)
  · exact ⟨z, by rw [h3]⟩

theorem furthestOf_exists (o : IterOrder) {d : Nat → Int} {l : List Nat} (hl : l ≠ [])
    (hd : ∀ y ∈ l, LONG_MIN < d y) : ∃ x, furthestOf o d l = some x := by
  unfold furthestOf
  obtain ⟨-, h2, h3⟩ := foldl_furthestStep d (o.run l) (LONG_MIN, none)
  rcases h3 with h3 | ⟨z, -, h3⟩
  · exfalso
    obtain ⟨y, hy⟩ := List.exists_mem_of_ne_nil l hl
    have := h2 y (o.mem_run.2 hy)
    rw [h3] at this
    exact absurd (hd y hy) (not_lt.2 this)
  · exact ⟨z, by rw [h3]⟩


/-! ## `select_neighbors` -/

theorem foldl_min_spec (d : Nat → Int) (xs : List Nat) (x : Nat) :
    xs.foldl (fun b n => if d n < d b then n else b) x ∈ x :: xs ∧
    d (xs.foldl (fun b n => if d n < d b then n else b) x) ≤ d x ∧
    ∀ y ∈ xs, d (xs.foldl (fun b n => if d n < d b then n else b) x) ≤ d y := by
  induction xs generalizing x with
  | nil => simp
  | cons a t ih =>
    simp only [List.foldl_cons]
    obtain ⟨h1, h2, h3⟩ := ih (if d a < d x then a else x)
    have hstep : (if d a < d x then a else x) ∈ [x, a] ∧
        d (if d a < d x then a else x) ≤ d x ∧ d (if d a < d x then a else x) ≤ d a := by
      split
      · rename_i hlt
        exact ⟨by simp, le_of_lt hlt, le_refl _⟩
      · rename_i hlt
        exact ⟨by simp, le_refl _, not_lt.1 hlt⟩
    refine ⟨?_, le_trans h2 hstep.2.1, ?_⟩
    · rcases List.mem_cons.1 h1 with h1 | h1
      · rw [h1]
        rcases List.mem_cons.1 hstep.1 with h4 | h4
        · rw [h4]
          exact List.mem_cons_self _ _
        · have h5 := List.mem_singleton.1 h4
          rw [h5]
          exact List.mem_cons_of_mem _ (List.mem_cons_self _ _)
      · exact List.mem_cons_of_mem _ (List.mem_cons_of_mem _ h1)
    · intro y hy
      rcases List.mem_cons.1 hy with rfl | hy
      · exact le_trans h2 hstep.2.2
      · exact h3 y hy

theorem pq_top_some {o : IterOrder} {d : Nat → Int} {pq : List Nat} {t : Nat}
    (h : pq_top o d pq = some t) : t ∈ pq ∧ ∀ y ∈ pq, d t ≤ d y := by
  unfold pq_top at h
  split at h
  · cases h
  · rename_i x xs hrun
    simp only [Option.some.injEq] at h
    obtain ⟨h1, h2, h3⟩ := foldl_min_spec d xs x
    rw [h] at h1 h2 h3
    refine ⟨o.mem_run.1 (hrun ▸ h1), fun y hy => ?_⟩
    have hy2 : y ∈ x :: xs := hrun ▸ o.mem_run.2 hy
    rcases List.mem_cons.1 hy2 with rfl | hy2
    · exact h2
    · exact h3 y hy2

theorem pq_top_none {o : IterOrder} {d : Nat → Int} {pq : List Nat}
    (h : pq_top o d pq = none) : pq = [] := by
  unfold pq_top at h
  split at h
  · rename_i hrun
    by_contra hne
    exact o.run_ne_nil hne hrun
  · cases h

theorem popLoop_spec (o : IterOrder) (d : Nat → Int) (i : Nat) (pq res : List Nat)
    (hpq : pq.Nodup) (hres : res.Nodup) (hdisj : ∀ x ∈ res, x ∉ pq)
    (hle : ∀ x ∈ res, ∀ y ∈ pq, d x ≤ d y) :
    (popLoop o d i pq res).Nodup ∧
    (∀ x ∈ popLoop o d i pq res, x ∈ res ∨ x ∈ pq) ∧
    (∀ x ∈ res, x ∈ popLoop o d i pq res) ∧
    (popLoop o d i pq res).length = res.length + min i pq.length ∧
    (∀ x ∈ popLoop o d i pq res, ∀ y ∈ pq, y ∉ popLoop o d i pq res → d x ≤ d y) := by
  induction i generalizing pq res with
  | zero =>
    simp only [popLoop]
    refine ⟨hres, fun x hx => Or.inl hx, fun x hx => hx, by simp, fun x hx y hy _ => hle x hx y hy⟩
  | succ i ih =>
    simp only [popLoop]
    cases htop : pq_top o d pq with
    | none =>
      have hnil := pq_top_none htop
      subst hnil
      simp only
      refine ⟨hres, fun x hx => Or.inl hx, fun x hx => hx, by simp, ?_⟩
      intro x _ y hy
      exact absurd hy (List.not_mem_nil _)
    | some t =>
      simp only
      obtain ⟨htm, htle⟩ := pq_top_some htop
      have htres : t ∉ res := fun ht => hdisj t ht htm
      have ih1 := ih (pq.erase t) (setInsert res t) (hpq.erase t) (nodup_setInsert hres)
        (by
          intro x hx hx2
          rcases mem_setInsert.1 hx with hx | rfl
          · exact hdisj x hx (List.mem_of_mem_erase hx2)
          · exact (hpq.mem_erase_iff.1 hx2).1 rfl)
        (by
          intro x hx y hy
          have hy2 := List.mem_of_mem_erase hy
          rcases mem_setInsert.1 hx with hx | rfl
          · exact hle x hx y hy2
          · exact htle y hy2)
      obtain ⟨g1, g2, g3, g4, g5⟩ := ih1
      refine ⟨g1, ?_, ?_, ?_, ?_⟩
      · intro x hx
        rcases g2 x hx with h1 | h1
        · rcases mem_setInsert.1 h1 with h1 | rfl
          · exact Or.inl h1
          · exact Or.inr htm
        · exact Or.inr (List.mem_of_mem_erase h1)
      · intro x hx
        exact g3 x (mem_setInsert.2 (Or.inl hx))
      · rw [g4, length_setInsert_of_not_mem htres, List.length_erase_of_mem htm]
        have : 0 < pq.length := List.length_pos_of_mem htm
        omega
      · intro x hx y hy hyR
        have hyt : y ≠ t := by
          rintro rfl
          exact hyR (g3 y (mem_setInsert.2 (Or.inr rfl)))
        exact g5 x hx y (hpq.mem_erase_iff.2 ⟨hyt, hy⟩) hyR

theorem selectOf_spec (o : IterOrder) (d : Nat → Int) (candidates : List Nat) (num : Int)
    (hc : candidates.Nodup) :
    (∀ x ∈ selectOf o d candidates num, x ∈ candidates) ∧
    (selectOf o d candidates num).Nodup ∧
    (selectOf o d candidates num).length = min num.toNat candidates.length ∧
    (∀ x ∈ selectOf o d candidates num, ∀ y ∈ candidates,
      y ∉ selectOf o d candidates num → d x ≤ d y) := by
  obtain ⟨g1, g2, -, g4, g5⟩ := popLoop_spec o d num.toNat (o.run candidates) []
    (o.nodup_run hc) List.nodup_nil (fun x hx => absurd hx (List.not_mem_nil _))
    (fun x hx => absurd hx (List.not_mem_nil _))
  unfold selectOf
  refine ⟨?_, g1, ?_, ?_⟩
  · intro x hx
    rcases g2 x hx with h1 | h1
    · exact absurd h1 (List.not_mem_nil _)
    · exact o.mem_run.1 h1
  · rw [g4, o.length_run]
    simp
  · intro x hx y hy hyR
    exact g5 x hx y (o.mem_run.2 hy) hyR

theorem select_neighbors_sound (o : IterOrder) (dist : Dist) (h : HNSW) (q : Vec)
    (candidates : List Nat) (num : Int) (hc : candidates.Nodup) :
    (∀ x ∈ h.select_neighbors o dist q candidates num, x ∈ candidates) ∧
    (h.select_neighbors o dist q candidates num).Nodup ∧
    (h.select_neighbors o dist q candidates num).length
      = min (max num 0).toNat candidates.length ∧
    (∀ x ∈ h.select_neighbors o dist q candidates num, ∀ y ∈ candidates,
      y ∉ h.select_neighbors o dist q candidates num →
        h.distTo dist q x ≤ h.distTo dist q y) := by
  obtain ⟨g1, g2, g3, g4⟩ := selectOf_spec o (h.distTo dist q) candidates num hc
  refine ⟨g1, g2, ?_, g4⟩
  unfold HNSW.select_neighbors
  rw [g3]
  congr 1
  omega


/-! ## `search_layer` -/

theorem toSizeT_of_int {x : Int} (h0 : 0 ≤ x) (h1 : x ≤ INT_MAX) : (toSizeT x : Int) = x := by
  unfold toSizeT
  unfold INT_MAX at h1
  rw [Int.toNat_of_nonneg (Int.emod_nonneg _ (by norm_num))]
  exact Int.emod_eq_of_lt h0 (by omega)

theorem length_le_of_nodup_lt {V : List Nat} {N : Nat} (hV : V.Nodup)
    (hlt : ∀ x ∈ V, x < N) : V.length ≤ N := by
  have hsub : V ⊆ List.range N := fun x hx => List.mem_range.2 (hlt x hx)
  have := (List.subperm_of_subset hV hsub).length_le
  simpa using this

theorem visitStep_base {o : IterOrder} {d : Nat → Int} {ef : Int} {G : Nat → Prop}
    (hd : ∀ n, LONG_MIN < d n ∧ d n < LONG_MAX) {n : Nat} (hn : G n)
    {W V C : List Nat} (inv : SearchInv G ef W V C) :
    ∃ W1 V1 C1, visitStep o d ef n W V C = some (W1, V1, C1) ∧ SearchInv G ef W1 V1 C1 ∧
      C1.length + V.length ≤ C.length + V1.length ∧ V.length ≤ V1.length ∧
      (∀ x, x ∈ V1 ↔ x ∈ V ∨ x = n) := by
  by_cases hV : n ∈ V
  · refine ⟨W, V, C, by simp [visitStep, hV], inv, le_refl _, le_refl _, ?_⟩
    intro x
    constructor
    · exact Or.inl
    · rintro (h | rfl)
      · exact h
      · exact hV
  · obtain ⟨fi, hf⟩ := furthestOf_exists o inv.W_ne (fun y _ => (hd y).1)
    have hfW : fi ∈ W := (furthestOf_some hf).1
    have hnW : n ∉ W := fun h => hV (inv.W_sub n h)
    have hV1 : (setInsert V n).Nodup := nodup_setInsert inv.V_nodup
    have hV1len : (setInsert V n).length = V.length + 1 := length_setInsert_of_not_mem hV
    have hV1good : ∀ x ∈ setInsert V n, G x := by
      intro x hx
      rcases mem_setInsert.1 hx with hx | rfl
      · exact inv.V_good x hx
      · exact hn
    have hW1len : (setInsert W n).length = W.length + 1 := length_setInsert_of_not_mem hnW
    have keep : SearchInv G ef W (setInsert V n) C :=
      ⟨inv.W_ne, inv.W_nodup, inv.W_len, hV1, inv.C_nodup,
        fun x hx => mem_setInsert.2 (Or.inl (inv.W_sub x hx)),
        fun x hx => mem_setInsert.2 (Or.inl (inv.C_sub x hx)), hV1good⟩
    have hCle : (setInsert C n).length ≤ C.length + 1 := length_setInsert_le C n
    have hsubW1 : ∀ x ∈ setInsert W n, x ∈ setInsert V n := by
      intro x hx
      rcases mem_setInsert.1 hx with hx | rfl
      · exact mem_setInsert.2 (Or.inl (inv.W_sub x hx))
      · exact mem_setInsert.2 (Or.inr rfl)
    have hsubC1 : ∀ x ∈ setInsert C n, x ∈ setInsert V n := by
      intro x hx
      rcases mem_setInsert.1 hx with hx | rfl
      · exact mem_setInsert.2 (Or.inl (inv.C_sub x hx))
      · exact mem_setInsert.2 (Or.inr rfl)
    have hmemV : ∀ x, x ∈ setInsert V n ↔ x ∈ V ∨ x = n := fun x => mem_setInsert
    by_cases hlen : W.length < toSizeT ef
    · have hno : ¬ toSizeT ef < (setInsert W n).length := by omega
      refine ⟨setInsert W n, setInsert V n, setInsert C n,
        by simp [visitStep, hV, hlen, hno], ?_, by omega, by omega, hmemV⟩
      exact ⟨setInsert_ne_nil W n, nodup_setInsert inv.W_nodup, by omega, hV1,
        nodup_setInsert inv.C_nodup, hsubW1, hsubC1, hV1good⟩
    · by_cases hlt : d n < d fi
      · have hyes : toSizeT ef < (setInsert W n).length := by
          omega
        have hfW1 : fi ∈ setInsert W n := mem_setInsert.2 (Or.inl hfW)
        have hlenE := length_setErase_some hfW1
        have hWpos : 0 < W.length := List.length_pos_of_ne_nil inv.W_ne
        refine ⟨setErase (setInsert W n) (some fi), setInsert V n, setInsert C n,
          by simp [visitStep, hV, hlen, hf, hlt, hyes], ?_, by omega, by omega, hmemV⟩
        refine ⟨?_, nodup_setErase _ (nodup_setInsert inv.W_nodup), ?_, hV1,
          nodup_setInsert inv.C_nodup, ?_, hsubC1, hV1good⟩
        · apply List.ne_nil_of_length_pos
          omega
        · have := inv.W_len
          omega
        · intro x hx
          exact hsubW1 x (mem_of_mem_setErase hx)
      · exact ⟨W, setInsert V n, C, by simp [visitStep, hV, hlen, hf, hlt], keep, by omega,
          by omega, hmemV⟩

theorem visitAll_base {o : IterOrder} {d : Nat → Int} {ef : Int} {G : Nat → Prop}
    (hd : ∀ n, LONG_MIN < d n ∧ d n < LONG_MAX) (ns : List Nat) (hns : ∀ n ∈ ns, G n)
    {W V C : List Nat} (inv : SearchInv G ef W V C) :
    ∃ W1 V1 C1, visitAll o d ef ns W V C = some (W1, V1, C1) ∧ SearchInv G ef W1 V1 C1 ∧
      C1.length + V.length ≤ C.length + V1.length ∧ V.length ≤ V1.length ∧
      (∀ x, x ∈ V1 ↔ x ∈ V ∨ x ∈ ns) := by
  induction ns generalizing W V C with
  | nil => exact ⟨W, V, C, rfl, inv, le_refl _, le_refl _, by simp⟩
  | cons n ns ih =>
    obtain ⟨W1, V1, C1, h1, inv1, hc1, hv1, hm1⟩ :=
      visitStep_base (o := o) hd (hns n (List.mem_cons_self _ _)) inv
    obtain ⟨W2, V2, C2, h2, inv2, hc2, hv2, hm2⟩ :=
      ih (fun m hm => hns m (List.mem_cons_of_mem _ hm)) inv1
    refine ⟨W2, V2, C2, by simp [visitAll, h1, h2], inv2, by omega, by omega, ?_⟩
    intro x
    rw [hm2, hm1, List.mem_cons]
    tauto

theorem searchLoop_induct (o : IterOrder) (d : Nat → Int) (adj : Nat → Option (List Nat))
    (ef : Int) (N : Nat) (P : List Nat → List Nat → List Nat → Prop) (Q : List Nat → Prop)
    (hexit : ∀ W V C, P W V C → C = [] → Q W)
    (hbody : ∀ W V C, P W V C → C ≠ [] →
      (searchBody o d adj ef W V C = some (Sum.inl W) ∧ Q W) ∨
      ∃ W2 V2 C2, searchBody o d adj ef W V C = some (Sum.inr (W2, V2, C2)) ∧ P W2 V2 C2 ∧
        (N - V2.length) + C2.length < (N - V.length) + C.length) :
    ∀ fuel W V C, P W V C → (N - V.length) + C.length < fuel →
      ∃ R, searchLoop o d adj ef fuel W V C = some R ∧ Q R := by
  intro fuel
  induction fuel with
  | zero =>
    intro W V C _ hlt
    exact absurd hlt (Nat.not_lt_zero _)
  | succ fuel ih =>
    intro W V C hP hlt
    by_cases hC : C = []
    · exact ⟨W, by simp [searchLoop, hC], hexit W V C hP hC⟩
    · rcases hbody W V C hP hC with ⟨hb, hQ⟩ | ⟨W2, V2, C2, hb, hP2, hm⟩
      · exact ⟨W, by simp [searchLoop, hC, hb], hQ⟩
      · obtain ⟨R, hR, hQ⟩ := ih W2 V2 C2 hP2 (by omega)
        exact ⟨R, by simp [searchLoop, hC, hb, hR], hQ⟩

theorem searchBody_base {o : IterOrder} {d : Nat → Int} {adj : Nat → Option (List Nat)}
    {ef : Int} {G : Nat → Prop} {N : Nat}
    (hd : ∀ n, LONG_MIN < d n ∧ d n < LONG_MAX)
    (hGlt : ∀ x, G x → x < N)
    (hGadj : ∀ x, G x → ∃ nbs, adj x = some nbs ∧ ∀ n ∈ nbs, G n)
    {W V C : List Nat} (inv : SearchInv G ef W V C) (hC : C ≠ []) :
    ∃ c f, nearestOf o d C = some c ∧ furthestOf o d W = some f ∧
      ((d c > d f ∧ searchBody o d adj ef W V C = some (Sum.inl W)) ∨
       (¬ d c > d f ∧ ∃ nbs W2 V2 C2, adj c = some nbs ∧
        visitAll o d ef (o.run nbs) W V (setErase C (some c)) = some (W2, V2, C2) ∧
        searchBody o d adj ef W V C = some (Sum.inr (W2, V2, C2)) ∧
        SearchInv G ef W2 V2 C2 ∧
        (N - V2.length) + C2.length < (N - V.length) + C.length)) := by
  obtain ⟨c, hc⟩ := nearestOf_exists o hC (fun y _ => (hd y).2)
  obtain ⟨f, hf⟩ := furthestOf_exists o inv.W_ne (fun y _ => (hd y).1)
  have hcC : c ∈ C := (nearestOf_some hc).1
  refine ⟨c, f, hc, hf, ?_⟩
  by_cases hbr : d c > d f
  · left
    exact ⟨hbr, by simp [searchBody, hc, hf, hbr]⟩
  · right
    obtain ⟨nbs, hnbs, hG⟩ := hGadj c (inv.V_good c (inv.C_sub c hcC))
    have inv1 : SearchInv G ef W V (setErase C (some c)) :=
      ⟨inv.W_ne, inv.W_nodup, inv.W_len, inv.V_nodup, nodup_setErase _ inv.C_nodup, inv.W_sub,
        fun x hx => inv.C_sub x (mem_of_mem_setErase hx), inv.V_good⟩
    obtain ⟨W2, V2, C2, h2, inv2, hc2, hv2, -⟩ :=
      visitAll_base (o := o) hd (o.run nbs) (fun n hn => hG n (o.mem_run.1 hn)) inv1
    refine ⟨hbr, nbs, W2, V2, C2, hnbs, h2, by simp [searchBody, hc, hf, hbr, hnbs, h2], inv2,
      ?_⟩
    have hle := length_setErase_some hcC
    have hV2 : V2.length ≤ N :=
      length_le_of_nodup_lt inv2.V_nodup (fun x hx => hGlt x (inv2.V_good x hx))
    omega

theorem searchLoop_base {o : IterOrder} {d : Nat → Int} {adj : Nat → Option (List Nat)}
    {ef : Int} {G : Nat → Prop} {N : Nat}
    (hd : ∀ n, LONG_MIN < d n ∧ d n < LONG_MAX)
    (hGlt : ∀ x, G x → x < N)
    (hGadj : ∀ x, G x → ∃ nbs, adj x = some nbs ∧ ∀ n ∈ nbs, G n)
    {ep : Nat} (hep : G ep) :
    ∃ R, searchLoop o d adj ef (N + 1) [ep] [ep] [ep] = some R ∧
      R ≠ [] ∧ R.Nodup ∧ R.length ≤ max 1 (toSizeT ef) ∧ ∀ x ∈ R, G x := by
  have hmain := searchLoop_induct o d adj ef N (fun W V C => SearchInv G ef W V C)
    (fun R => R ≠ [] ∧ R.Nodup ∧ R.length ≤ max 1 (toSizeT ef) ∧ ∀ x ∈ R, G x)
    (fun W V C inv _ => ⟨inv.W_ne, inv.W_nodup, inv.W_len,
      fun x hx => inv.V_good x (inv.W_sub x hx)⟩)
    (fun W V C inv hC => by
      obtain ⟨c, f, -, -, h⟩ := searchBody_base (o := o) hd hGlt hGadj inv hC
      rcases h with ⟨-, h⟩ | ⟨-, nbs, W2, V2, C2, -, -, h, inv2, hm⟩
      · exact Or.inl ⟨h, inv.W_ne, inv.W_nodup, inv.W_len,
          fun x hx => inv.V_good x (inv.W_sub x hx)⟩
      · exact Or.inr ⟨W2, V2, C2, h, inv2, hm⟩)
  have hN : 0 < N := Nat.lt_of_le_of_lt (Nat.zero_le _) (hGlt ep hep)
  refine hmain (N + 1) [ep] [ep] [ep] ?_ ?_
  · refine ⟨by simp, by simp, by simp, by simp, by simp, fun x hx => hx,
      fun x hx => hx, ?_⟩
    intro x hx
    rw [List.mem_singleton.1 hx]
    exact hep
  · simp only [List.length_singleton]
    omega


/-! ## Frames: what the mutations of `insert` leave untouched -/

theorem Frame.refl (h : HNSW) : Frame h h :=
  ⟨rfl, rfl, rfl, rfl, rfl, rfl, rfl, rfl⟩

theorem Frame.trans {h1 h2 h3 : HNSW} (a : Frame h1 h2) (b : Frame h2 h3) : Frame h1 h3 :=
  ⟨b.entry.trans a.entry, b.cM.trans a.cM, b.cM_max.trans a.cM_max, b.cefc.trans a.cefc,
    b.cefs.trans a.cefs, b.cdim.trans a.cdim, b.lvl.trans a.lvl, b.shape.trans a.shape⟩

theorem Frame.length {h h1 : HNSW} (a : Frame h h1) : h1.nodes.length = h.nodes.length := by
  have := congrArg List.length a.shape
  simpa using this

theorem Frame.node {h h1 : HNSW} (a : Frame h h1) (n : Nat) :
    (h1.nodes[n]?).map Node.shapeOf = (h.nodes[n]?).map Node.shapeOf := by
  have := congrArg (fun l => l[n]?) a.shape
  simpa [List.getElem?_map] using this

theorem Frame.dataOf {h h1 : HNSW} (a : Frame h h1) (n : Nat) : h1.dataOf n = h.dataOf n := by
  have := a.node n
  unfold HNSW.dataOf
  cases h1n : h1.nodes[n]? <;> cases hn : h.nodes[n]? <;> simp_all [Node.shapeOf]

theorem Frame.labelOf {h h1 : HNSW} (a : Frame h h1) (n : Nat) :
    h1.labelOf n = h.labelOf n := by
  have := a.node n
  unfold HNSW.labelOf
  cases h1n : h1.nodes[n]? <;> cases hn : h.nodes[n]? <;> simp_all [Node.shapeOf]

theorem Frame.distTo {h h1 : HNSW} (a : Frame h h1) (dist : Dist) (q : Vec) :
    h1.distTo dist q = h.distTo dist q := by
  funext n
  unfold HNSW.distTo
  rw [a.dataOf, a.cdim]

theorem hasLayer_iff {h : HNSW} {layer n : Nat} :
    h.hasLayer layer n ↔ ∃ nd, h.nodes[n]? = some nd ∧ layer < nd.neighbors.length := by
  unfold HNSW.hasLayer HNSW.nbAt
  cases hn : h.nodes[n]? with
  | none => simp
  | some nd =>
    simp only [Option.some.injEq, exists_eq_left']
    rw [Option.isSome_iff_exists]
    constructor
    · rintro ⟨a, ha⟩
      exact (List.getElem?_eq_some.1 ha).1
    · intro hlt
      exact ⟨_, List.getElem?_eq_getElem hlt⟩

theorem hasLayer_of_nbAt {h : HNSW} {layer n : Nat} {nb : List Nat}
    (hnb : h.nbAt layer n = some nb) : h.hasLayer layer n := by
  unfold HNSW.hasLayer
  rw [hnb]
  rfl

theorem nbAt_of_hasLayer {h : HNSW} {layer n : Nat} (hl : h.hasLayer layer n) :
    ∃ nb, h.nbAt layer n = some nb :=
  Option.isSome_iff_exists.1 hl

theorem hasLayer_lt {h : HNSW} {layer n : Nat} (hl : h.hasLayer layer n) :
    n < h.nodes.length := by
  obtain ⟨nd, hnd, -⟩ := hasLayer_iff.1 hl
  exact (List.getElem?_eq_some.1 hnd).1

theorem hasLayer_mono {h : HNSW} {layer k n : Nat} (hk : k ≤ layer)
    (hl : h.hasLayer layer n) : h.hasLayer k n := by
  obtain ⟨nd, hnd, hlt⟩ := hasLayer_iff.1 hl
  exact hasLayer_iff.2 ⟨nd, hnd, lt_of_le_of_lt hk hlt⟩

theorem Frame.hasLayer {h h1 : HNSW} (a : Frame h h1) (layer n : Nat) :
    h1.hasLayer layer n ↔ h.hasLayer layer n := by
  have := a.node n
  rw [hasLayer_iff, hasLayer_iff]
  cases h1n : h1.nodes[n]? <;> cases hn : h.nodes[n]? <;> simp_all [Node.shapeOf]

theorem Frame.addPruned {h h1 : HNSW} (a : Frame h h1) (o : IterOrder) (dist : Dist)
    (newId n : Nat) :
    addPruned o dist h1 newId n = addPruned o dist h newId n := by
  funext nb
  unfold HNSWLab.addPruned HNSW.get_furthest
  rw [a.cM_max, a.dataOf, a.distTo]

theorem set_neighbors_spec {h : HNSW} {n layer : Nat} (nbs : List Nat)
    (hl : h.hasLayer layer n) :
    ∃ h1, h.set_neighbors n nbs layer = some h1 ∧ Frame h h1 ∧
      ∀ l m, h1.nbAt l m = if l = layer ∧ m = n then some nbs else h.nbAt l m := by
  obtain ⟨nd, hnd, hlt⟩ := hasLayer_iff.1 hl
  have hn : n < h.nodes.length := (List.getElem?_eq_some.1 hnd).1
  refine ⟨{ h with nodes := h.nodes.set n { nd with neighbors := nd.neighbors.set layer nbs } },
    by simp [HNSW.set_neighbors, hnd, hlt], ?_, ?_⟩
  · refine ⟨rfl, rfl, rfl, rfl, rfl, rfl, rfl, ?_⟩
    simp only [List.map_set]
    apply List.ext_getElem?
    intro i
    rw [List.getElem?_set]
    split
    · rename_i hi
      subst hi
      obtain ⟨_, hget⟩ := List.getElem?_eq_some.1 hnd
      simp [hn, Node.shapeOf, hget]
    · rfl
  · intro l m
    unfold HNSW.nbAt
    simp only [List.getElem?_set]
    by_cases hm : n = m
    · subst hm
      simp only [hn, if_true, and_true, hnd]
      rw [List.getElem?_set]
      by_cases hll : layer = l
      · subst hll
        simp [hlt]
      · have : ¬ l = layer := fun e => hll e.symm
        simp [hll, this]
    · have : ¬ m = n := fun e => hm e.symm
      simp [hm, this]

theorem linkOne_spec (o : IterOrder) (dist : Dist) (newId : Nat) {h : HNSW} {layer n : Nat}
    (hl : h.hasLayer layer n) :
    ∃ h1, linkOne o dist newId layer n h = some h1 ∧ Frame h h1 ∧
      ∀ l m, h1.nbAt l m =
        if l = layer ∧ m = n then (h.nbAt l m).map (addPruned o dist h newId m)
        else h.nbAt l m := by
  obtain ⟨nb, hnb⟩ := nbAt_of_hasLayer hl
  obtain ⟨h1, hs, hf, hnbs⟩ := set_neighbors_spec (addPruned o dist h newId n nb) hl
  refine ⟨h1, by simp [linkOne, hnb, hs], hf, ?_⟩
  intro l m
  rw [hnbs l m]
  by_cases hc : l = layer ∧ m = n
  · obtain ⟨rfl, rfl⟩ := hc
    simp [hnb]
  · simp [hc]

theorem linkNeighbors_spec (o : IterOrder) (dist : Dist) (newId layer : Nat) (ns : List Nat)
    (hnd : ns.Nodup) {h : HNSW} (hl : ∀ n ∈ ns, h.hasLayer layer n) :
    ∃ h1, linkNeighbors o dist newId layer ns h = some h1 ∧ Frame h h1 ∧
      ∀ l m, h1.nbAt l m =
        if l = layer ∧ m ∈ ns then (h.nbAt l m).map (addPruned o dist h newId m)
        else h.nbAt l m := by
  induction ns generalizing h with
  | nil => exact ⟨h, rfl, Frame.refl h, by simp⟩
  | cons n ns ih =>
    obtain ⟨hn, hnd2⟩ := List.nodup_cons.1 hnd
    obtain ⟨h1, e1, f1, nb1⟩ := linkOne_spec o dist newId (hl n (List.mem_cons_self _ _))
    obtain ⟨h2, e2, f2, nb2⟩ := ih hnd2 (h := h1)
      (fun m hm => (f1.hasLayer layer m).2 (hl m (List.mem_cons_of_mem _ hm)))
    refine ⟨h2, by simp [linkNeighbors, e1, e2], f1.trans f2, ?_⟩
    intro l m
    rw [nb2 l m, nb1 l m]
    by_cases hll : l = layer
    · subst hll
      by_cases hmn : m = n
      · subst hmn
        simp [hn]
      · by_cases hms : m ∈ ns
        · simp [hmn, hms, f1.addPruned]
        · simp [hmn, hms]
    · simp [hll]


/-! ## `search_layer` on an index state -/

theorem reach_closed {adj : Nat → Option (List Nat)} {P : Nat → Prop} {ep x : Nat}
    (hstep : ∀ a nb, P a → adj a = some nb → ∀ b ∈ nb, P b) (hep : P ep)
    (hr : Reach adj ep x) : P x := by
  induction hr with
  | refl => exact hep
  | tail _ hedge ih =>
    obtain ⟨nb, hnb, hb⟩ := hedge
    exact hstep _ nb ih hnb _ hb

theorem search_layer_spec (o : IterOrder) {dist : Dist} (hd : DistInRange dist) (h : HNSW)
    (q : Vec) (ep : Nat) (ef : Int) (layer : Nat)
    (hclosed : ∀ x, Reach (h.nbAt layer) ep x → h.hasLayer layer x) :
    ∃ W, h.search_layer o dist q (some ep) ef layer = some W ∧ W ≠ [] ∧ W.Nodup ∧
      W.length ≤ max 1 (toSizeT ef) ∧ ∀ x ∈ W, Reach (h.nbAt layer) ep x := by
  unfold HNSW.search_layer
  apply searchLoop_base (G := fun x => Reach (h.nbAt layer) ep x)
  · intro n
    exact hd _ _ _
  · intro x hx
    exact hasLayer_lt (hclosed x hx)
  · intro x hx
    obtain ⟨nb, hnb⟩ := nbAt_of_hasLayer (hclosed x hx)
    exact ⟨nb, hnb, fun n hn => Relation.ReflTransGen.tail hx ⟨nb, hnb, hn⟩⟩
  · exact Relation.ReflTransGen.refl

theorem search_layer_congr {h h1 : HNSW} (a : Frame h h1) (o : IterOrder) (dist : Dist)
    (q : Vec) (ep : Option Nat) (ef : Int) {layer : Nat}
    (hnb : ∀ m, h1.nbAt layer m = h.nbAt layer m) :
    h1.search_layer o dist q ep ef layer = h.search_layer o dist q ep ef layer := by
  have hadj : h1.nbAt layer = h.nbAt layer := funext hnb
  unfold HNSW.search_layer
  rw [a.distTo, hadj, a.length]

theorem Frame.select_neighbors {h h1 : HNSW} (a : Frame h h1) (o : IterOrder) (dist : Dist)
    (q : Vec) (W : List Nat) (num : Int) :
    h1.select_neighbors o dist q W num = h.select_neighbors o dist q W num := by
  unfold HNSW.select_neighbors
  rw [a.distTo]

theorem Frame.get_nearest {h h1 : HNSW} (a : Frame h h1) (o : IterOrder) (dist : Dist)
    (q : Vec) (W : List Nat) :
    h1.get_nearest o dist W q = h.get_nearest o dist W q := by
  unfold HNSW.get_nearest
  rw [a.distTo]

theorem reach_hasLayer {h : HNSW} (hc : LevelClosed h) {layer ep x : Nat}
    (hep : h.hasLayer layer ep) (hr : Reach (h.nbAt layer) ep x) : h.hasLayer layer x :=
  reach_closed (P := fun y => h.hasLayer layer y)
    (fun a nb _ hnb b hb => hc layer a nb hnb b hb) hep hr

theorem reach_ne {h : HNSW} {layer ep x newId : Nat} (hno : NoRef h layer newId)
    (hep : ep ≠ newId) (hr : Reach (h.nbAt layer) ep x) : x ≠ newId :=
  reach_closed (P := fun y => y ≠ newId)
    (fun a nb _ hnb _ hb e => hno a nb hnb (e ▸ hb)) hep hr

theorem get_nearest_exists (o : IterOrder) {dist : Dist} (hd : DistInRange dist) (h : HNSW)
    {W : List Nat} (hW : W ≠ []) (q : Vec) :
    ∃ e, h.get_nearest o dist W q = some e ∧ e ∈ W := by
  obtain ⟨e, he⟩ := nearestOf_exists o (d := h.distTo dist q) hW (fun y _ => (hd _ _ _).2)
  exact ⟨e, he, (nearestOf_some he).1⟩

/-! ## The linking loop of `insert` -/

theorem linkStep_spec (o : IterOrder) {dist : Dist} (hd : DistInRange dist) {h : HNSW}
    (data : Vec) {newId layer e : Nat} (hc : LevelClosed h) (hno : NoRef h layer newId)
    (hnew : h.hasLayer layer newId) (he : h.hasLayer layer e) (hne : e ≠ newId) :
    ∃ W h2 e2, h.search_layer o dist data (some e) h.ef_construction layer = some W ∧
      linkStep o dist data newId layer h (some e) = some (h2, some e2) ∧
      Frame h h2 ∧ e2 ∈ W ∧ W.Nodup ∧ (∀ x ∈ W, Reach (h.nbAt layer) e x) ∧
      ∀ l m, h2.nbAt l m =
        if l = layer then
          if m = newId then some (h.select_neighbors o dist data W h.M)
          else if m ∈ h.select_neighbors o dist data W h.M then
            (h.nbAt l m).map (addPruned o dist h newId m)
          else h.nbAt l m
        else h.nbAt l m := by
  obtain ⟨W, hW, hWne, hWnd, -, hWr⟩ := search_layer_spec o hd h data e h.ef_construction layer
    (fun x hx => reach_hasLayer hc he hx)
  obtain ⟨hS1, hS2, -, -⟩ := select_neighbors_sound o dist h data W h.M hWnd
  have hSne : ∀ x ∈ h.select_neighbors o dist data W h.M, x ≠ newId :=
    fun x hx => reach_ne hno hne (hWr x (hS1 x hx))
  have hSl : ∀ x ∈ h.select_neighbors o dist data W h.M, h.hasLayer layer x :=
    fun x hx => reach_hasLayer hc he (hWr x (hS1 x hx))
  obtain ⟨h1, e1, f1, nb1⟩ := set_neighbors_spec (h.select_neighbors o dist data W h.M) hnew
  obtain ⟨h2, e2, f2, nb2⟩ := linkNeighbors_spec o dist newId layer
    (o.run (h.select_neighbors o dist data W h.M)) (o.nodup_run hS2) (h := h1)
    (fun n hn => (f1.hasLayer layer n).2 (hSl n (o.mem_run.1 hn)))
  obtain ⟨e3, he3, he3W⟩ := get_nearest_exists o hd h2 hWne data
  refine ⟨W, h2, e3, hW, by simp [linkStep, hW, e1, e2, he3], f1.trans f2, he3W, hWnd, hWr, ?_⟩
  intro l m
  rw [nb2 l m, nb1 l m]
  by_cases hl : l = layer
  · subst hl
    by_cases hm : m = newId
    · subst hm
      have : m ∉ o.run (h.select_neighbors o dist data W h.M) :=
        fun hmem => hSne m (o.mem_run.1 hmem) rfl
      simp [this]
    · by_cases hmS : m ∈ h.select_neighbors o dist data W h.M
      · have : m ∈ o.run (h.select_neighbors o dist data W h.M) := o.mem_run.2 hmS
        simp [hm, hmS, this, f1.addPruned]
      · have : m ∉ o.run (h.select_neighbors o dist data W h.M) :=
          fun hmem => hmS (o.mem_run.1 hmem)
        simp [hm, hmS, this]
  · simp [hl]


theorem mem_addPruned {o : IterOrder} {dist : Dist} {h : HNSW} {newId n : Nat}
    {nb : List Nat} {m : Nat} (hm : m ∈ addPruned o dist h newId n nb) :
    m ∈ nb ∨ m = newId := by
  unfold addPruned at hm
  simp only at hm
  split at hm
  · exact mem_setInsert.1 (mem_of_mem_setErase hm)
  · exact mem_setInsert.1 hm

theorem linkLayers_spec (o : IterOrder) {dist : Dist} (hd : DistInRange dist) (data : Vec)
    (newId : Nat) (cnt : Nat) :
    ∀ (h : HNSW) (e : Nat), LevelClosed h → (∀ l, l < cnt → NoRef h l newId) →
      (∀ l, l < cnt → h.hasLayer l newId) → (∀ l, l < cnt → h.hasLayer l e) → e ≠ newId →
      ∃ h2 ep2, linkLayers o dist data newId cnt h (some e) = some (h2, ep2) ∧ Frame h h2 ∧
        LevelClosed h2 ∧ (∀ l, cnt ≤ l → ∀ m, h2.nbAt l m = h.nbAt l m) ∧
        (∀ l, l < cnt → LinkedLayer o dist h h2 data newId l) := by
  induction cnt with
  | zero =>
    intro h e hc _ _ _ _
    exact ⟨h, some e, rfl, Frame.refl h, hc, fun _ _ _ => rfl,
      fun l hl => absurd hl (Nat.not_lt_zero l)⟩
  | succ cnt ih =>
    intro h e hc hno hnew he hne
    obtain ⟨W, h1, e1, hW, hstep, f1, he1W, hWnd, hWr, nb1⟩ :=
      linkStep_spec o hd data hc (hno cnt (Nat.lt_succ_self _)) (hnew cnt (Nat.lt_succ_self _))
        (he cnt (Nat.lt_succ_self _)) hne
    have hWl : ∀ x ∈ W, h.hasLayer cnt x :=
      fun x hx => reach_hasLayer hc (he cnt (Nat.lt_succ_self _)) (hWr x hx)
    obtain ⟨hS1, -, -, -⟩ := select_neighbors_sound o dist h data W h.M hWnd
    have hc1 : LevelClosed h1 := by
      intro l n nb hnb m hm
      rw [f1.hasLayer]
      rw [nb1 l n] at hnb
      by_cases hl : l = cnt
      · subst hl
        simp only [if_true] at hnb
        by_cases hn : n = newId
        · simp only [hn, if_true, Option.some.injEq] at hnb
          subst hnb
          exact hWl m (hS1 m hm)
        · simp only [hn, if_false] at hnb
          split at hnb
          · obtain ⟨nb0, hnb0, rfl⟩ := Option.map_eq_some'.1 hnb
            rcases mem_addPruned hm with hm | rfl
            · exact hc l n nb0 hnb0 m hm
            · exact hnew l (Nat.lt_succ_self _)
          · exact hc l n nb hnb m hm
      · simp only [hl, if_false] at hnb
        exact hc l n nb hnb m hm
    have hlt : ∀ l, l < cnt → l ≠ cnt := fun l hl => Nat.ne_of_lt hl
    obtain ⟨h2, ep2, hrec, f2, hc2, hsame2, hlink2⟩ := ih h1 e1 hc1
      (fun l hl n nb hnb => hno l (Nat.lt_succ_of_lt hl) n nb
        (by rw [nb1 l n, if_neg (hlt l hl)] at hnb; exact hnb))
      (fun l hl => (f1.hasLayer l newId).2 (hnew l (Nat.lt_succ_of_lt hl)))
      (fun l hl => (f1.hasLayer l e1).2
        (hasLayer_mono (Nat.le_of_lt hl) (hWl e1 he1W)))
      (reach_ne (hno cnt (Nat.lt_succ_self _)) hne (hWr e1 he1W))
    refine ⟨h2, ep2, by simp [linkLayers, hstep, hrec], f1.trans f2, hc2, ?_, ?_⟩
    · intro l hl m
      rw [hsame2 l (Nat.le_of_succ_le hl) m, nb1 l m, if_neg (by omega)]
    · intro l hl
      by_cases hlc : l = cnt
      · subst hlc
        refine ⟨e, W, hne, he l (Nat.lt_succ_self _), hW, hWnd, hWr, ?_⟩
        intro m
        rw [hsame2 l (le_refl _) m, nb1 l m]
        simp
      · have hl2 : l < cnt := by omega
        obtain ⟨e3, W3, hne3, he3, hW3, hWnd3, hWr3, hnb3⟩ := hlink2 l hl2
        have hsame : ∀ m, h1.nbAt l m = h.nbAt l m := by
          intro m
          rw [nb1 l m, if_neg hlc]
        have hadj : h1.nbAt l = h.nbAt l := funext hsame
        refine ⟨e3, W3, hne3, (f1.hasLayer l e3).1 he3, ?_, hWnd3, hadj ▸ hWr3, ?_⟩
        · rw [← hW3, f1.cefc]
          exact (search_layer_congr f1 o dist data (some e3) h.ef_construction hsame).symm
        · intro m
          rw [hnb3 m, f1.select_neighbors, f1.cM, f1.addPruned, hsame m]


/-! ## Allocation of the new node and the descent through the upper layers -/

theorem Frame.node_of {h h1 : HNSW} (a : Frame h h1) {n : Nat} {nd1 : Node}
    (hn : h1.nodes[n]? = some nd1) :
    ∃ nd, h.nodes[n]? = some nd ∧ nd1.shapeOf = nd.shapeOf := by
  have := a.node n
  rw [hn] at this
  cases hn0 : h.nodes[n]? with
  | none => simp [hn0] at this
  | some nd =>
    refine ⟨nd, rfl, ?_⟩
    simpa [hn0] using this

theorem nodes_alloc (h : HNSW) (data : Vec) (label : Int) (L n : Nat) :
    (h.alloc data label L).nodes[n]? =
      if n < h.nodes.length then h.nodes[n]?
      else if n = h.nodes.length then some (Node.new data label L) else none := by
  unfold HNSW.alloc
  simp only [List.getElem?_append]
  split
  · rfl
  · rename_i hlt
    by_cases hn : n = h.nodes.length
    · simp [hn]
    · have : n - h.nodes.length ≠ 0 := by omega
      simp only [hn, if_false]
      cases hk : n - h.nodes.length with
      | zero => exact absurd hk this
      | succ k => simp

theorem nbAt_alloc (h : HNSW) (data : Vec) (label : Int) (L l m : Nat) :
    (h.alloc data label L).nbAt l m =
      if m < h.nodes.length then h.nbAt l m
      else if m = h.nodes.length ∧ l ≤ L then some [] else none := by
  unfold HNSW.nbAt
  rw [nodes_alloc]
  by_cases hm : m < h.nodes.length
  · simp [hm]
  · by_cases hm2 : m = h.nodes.length
    · simp only [hm, hm2, if_false, if_true, lt_irrefl, true_and]
      simp only [Node.new, List.getElem?_replicate]
      by_cases hl : l ≤ L
      · simp [hl, Nat.lt_succ_of_le hl]
      · have : ¬ l < L + 1 := by omega
        simp [hl, this]
    · simp [hm, hm2]

theorem hasLayer_alloc {h : HNSW} {data : Vec} {label : Int} {L l m : Nat} :
    (h.alloc data label L).hasLayer l m ↔
      h.hasLayer l m ∨ (m = h.nodes.length ∧ l ≤ L) := by
  unfold HNSW.hasLayer
  rw [nbAt_alloc]
  by_cases hm : m < h.nodes.length
  · have : m ≠ h.nodes.length := Nat.ne_of_lt hm
    simp [hm, this]
  · have hno : ¬ h.hasLayer l m := fun hl => hm (hasLayer_lt hl)
    unfold HNSW.hasLayer at hno
    by_cases hc : m = h.nodes.length ∧ l ≤ L
    · simp [hm, hc]
    · simp only [hm, hc, if_false, or_false]
      simp only [Option.isSome_none, Bool.false_eq_true, false_iff]
      exact hno

theorem levelClosed_alloc {h : HNSW} (hc : LevelClosed h) (data : Vec) (label : Int)
    (L : Nat) : LevelClosed (h.alloc data label L) := by
  intro l n nb hnb m hm
  rw [nbAt_alloc] at hnb
  split at hnb
  · exact hasLayer_alloc.2 (Or.inl (hc l n nb hnb m hm))
  · split at hnb
    · simp only [Option.some.injEq] at hnb
      subst hnb
      exact absurd hm (List.not_mem_nil _)
    · cases hnb

theorem noRef_alloc {h : HNSW} (hc : LevelClosed h) (data : Vec) (label : Int) (L l : Nat) :
    NoRef (h.alloc data label L) l h.nodes.length := by
  intro n nb hnb hm
  rw [nbAt_alloc] at hnb
  split at hnb
  · exact absurd (hasLayer_lt (hc l n nb hnb _ hm)) (lt_irrefl _)
  · split at hnb
    · simp only [Option.some.injEq] at hnb
      subst hnb
      exact absurd hm (List.not_mem_nil _)
    · cases hnb

theorem descend_spec (o : IterOrder) {dist : Dist} (hd : DistInRange dist) {h : HNSW}
    (hc : LevelClosed h) (q : Vec) (cnt L : Nat) :
    ∀ (e K : Nat), h.hasLayer K e → (cnt = 0 ∨ L + cnt ≤ K) →
      ∃ e2, descend o dist h q cnt L (some e) = some (some e2) ∧ h.hasLayer (min K L) e2 ∧
        ∀ x, (∀ l, NoRef h l x) → e ≠ x → e2 ≠ x := by
  induction cnt with
  | zero =>
    intro e K he _
    exact ⟨e, rfl, hasLayer_mono (Nat.min_le_left _ _) he, fun _ _ hne => hne⟩
  | succ cnt ih =>
    intro e K he hK
    have hK2 : L + (cnt + 1) ≤ K := by
      rcases hK with hK | hK
      · exact absurd hK (Nat.succ_ne_zero _)
      · exact hK
    have he1 : h.hasLayer (L + cnt + 1) e := hasLayer_mono (by omega) he
    obtain ⟨W, hW, hWne, -, -, hWr⟩ := search_layer_spec o hd h q e 1 (L + cnt + 1)
      (fun x hx => reach_hasLayer hc he1 hx)
    obtain ⟨e1, hn1, he1W⟩ := get_nearest_exists o hd h hWne q
    obtain ⟨e2, hrec, hl2, hne2⟩ := ih e1 (L + cnt + 1)
      (reach_hasLayer hc he1 (hWr e1 he1W)) (Or.inr (by omega))
    refine ⟨e2, by simp [descend, descendStep, hW, hn1, hrec], ?_, ?_⟩
    · exact hasLayer_mono (by omega) hl2
    · intro x hx hex
      exact hne2 x hx (reach_ne (hx _) hex (hWr e1 he1W))

/-! ## `insert` -/

theorem insert_fresh (o : IterOrder) (dist : Dist) {h : HNSW} (hentry : h.entry_point = none)
    (data : Vec) (label : Int) (L : Nat) :
    h.insert o dist data label L =
      some { h.alloc data label 0 with entry_point := some h.nodes.length } := by
  simp [HNSW.insert, hentry]

theorem insert_spec (o : IterOrder) {dist : Dist} (hd : DistInRange dist) {h : HNSW}
    (hwf : WF h) {e0 : Nat} (hentry : h.entry_point = some e0) (data : Vec) (label : Int)
    (L : Nat) :
    ∃ hfin, h.insert o dist data label L =
        some (if L > h.max_level then
          { hfin with max_level := L, entry_point := some h.nodes.length } else hfin) ∧
      Frame (h.alloc data label L) hfin ∧ LevelClosed hfin ∧
      (∀ l, min L h.max_level < l → ∀ m, hfin.nbAt l m = (h.alloc data label L).nbAt l m) ∧
      (∀ l, l ≤ min L h.max_level →
        LinkedLayer o dist (h.alloc data label L) hfin data h.nodes.length l) := by
  obtain ⟨nd0, hnd0, hlv0⟩ := hwf.entry_some e0 hentry
  have hlen0 := hwf.layers e0 nd0 hnd0
  have he0 : h.hasLayer h.max_level e0 := hasLayer_iff.2 ⟨nd0, hnd0, by omega⟩
  have hc0 := levelClosed_alloc hwf.closed data label L
  have he0a : (h.alloc data label L).hasLayer h.max_level e0 := hasLayer_alloc.2 (Or.inl he0)
  have hne0 : e0 ≠ h.nodes.length := Nat.ne_of_lt (hasLayer_lt he0)
  obtain ⟨e, hdesc, hel, hne⟩ := descend_spec o hd hc0 data (h.max_level - L) L e0 h.max_level
    he0a (by omega)
  have hne1 : e ≠ h.nodes.length :=
    hne _ (fun l => noRef_alloc hwf.closed data label L l) hne0
  obtain ⟨hfin, ep2, hlink, f, hcf, hsame, hlinked⟩ :=
    linkLayers_spec o hd data h.nodes.length (min L h.max_level + 1) (h.alloc data label L) e
      hc0 (fun l _ => noRef_alloc hwf.closed data label L l)
      (fun l hl => hasLayer_alloc.2 (Or.inr ⟨rfl, by omega⟩))
      (fun l hl => hasLayer_mono (by rw [Nat.min_comm]; omega) hel) hne1
  refine ⟨hfin, ?_, f, hcf, fun l hl m => hsame l (by omega) m,
    fun l hl => hlinked l (by omega)⟩
  simp only [HNSW.insert, hentry, hdesc, hlink]


theorem wf_fresh {h : HNSW} (hf : h.isFresh) : WF h := by
  obtain ⟨hn, he, hl⟩ := hf
  refine ⟨?_, ?_, fun _ => ⟨hn, hl⟩, ?_, ?_⟩
  · intro l n nb hnb
    simp [HNSW.nbAt, hn] at hnb
  · intro n nd hnd
    simp [hn] at hnd
  · intro e hes
    rw [he] at hes
    cases hes
  · intro n nd hnd
    simp [hn] at hnd

theorem wf_insert_fresh {h : HNSW} (hwf : WF h) (hentry : h.entry_point = none) (data : Vec)
    (label : Int) :
    WF { h.alloc data label 0 with entry_point := some h.nodes.length } := by
  obtain ⟨hn, hl⟩ := hwf.entry_none hentry
  have hnodes : (h.alloc data label 0).nodes = [Node.new data label 0] := by
    simp [HNSW.alloc, hn]
  refine ⟨?_, ?_, ?_, ?_, ?_⟩
  · intro l n nb hnb m hm
    have h2 : (h.alloc data label 0).nbAt l n = some nb := hnb
    rw [nbAt_alloc] at h2
    simp only [hn, List.length_nil, Nat.not_lt_zero, if_false] at h2
    split at h2
    · simp only [Option.some.injEq] at h2
      subst h2
      exact absurd hm (List.not_mem_nil _)
    · cases h2
  · intro n nd hnd
    have h2 : (h.alloc data label 0).nodes[n]? = some nd := hnd
    rw [hnodes] at h2
    cases n with
    | zero =>
      simp only [List.getElem?_cons_zero, Option.some.injEq] at h2
      subst h2
      simp [Node.new]
    | succ k => simp at h2
  · intro hcontra
    cases hcontra
  · intro e he
    simp only [Option.some.injEq] at he
    subst he
    refine ⟨Node.new data label 0, ?_, ?_⟩
    · show (h.alloc data label 0).nodes[h.nodes.length]? = _
      rw [hnodes, hn]
      rfl
    · show 0 = h.max_level
      exact hl.symm
  · intro n nd hnd
    have h2 : (h.alloc data label 0).nodes[n]? = some nd := hnd
    rw [hnodes] at h2
    cases n with
    | zero =>
      simp only [List.getElem?_cons_zero, Option.some.injEq] at h2
      subst h2
      exact Nat.zero_le _
    | succ k => simp at h2

theorem wf_insert_link {h hfin : HNSW} (hwf : WF h) {e0 : Nat}
    (hentry : h.entry_point = some e0) {data : Vec} {label : Int} {L : Nat}
    (f : Frame (h.alloc data label L) hfin) (hcf : LevelClosed hfin) :
    WF (if L > h.max_level then
      { hfin with max_level := L, entry_point := some h.nodes.length } else hfin) := by
  have hnode : ∀ (n : Nat) (nd : Node), hfin.nodes[n]? = some nd →
      (∃ nd0, h.nodes[n]? = some nd0 ∧ nd.shapeOf = nd0.shapeOf) ∨
      (n = h.nodes.length ∧ nd.shapeOf = (Node.new data label L).shapeOf) := by
    intro n nd hnd
    obtain ⟨nd1, hnd1, hsh⟩ := f.node_of hnd
    rw [nodes_alloc] at hnd1
    split at hnd1
    · exact Or.inl ⟨nd1, hnd1, hsh⟩
    · split at hnd1
      · rename_i hn
        simp only [Option.some.injEq] at hnd1
        subst hnd1
        exact Or.inr ⟨hn, hsh⟩
      · cases hnd1
  have hlayers : ∀ (n : Nat) (nd : Node), hfin.nodes[n]? = some nd →
      nd.neighbors.length = nd.max_level + 1 := by
    intro n nd hnd
    rcases hnode n nd hnd with ⟨nd0, hnd0, hsh⟩ | ⟨-, hsh⟩
    · have := hwf.layers n nd0 hnd0
      simp only [Node.shapeOf, Prod.mk.injEq] at hsh
      omega
    · simp only [Node.shapeOf, Node.new, Prod.mk.injEq, List.length_replicate] at hsh
      omega
  have hnewnode : ∃ nd, hfin.nodes[h.nodes.length]? = some nd ∧ nd.max_level = L := by
    have hlt : h.nodes.length < hfin.nodes.length := by
      rw [f.length]
      simp [HNSW.alloc]
    refine ⟨hfin.nodes[h.nodes.length], List.getElem?_eq_getElem hlt, ?_⟩
    rcases hnode _ _ (List.getElem?_eq_getElem hlt) with ⟨nd0, hnd0, -⟩ | ⟨-, hsh⟩
    · have := (List.getElem?_eq_some.1 hnd0).1
      exact absurd this (lt_irrefl _)
    · simp only [Node.shapeOf, Node.new, Prod.mk.injEq] at hsh
      exact hsh.2.2.1
  have hlevels : ∀ (n : Nat) (nd : Node), hfin.nodes[n]? = some nd →
      nd.max_level ≤ max L h.max_level := by
    intro n nd hnd
    rcases hnode n nd hnd with ⟨nd0, hnd0, hsh⟩ | ⟨-, hsh⟩
    · have := hwf.levels n nd0 hnd0
      simp only [Node.shapeOf, Prod.mk.injEq] at hsh
      omega
    · simp only [Node.shapeOf, Node.new, Prod.mk.injEq] at hsh
      omega
  have hfe : hfin.entry_point = some e0 := by
    rw [f.entry]
    exact hentry
  have hfl : hfin.max_level = h.max_level := f.lvl
  split
  · rename_i hL
    refine ⟨hcf, hlayers, ?_, ?_, ?_⟩
    · intro hcontra
      cases hcontra
    · intro e he
      simp only [Option.some.injEq] at he
      subst he
      exact hnewnode
    · intro n nd hnd
      have := hlevels n nd hnd
      show nd.max_level ≤ L
      omega
  · rename_i hL
    refine ⟨hcf, hlayers, ?_, ?_, ?_⟩
    · intro hcontra
      rw [hfe] at hcontra
      cases hcontra
    · intro e he
      rw [hfe] at he
      simp only [Option.some.injEq] at he
      subst he
      obtain ⟨nd0, hnd0, hlv0⟩ := hwf.entry_some e0 hentry
      have hlt : e0 < hfin.nodes.length := by
        rw [f.length]
        have := (List.getElem?_eq_some.1 hnd0).1
        simp only [HNSW.alloc, List.length_append, List.length_singleton]
        omega
      refine ⟨hfin.nodes[e0], List.getElem?_eq_getElem hlt, ?_⟩
      rcases hnode _ _ (List.getElem?_eq_getElem hlt) with ⟨nd1, hnd1, hsh⟩ | ⟨hn, -⟩
      · rw [hnd0] at hnd1
        simp only [Option.some.injEq] at hnd1
        subst hnd1
        simp only [Node.shapeOf, Prod.mk.injEq] at hsh
        omega
      · have := (List.getElem?_eq_some.1 hnd0).1
        omega
    · intro n nd hnd
      have := hlevels n nd hnd
      omega

theorem insert_wf (o : IterOrder) {dist : Dist} (hd : DistInRange dist) {h : HNSW}
    (hwf : WF h) (data : Vec) (label : Int) (L : Nat) :
    ∃ h2, h.insert o dist data label L = some h2 ∧ WF h2 := by
  cases hentry : h.entry_point with
  | none => exact ⟨_, insert_fresh o dist hentry data label L, wf_insert_fresh hwf hentry _ _⟩
  | some e0 =>
    obtain ⟨hfin, hins, f, hcf, -, -⟩ := insert_spec o hd hwf hentry data label L
    exact ⟨_, hins, wf_insert_link hwf hentry f hcf⟩

theorem reachable_wf {dist : Dist} (hd : DistInRange dist) {h0 h : HNSW} (hf : h0.isFresh)
    (hr : Reachable dist h0 h) : WF h := by
  induction hr with
  | init => exact wf_fresh hf
  | step o data label L _ hins ih =>
    obtain ⟨h2, hins2, hwf2⟩ := insert_wf o hd ih data label L
    rw [hins] at hins2
    cases hins2
    exact hwf2


/-! ## `query` -/

theorem queryNodes_spec (o : IterOrder) {dist : Dist} (hd : DistInRange dist) {h : HNSW}
    (hwf : WF h) (q : Vec) (k : Int) :
    (h.entry_point = none ∧ h.queryNodes o dist q k = some []) ∨
    ∃ ep W, h.hasLayer 0 ep ∧ h.search_layer o dist q (some ep) h.ef_search 0 = some W ∧
      W ≠ [] ∧ W.Nodup ∧ (∀ x ∈ W, Reach (h.nbAt 0) ep x) ∧
      h.queryNodes o dist q k = some (o.run (h.select_neighbors o dist q W k)) := by
  cases hentry : h.entry_point with
  | none =>
    left
    exact ⟨rfl, by simp [HNSW.queryNodes, hentry]⟩
  | some e0 =>
    right
    obtain ⟨nd0, hnd0, hlv0⟩ := hwf.entry_some e0 hentry
    have hlen0 := hwf.layers e0 nd0 hnd0
    have he0 : h.hasLayer h.max_level e0 := hasLayer_iff.2 ⟨nd0, hnd0, by omega⟩
    obtain ⟨ep, hdesc, hel, -⟩ := descend_spec o hd hwf.closed q h.max_level 0 e0 h.max_level
      he0 (Or.inr (by omega))
    have hep0 : h.hasLayer 0 ep := hasLayer_mono (Nat.zero_le _) hel
    obtain ⟨W, hW, hWne, hWnd, -, hWr⟩ := search_layer_spec o hd h q ep h.ef_search 0
      (fun x hx => reach_hasLayer hwf.closed hep0 hx)
    exact ⟨ep, W, hep0, hW, hWne, hWnd, hWr, by simp [HNSW.queryNodes, hentry, hdesc, hW]⟩


/-! ## Configuration and sizes along `insert` -/

theorem l2distance_inRange : DistInRange l2distance := by
  intro a b n
  unfold l2distance wrapInt32 LONG_MIN LONG_MAX
  constructor <;> omega

theorem nbAt_congr_nodes {h h1 : HNSW} (hn : h1.nodes = h.nodes) (l m : Nat) :
    h1.nbAt l m = h.nbAt l m := by
  unfold HNSW.nbAt
  rw [hn]

theorem insert_nodes (o : IterOrder) {dist : Dist} (hd : DistInRange dist) {h : HNSW}
    (hwf : WF h) {e0 : Nat} (hentry : h.entry_point = some e0) (data : Vec) (label : Int)
    (L : Nat) {h2 : HNSW} (hins : h.insert o dist data label L = some h2) :
    ∃ hfin, h2.nodes = hfin.nodes ∧ h2.M = h.M ∧ h2.M_max = h.M_max ∧
      h2.ef_construction = h.ef_construction ∧ h2.ef_search = h.ef_search ∧
      h2.vec_dim = h.vec_dim ∧
      Frame (h.alloc data label L) hfin ∧ LevelClosed hfin ∧
      (∀ l, min L h.max_level < l → ∀ m, hfin.nbAt l m = (h.alloc data label L).nbAt l m) ∧
      (∀ l, l ≤ min L h.max_level →
        LinkedLayer o dist (h.alloc data label L) hfin data h.nodes.length l) := by
  obtain ⟨hfin, hins2, f, hcf, hsame, hlinked⟩ := insert_spec o hd hwf hentry data label L
  rw [hins] at hins2
  simp only [Option.some.injEq] at hins2
  refine ⟨hfin, ?_, ?_, ?_, ?_, ?_, ?_, f, hcf, hsame, hlinked⟩
  · rw [hins2]; split <;> rfl
  · rw [hins2]; split <;> exact f.cM
  · rw [hins2]; split <;> exact f.cM_max
  · rw [hins2]; split <;> exact f.cefc
  · rw [hins2]; split <;> exact f.cefs
  · rw [hins2]; split <;> exact f.cdim

theorem insert_config (o : IterOrder) {dist : Dist} (hd : DistInRange dist) {h : HNSW}
    (hwf : WF h) (data : Vec) (label : Int) (L : Nat) {h2 : HNSW}
    (hins : h.insert o dist data label L = some h2) :
    h2.M = h.M ∧ h2.M_max = h.M_max ∧ h2.ef_construction = h.ef_construction ∧
      h2.ef_search = h.ef_search ∧ h2.vec_dim = h.vec_dim ∧
      h2.nodes.length = h.nodes.length + 1 := by
  cases hentry : h.entry_point with
  | none =>
    rw [insert_fresh o dist hentry] at hins
    simp only [Option.some.injEq] at hins
    subst hins
    simp [HNSW.alloc]
  | some e0 =>
    obtain ⟨hfin, hn, h1, h2', h3, h4, h5, f, -, -, -⟩ :=
      insert_nodes o hd hwf hentry data label L hins
    refine ⟨h1, h2', h3, h4, h5, ?_⟩
    rw [hn, f.length]
    simp [HNSW.alloc]

theorem reachable_config {dist : Dist} (hd : DistInRange dist) {h0 h : HNSW}
    (hf : h0.isFresh) (hr : Reachable dist h0 h) :
    h.M = h0.M ∧ h.M_max = h0.M_max ∧ h.ef_construction = h0.ef_construction ∧
      h.ef_search = h0.ef_search ∧ h.vec_dim = h0.vec_dim := by
  induction hr with
  | init => exact ⟨rfl, rfl, rfl, rfl, rfl⟩
  | step o data label L hr1 hins ih =>
    obtain ⟨a1, a2, a3, a4, a5, -⟩ :=
      insert_config o hd (reachable_wf hd hf hr1) data label L hins
    obtain ⟨b1, b2, b3, b4, b5⟩ := ih
    exact ⟨a1.trans b1, a2.trans b2, a3.trans b3, a4.trans b4, a5.trans b5⟩

theorem nodup_addPruned {o : IterOrder} {dist : Dist} {h : HNSW} {newId n : Nat}
    {nb : List Nat} (hnb : nb.Nodup) : (addPruned o dist h newId n nb).Nodup := by
  unfold addPruned
  simp only
  split
  · exact nodup_setErase _ (nodup_setInsert hnb)
  · exact nodup_setInsert hnb

theorem length_addPruned (o : IterOrder) {dist : Dist} (hd : DistInRange dist) {h : HNSW}
    (h0 : 0 ≤ h.M_max) (h1 : h.M_max ≤ INT_MAX) (newId n : Nat) {nb : List Nat}
    (hnb : (nb.length : Int) ≤ h.M_max) :
    ((addPruned o dist h newId n nb).length : Int) ≤ h.M_max := by
  have hsz := toSizeT_of_int h0 h1
  have hle := length_setInsert_le nb newId
  unfold addPruned
  simp only
  split
  · rename_i hgt
    obtain ⟨f, hf⟩ := furthestOf_exists o (d := h.distTo dist (h.dataOf n))
      (setInsert_ne_nil nb newId) (fun y _ => (hd _ _ _).1)
    have hfm := (furthestOf_some hf).1
    have hlen := length_setErase_some hfm
    unfold HNSW.get_furthest
    rw [hf]
    omega
  · rename_i hgt
    omega

theorem setsBounded_insert (o : IterOrder) {dist : Dist} (hd : DistInRange dist) {h : HNSW}
    (hwf : WF h) (hM : 1 ≤ h.M) (hMM : h.M ≤ h.M_max) (hmax : h.M_max ≤ INT_MAX)
    (hb : SetsBounded h h.M_max) (data : Vec) (label : Int) (L : Nat) {h2 : HNSW}
    (hins : h.insert o dist data label L = some h2) : SetsBounded h2 h.M_max := by
  have hnil : ([] : List Nat).Nodup ∧ ((([] : List Nat).length : Nat) : Int) ≤ h.M_max :=
    ⟨List.nodup_nil, by simp only [List.length_nil, Nat.cast_zero]; omega⟩
  have halloc : ∀ D l m nb, (h.alloc data label D).nbAt l m = some nb →
      nb.Nodup ∧ (nb.length : Int) ≤ h.M_max := by
    intro D l m nb hnb
    rw [nbAt_alloc] at hnb
    split at hnb
    · exact hb l m nb hnb
    · split at hnb
      · simp only [Option.some.injEq] at hnb
        subst hnb
        exact hnil
      · cases hnb
  cases hentry : h.entry_point with
  | none =>
    rw [insert_fresh o dist hentry] at hins
    simp only [Option.some.injEq] at hins
    subst hins
    intro l m nb hnb
    exact halloc 0 l m nb hnb
  | some e0 =>
    obtain ⟨hfin, hn, -, -, -, -, -, f, -, hsame, hlinked⟩ :=
      insert_nodes o hd hwf hentry data label L hins
    intro l m nb hnb
    rw [nbAt_congr_nodes hn] at hnb
    by_cases hl : l ≤ min L h.max_level
    · obtain ⟨e, W, -, -, -, hWnd, -, hdesc⟩ := hlinked l hl
      obtain ⟨-, hSnd, hSlen, -⟩ :=
        select_neighbors_sound o dist (h.alloc data label L) data W
          (h.alloc data label L).M hWnd
      rw [hdesc m] at hnb
      split at hnb
      · simp only [Option.some.injEq] at hnb
        subst hnb
        refine ⟨hSnd, ?_⟩
        rw [hSlen]
        have : (h.alloc data label L).M = h.M := rfl
        rw [this]
        omega
      · split at hnb
        · obtain ⟨nb0, hnb0, rfl⟩ := Option.map_eq_some'.1 hnb
          obtain ⟨g1, g2⟩ := halloc L l m nb0 hnb0
          exact ⟨nodup_addPruned g1,
            length_addPruned o hd (h := h.alloc data label L) (by show 0 ≤ h.M_max; omega)
              hmax _ _ g2⟩
        · exact halloc L l m nb hnb
    · rw [hsame l (by omega) m] at hnb
      exact halloc L l m nb hnb


/-! ## A concrete index -/

theorem demo_fresh : demoIndex0.isFresh := ⟨rfl, rfl, rfl⟩

theorem demo_step1 :
    demoIndex0.insert IterOrder.reversed l2distance [0, 0] 0 0 = some demoIndex1 := by
  decide

theorem demo_step2 :
    demoIndex1.insert IterOrder.reversed l2distance [10, 10] 1 0 = some demoIndex2 := by
  decide

theorem demo_step3 :
    demoIndex2.insert IterOrder.reversed l2distance [0, 10] 2 0 = some demoIndex3 := by
  decide

theorem demo_step4 :
    demoIndex3.insert IterOrder.reversed l2distance [10, 0] 3 0 = some demoIndex4 := by
  decide

theorem demo_reachable3 : Reachable l2distance demoIndex0 demoIndex3 :=
  Reachable.step _ _ _ _ (Reachable.step _ _ _ _ (Reachable.step _ _ _ _ Reachable.init
    demo_step1) demo_step2) demo_step3

theorem demo_reachable4 : Reachable l2distance demoIndex0 demoIndex4 :=
  Reachable.step _ _ _ _ demo_reachable3 demo_step4

/-! ## The claims -/

/-- C2. Degree bound: with `1 <= M <= M_max` (and `M_max` an `int`), in every state reached
by calls of `insert`, every node has, for each layer `0..max_level`, a neighbour set without
duplicates whose size is at most `M_max`. -/
theorem degree_bound {dist : Dist} (hd : DistInRange dist) {h0 h : HNSW} (hf : h0.isFresh)
    (hM : 1 ≤ h0.M) (hMM : h0.M ≤ h0.M_max) (hmax : h0.M_max ≤ INT_MAX)
    (hr : Reachable dist h0 h) :
    ∀ (n : Nat) (nd : Node), h.nodes[n]? = some nd → ∀ layer, layer ≤ nd.max_level →
      ∃ nb, nd.neighbors[layer]? = some nb ∧ nb.Nodup ∧ (nb.length : Int) ≤ h0.M_max := by
  have hb : SetsBounded h h0.M_max := by
    induction hr with
    | init =>
      intro l n nb hnb
      simp [HNSW.nbAt, hf.1] at hnb
    | step o data label L hr1 hins ih =>
      obtain ⟨c1, c2, -, -, -⟩ := reachable_config hd hf hr1
      have := setsBounded_insert o hd (reachable_wf hd hf hr1) (by rw [c1]; exact hM)
        (by rw [c1, c2]; exact hMM) (by rw [c2]; exact hmax) (by rw [c2]; exact ih)
        data label L hins
      rw [c2] at this
      exact this
  intro n nd hnd layer hl
  have hlen := (reachable_wf hd hf hr).layers n nd hnd
  have hlt : layer < nd.neighbors.length := by omega
  refine ⟨nd.neighbors[layer], List.getElem?_eq_getElem hlt, ?_⟩
  apply hb layer n
  simp [HNSW.nbAt, hnd, List.getElem?_eq_getElem hlt]

/-- An instance of C2 on a concrete index, with the hypotheses discharged. -/
theorem degree_bound_witness :
    DistInRange l2distance ∧ Reachable l2distance demoIndex0 demoIndex4 ∧
    ∀ (n : Nat) (nd : Node), demoIndex4.nodes[n]? = some nd → ∀ layer, layer ≤ nd.max_level →
      ∃ nb, nd.neighbors[layer]? = some nb ∧ nb.Nodup ∧ (nb.length : Int) ≤ demoIndex0.M_max :=
  ⟨l2distance_inRange, demo_reachable4,
    degree_bound l2distance_inRange demo_fresh (by decide) (by decide) (by decide)
      demo_reachable4⟩

/-- C4. Level containment: in every state reached by calls of `insert`, a node referenced
from some `neighbors[L]` exists and has `max_level >= L`; every node has `max_level + 1`
neighbour sets, hence one for layer 0; and `insert`, `query` and `search_layer` (started at a
node that has the layer) finish without a null dereference or an out-of-bounds access. -/
theorem level_containment {dist : Dist} (hd : DistInRange dist) {h0 h : HNSW}
    (hf : h0.isFresh) (hr : Reachable dist h0 h) :
    (∀ layer n nb m, h.nbAt layer n = some nb → m ∈ nb →
      ∃ nd, h.nodes[m]? = some nd ∧ layer ≤ nd.max_level) ∧
    (∀ (n : Nat) (nd : Node), h.nodes[n]? = some nd →
      nd.neighbors.length = nd.max_level + 1) ∧
    (∀ n, n < h.nodes.length → ∃ nb, h.nbAt 0 n = some nb) ∧
    (∀ o data label L, ∃ h2, h.insert o dist data label L = some h2) ∧
    (∀ o q k, ∃ r, h.query o dist q k = some r) ∧
    (∀ o q ep ef layer, h.hasLayer layer ep →
      ∃ W, h.search_layer o dist q (some ep) ef layer = some W) := by
  have hwf := reachable_wf hd hf hr
  refine ⟨?_, hwf.layers, ?_, ?_, ?_, ?_⟩
  · intro layer n nb m hnb hm
    obtain ⟨nd, hnd, hlt⟩ := hasLayer_iff.1 (hwf.closed layer n nb hnb m hm)
    have := hwf.layers m nd hnd
    exact ⟨nd, hnd, by omega⟩
  · intro n hn
    apply nbAt_of_hasLayer
    refine hasLayer_iff.2 ⟨h.nodes[n], List.getElem?_eq_getElem hn, ?_⟩
    have := hwf.layers n _ (List.getElem?_eq_getElem hn)
    omega
  · intro o data label L
    obtain ⟨h2, hins, -⟩ := insert_wf o hd hwf data label L
    exact ⟨h2, hins⟩
  · intro o q k
    rcases queryNodes_spec o hd hwf q k with ⟨-, hq⟩ | ⟨ep, W, -, -, -, -, -, hq⟩
    · exact ⟨[], by simp [HNSW.query, hq]⟩
    · exact ⟨(o.run (h.select_neighbors o dist q W k)).map h.labelOf,
        by simp [HNSW.query, hq]⟩
  · intro o q ep ef layer hep
    obtain ⟨W, hW, -⟩ := search_layer_spec o hd h q ep ef layer
      (fun x hx => reach_hasLayer hwf.closed hep hx)
    exact ⟨W, hW⟩

/-- An instance of C4 on a concrete index, with the hypotheses discharged. -/
theorem level_containment_witness :
    DistInRange l2distance ∧ Reachable l2distance demoIndex0 demoIndex4 ∧
    ((∀ layer n nb m, demoIndex4.nbAt layer n = some nb → m ∈ nb →
      ∃ nd, demoIndex4.nodes[m]? = some nd ∧ layer ≤ nd.max_level) ∧
    (∀ (n : Nat) (nd : Node), demoIndex4.nodes[n]? = some nd →
      nd.neighbors.length = nd.max_level + 1) ∧
    (∀ n, n < demoIndex4.nodes.length → ∃ nb, demoIndex4.nbAt 0 n = some nb) ∧
    (∀ o data label L, ∃ h2, demoIndex4.insert o l2distance data label L = some h2) ∧
    (∀ o q k, ∃ r, demoIndex4.query o l2distance q k = some r) ∧
    (∀ o q ep ef layer, demoIndex4.hasLayer layer ep →
      ∃ W, demoIndex4.search_layer o l2distance q (some ep) ef layer = some W)) :=
  ⟨l2distance_inRange, demo_reachable4,
    level_containment l2distance_inRange demo_fresh demo_reachable4⟩

/-- C5. Entry point validity: after one or more calls of `insert`, `entry_point` is not null,
the level of the entry node equals the `max_level` of the index, and no node has a larger
level. -/
theorem entry_point_valid {dist : Dist} (hd : DistInRange dist) {h0 h h1 : HNSW}
    (hf : h0.isFresh) (hr : Reachable dist h0 h) (o : IterOrder) (data : Vec) (label : Int)
    (L : Nat) (hins : h.insert o dist data label L = some h1) :
    ∃ e nd, h1.entry_point = some e ∧ h1.nodes[e]? = some nd ∧
      nd.max_level = h1.max_level ∧
      ∀ (n : Nat) (nd2 : Node), h1.nodes[n]? = some nd2 → nd2.max_level ≤ h1.max_level := by
  have hwf := reachable_wf hd hf hr
  have hwf1 := reachable_wf hd hf (Reachable.step o data label L hr hins)
  obtain ⟨-, -, -, -, -, hlen⟩ := insert_config o hd hwf data label L hins
  cases he : h1.entry_point with
  | none =>
    have := (hwf1.entry_none he).1
    rw [this] at hlen
    simp at hlen
  | some e =>
    obtain ⟨nd, hnd, hlv⟩ := hwf1.entry_some e he
    exact ⟨e, nd, rfl, hnd, hlv, hwf1.levels⟩

/-- An instance of C5 on a concrete index, with the hypotheses discharged. -/
theorem entry_point_valid_witness :
    DistInRange l2distance ∧ Reachable l2distance demoIndex0 demoIndex3 ∧
    demoIndex3.insert IterOrder.reversed l2distance [10, 0] 3 0 = some demoIndex4 ∧
    ∃ e nd, demoIndex4.entry_point = some e ∧ demoIndex4.nodes[e]? = some nd ∧
      nd.max_level = demoIndex4.max_level ∧
      ∀ (n : Nat) (nd2 : Node), demoIndex4.nodes[n]? = some nd2 →
        nd2.max_level ≤ demoIndex4.max_level :=
  ⟨l2distance_inRange, demo_reachable3, demo_step4,
    entry_point_valid l2distance_inRange demo_fresh demo_reachable3 _ _ _ _ demo_step4⟩

/-- C6. The size bound of `search_layer`: on a graph in which every node reachable from `ep`
at the layer (`ep` included) has that layer, and for `ef >= 1`, `search_layer(q, ep, ef,
layer)` returns a non-empty set with at most `ef` members. -/
theorem search_layer_size_bound (o : IterOrder) {dist : Dist} (hd : DistInRange dist)
    (h : HNSW) (q : Vec) (ep : Nat) (ef : Int) (layer : Nat) (hef : 1 ≤ ef)
    (hint : ef ≤ INT_MAX)
    (hclosed : ∀ x, Reach (h.nbAt layer) ep x → h.hasLayer layer x) :
    ∃ W, h.search_layer o dist q (some ep) ef layer = some W ∧ W ≠ [] ∧ W.Nodup ∧
      (W.length : Int) ≤ ef := by
  obtain ⟨W, hW, hne, hnd, hlen, -⟩ := search_layer_spec o hd h q ep ef layer hclosed
  have hsz := toSizeT_of_int (by omega) hint
  exact ⟨W, hW, hne, hnd, by omega⟩

/-- An instance of C6 on a concrete index, with the hypotheses discharged. -/
theorem search_layer_size_bound_witness :
    DistInRange l2distance ∧ (1 : Int) ≤ 2 ∧ (2 : Int) ≤ INT_MAX ∧
    (∀ x, Reach (demoIndex4.nbAt 0) 0 x → demoIndex4.hasLayer 0 x) ∧
    ∃ W, demoIndex4.search_layer IterOrder.reversed l2distance [9, 9] (some 0) 2 0 = some W ∧
      W ≠ [] ∧ W.Nodup ∧ (W.length : Int) ≤ 2 :=
  have hc : ∀ x, Reach (demoIndex4.nbAt 0) 0 x → demoIndex4.hasLayer 0 x :=
    fun _ hx => reach_hasLayer (reachable_wf l2distance_inRange demo_fresh
      demo_reachable4).closed (by decide) hx
  ⟨l2distance_inRange, by decide, by decide, hc,
    search_layer_size_bound IterOrder.reversed l2distance_inRange demoIndex4 [9, 9] 0 2 0
      (by decide) (by decide) hc⟩

/-- C7. Reachability of the result of `search_layer`: on a graph in which every node
reachable from `ep` at the layer has that layer, `search_layer(q, ep, ef, layer)` returns a
set each of whose members is `ep` or is reached from `ep` along `neighbors[layer]`
references. -/
theorem search_layer_reachable (o : IterOrder) {dist : Dist} (hd : DistInRange dist)
    (h : HNSW) (q : Vec) (ep : Nat) (ef : Int) (layer : Nat)
    (hclosed : ∀ x, Reach (h.nbAt layer) ep x → h.hasLayer layer x) :
    ∃ W, h.search_layer o dist q (some ep) ef layer = some W ∧
      ∀ x ∈ W, Reach (h.nbAt layer) ep x := by
  obtain ⟨W, hW, -, -, -, hr⟩ := search_layer_spec o hd h q ep ef layer hclosed
  exact ⟨W, hW, hr⟩

/-- An instance of C7 on a concrete index, with the hypotheses discharged. -/
theorem search_layer_reachable_witness :
    DistInRange l2distance ∧
    (∀ x, Reach (demoIndex4.nbAt 0) 1 x → demoIndex4.hasLayer 0 x) ∧
    ∃ W, demoIndex4.search_layer IterOrder.stored l2distance [1, 1] (some 1) 3 0 = some W ∧
      ∀ x ∈ W, Reach (demoIndex4.nbAt 0) 1 x :=
  have hc : ∀ x, Reach (demoIndex4.nbAt 0) 1 x → demoIndex4.hasLayer 0 x :=
    fun _ hx => reach_hasLayer (reachable_wf l2distance_inRange demo_fresh
      demo_reachable4).closed (by decide) hx
  ⟨l2distance_inRange, hc,
    search_layer_reachable IterOrder.stored l2distance_inRange demoIndex4 [1, 1] 1 3 0 hc⟩

/-- C8. For a candidate set (a duplicate-free list) and any integer `num`,
`select_neighbors(q, candidates, num)` returns a duplicate-free subset of `candidates` with
exactly `min(max(num, 0), |candidates|)` members, and every returned node is at most as far
from `q` as every candidate that was not returned. -/
theorem select_neighbors_contract (o : IterOrder) (dist : Dist) (h : HNSW) (q : Vec)
    (candidates : List Nat) (num : Int) (hc : candidates.Nodup) :
    (∀ x ∈ h.select_neighbors o dist q candidates num, x ∈ candidates) ∧
    (h.select_neighbors o dist q candidates num).Nodup ∧
    (h.select_neighbors o dist q candidates num).length
      = min (max num 0).toNat candidates.length ∧
    (∀ x ∈ h.select_neighbors o dist q candidates num, ∀ y ∈ candidates,
      y ∉ h.select_neighbors o dist q candidates num →
        h.distTo dist q x ≤ h.distTo dist q y) :=
  select_neighbors_sound o dist h q candidates num hc

/-- An instance of C8 on a concrete index, with the hypotheses discharged. -/
theorem select_neighbors_contract_witness :
    [0, 1, 2, 3].Nodup ∧
    (∀ x ∈ demoIndex4.select_neighbors IterOrder.reversed l2distance [9, 9] [0, 1, 2, 3] 2,
      x ∈ [0, 1, 2, 3]) ∧
    (demoIndex4.select_neighbors IterOrder.reversed l2distance [9, 9] [0, 1, 2, 3] 2).Nodup ∧
    (demoIndex4.select_neighbors IterOrder.reversed l2distance [9, 9] [0, 1, 2, 3] 2).length
      = min (max (2 : Int) 0).toNat [0, 1, 2, 3].length ∧
    (∀ x ∈ demoIndex4.select_neighbors IterOrder.reversed l2distance [9, 9] [0, 1, 2, 3] 2,
      ∀ y ∈ [0, 1, 2, 3],
      y ∉ demoIndex4.select_neighbors IterOrder.reversed l2distance [9, 9] [0, 1, 2, 3] 2 →
        demoIndex4.distTo l2distance [9, 9] x ≤ demoIndex4.distTo l2distance [9, 9] y) :=
  ⟨by decide,
    select_neighbors_contract IterOrder.reversed l2distance demoIndex4 [9, 9] [0, 1, 2, 3] 2
      (by decide)⟩

/-- C9. The size of the result of `query`: in every state reached by calls of `insert` and
for `k >= 1`, `query(q, k)` returns the labels of at most `k` pairwise distinct nodes of the
index, so the result is not longer than the number of inserted records. -/
theorem query_result_size {dist : Dist} (hd : DistInRange dist) {h0 h : HNSW}
    (hf : h0.isFresh) (hr : Reachable dist h0 h) (o : IterOrder) (q : Vec) (k : Int)
    (hk : 1 ≤ k) :
    ∃ ids : List Nat, h.query o dist q k = some (ids.map h.labelOf) ∧ ids.Nodup ∧
      (∀ i ∈ ids, i < h.nodes.length) ∧ (ids.length : Int) ≤ k ∧
      ids.length ≤ h.nodes.length := by
  have hwf := reachable_wf hd hf hr
  rcases queryNodes_spec o hd hwf q k with ⟨-, hq⟩ | ⟨ep, W, hep, -, -, hWnd, hWr, hq⟩
  · refine ⟨[], by simp [HNSW.query, hq], List.nodup_nil, ?_, ?_, Nat.zero_le _⟩
    · intro i hi
      exact absurd hi (List.not_mem_nil _)
    · simp only [List.length_nil, Nat.cast_zero]
      omega
  · obtain ⟨hS1, hS2, hS3, -⟩ := select_neighbors_sound o dist h q W k hWnd
    have hlt : ∀ i ∈ o.run (h.select_neighbors o dist q W k), i < h.nodes.length :=
      fun i hi => hasLayer_lt (reach_hasLayer hwf.closed hep (hWr i (hS1 i (o.mem_run.1 hi))))
    refine ⟨o.run (h.select_neighbors o dist q W k), by simp [HNSW.query, hq],
      o.nodup_run hS2, hlt, ?_, length_le_of_nodup_lt (o.nodup_run hS2) hlt⟩
    rw [o.length_run, hS3]
    omega

/-- An instance of C9 on a concrete index, with the hypotheses discharged. -/
theorem query_result_size_witness :
    DistInRange l2distance ∧ Reachable l2distance demoIndex0 demoIndex4 ∧ (1 : Int) ≤ 2 ∧
    ∃ ids : List Nat, demoIndex4.query IterOrder.reversed l2distance [9, 9] 2
        = some (ids.map demoIndex4.labelOf) ∧ ids.Nodup ∧
      (∀ i ∈ ids, i < demoIndex4.nodes.length) ∧ (ids.length : Int) ≤ 2 ∧
      ids.length ≤ demoIndex4.nodes.length :=
  ⟨l2distance_inRange, demo_reachable4, by decide,
    query_result_size l2distance_inRange demo_fresh demo_reachable4 IterOrder.reversed [9, 9] 2
      (by decide)⟩

/-- C10, as stated, fails: on the index holding (0,0), (10,10), (0,10), (10,0), when the
sets are iterated in the reverse of the order in which the elements were stored,
`query((9,9), 2)` visits node 3 (distance 82) before node 1 (distance 2) and returns the
labels `[3, 1]`. -/
theorem query_order_counterexample :
    Reachable l2distance demoIndex0 demoIndex4 ∧
    demoIndex4.queryNodes IterOrder.reversed l2distance [9, 9] 2 = some [3, 1] ∧
    demoIndex4.query IterOrder.reversed l2distance [9, 9] 2 = some [3, 1] ∧
    demoIndex4.distTo l2distance [9, 9] 3 = 82 ∧ demoIndex4.distTo l2distance [9, 9] 1 = 2 ∧
    ¬ NearestFirst l2distance demoIndex4 [9, 9] [3, 1] :=
  ⟨demo_reachable4, by decide, by decide, by decide, by decide, by decide⟩

/-! ## Symmetry of the edges -/

theorem line_step1 :
    lineIndex0.insert IterOrder.stored l2distance [0] 0 0 = some lineIndex1 := by
  decide

theorem line_step2 :
    lineIndex1.insert IterOrder.stored l2distance [1] 1 0 = some lineIndex2 := by
  decide

theorem line_step3 :
    lineIndex2.insert IterOrder.stored l2distance [3] 2 0 = some lineIndex3 := by
  decide

theorem line_reachable2 : Reachable l2distance lineIndex0 lineIndex2 :=
  Reachable.step _ _ _ _ (Reachable.step _ _ _ _ Reachable.init line_step1) line_step2

theorem line_reachable3 : Reachable l2distance lineIndex0 lineIndex3 :=
  Reachable.step _ _ _ _ line_reachable2 line_step3

theorem length_succ_le_of_not_mem {nb : List Nat} {N n : Nat} (hnd : nb.Nodup)
    (hlt : ∀ x ∈ nb, x < N) (hn : n ∉ nb) (hnN : n < N) : nb.length + 1 ≤ N := by
  have h1 : (n :: nb).Nodup := List.nodup_cons.2 ⟨hn, hnd⟩
  have h2 : ∀ x ∈ n :: nb, x < N := by
    intro x hx
    rcases List.mem_cons.1 hx with rfl | hx
    · exact hnN
    · exact hlt x hx
  have := length_le_of_nodup_lt h1 h2
  simpa using this

theorem addPruned_eq_setInsert (o : IterOrder) (dist : Dist) {h : HNSW} (newId n : Nat)
    {nb : List Nat} (hle : (setInsert nb newId).length ≤ toSizeT h.M_max) :
    addPruned o dist h newId n nb = setInsert nb newId := by
  unfold addPruned
  simp only
  rw [if_neg (by omega)]

theorem small_no_eviction {h : HNSW} (hwf : WF h) (hs : SymInv h)
    (hN : (h.nodes.length : Int) ≤ h.M_max) (hmax : h.M_max ≤ INT_MAX) (l m : Nat)
    (nb : List Nat) (hnb : h.nbAt l m = some nb) :
    (setInsert nb h.nodes.length).length ≤ toSizeT h.M_max := by
  have hsz : (toSizeT h.M_max : Int) = h.M_max := toSizeT_of_int (by omega) hmax
  have h1 := length_succ_le_of_not_mem (hs.nodup l m nb hnb)
    (fun y hy => hasLayer_lt (hwf.closed l m nb hnb y hy)) (hs.noself l m nb hnb)
    (hasLayer_lt (hasLayer_of_nbAt hnb))
  have h2 := length_setInsert_le nb h.nodes.length
  omega

theorem symInv_insert (o : IterOrder) {dist : Dist} (hd : DistInRange dist) {h : HNSW}
    (hwf : WF h) (hs : SymInv h) (data : Vec) (label : Int) (L : Nat) {h2 : HNSW}
    (hins : h.insert o dist data label L = some h2)
    (hq : ∀ l S m nb, h2.nbAt l h.nodes.length = some S → m ∈ S → h.nbAt l m = some nb →
      (setInsert nb h.nodes.length).length ≤ toSizeT h.M_max) : SymInv h2 := by
  cases hentry : h.entry_point with
  | none =>
    rw [insert_fresh o dist hentry] at hins
    simp only [Option.some.injEq] at hins
    subst hins
    have hnil : ∀ l m nb,
        HNSW.nbAt { h.alloc data label 0 with entry_point := some h.nodes.length } l m = some nb →
        nb = [] := by
      intro l m nb hnb
      have h2 : (h.alloc data label 0).nbAt l m = some nb := hnb
      rw [nbAt_alloc, (hwf.entry_none hentry).1] at h2
      simp only [List.length_nil, Nat.not_lt_zero, if_false] at h2
      split at h2
      · simp only [Option.some.injEq] at h2
        exact h2.symm
      · cases h2
    refine ⟨?_, ?_, ?_⟩
    · intro l n nb hnb
      rw [hnil l n nb hnb]
      exact List.nodup_nil
    · intro l n nb hnb
      rw [hnil l n nb hnb]
      exact List.not_mem_nil _
    · intro l a b nbA nbB _ hB ha
      rw [hnil l b nbB hB] at ha
      exact absurd ha (List.not_mem_nil _)
  | some e0 =>
    obtain ⟨hfin, hn, -, -, -, -, -, -, -, hsame, hlinked⟩ :=
      insert_nodes o hd hwf hentry data label L hins
    have hold : ∀ l x, (h.alloc data label L).hasLayer l x → x ≠ h.nodes.length →
        x < h.nodes.length ∧ (h.alloc data label L).nbAt l x = h.nbAt l x := by
      intro l x hx hne
      rcases hasLayer_alloc.1 hx with hx | ⟨hx, -⟩
      · have := hasLayer_lt hx
        refine ⟨this, ?_⟩
        rw [nbAt_alloc, if_pos this]
      · exact absurd hx hne
    have hdesc : ∀ l m nb2, h2.nbAt l m = some nb2 →
        (m = h.nodes.length ∧ nb2.Nodup ∧ ∀ x ∈ nb2, x ≠ h.nodes.length ∧
          ∃ nbx, h.nbAt l x = some nbx ∧ h2.nbAt l x = some (setInsert nbx h.nodes.length)) ∨
        (m < h.nodes.length ∧ ∃ nb, h.nbAt l m = some nb ∧
          (nb2 = nb ∨ (nb2 = setInsert nb h.nodes.length ∧
            ∃ S, h2.nbAt l h.nodes.length = some S ∧ m ∈ S))) := by
      intro l m nb2 hnb
      rw [nbAt_congr_nodes hn] at hnb
      by_cases hl : l ≤ min L h.max_level
      · obtain ⟨e, W, hne, hel, -, hWnd, hWr, hd2⟩ := hlinked l hl
        have hca := levelClosed_alloc hwf.closed data label L
        have hno := noRef_alloc hwf.closed data label L l
        obtain ⟨hS1, hSnd, -, -⟩ :=
          select_neighbors_sound o dist (h.alloc data label L) data W
            (h.alloc data label L).M hWnd
        have hSold : ∀ x ∈ (h.alloc data label L).select_neighbors o dist data W
            (h.alloc data label L).M,
            x ≠ h.nodes.length ∧ x < h.nodes.length ∧
              (h.alloc data label L).nbAt l x = h.nbAt l x := by
          intro x hx
          have hr := hWr x (hS1 x hx)
          have hxne := reach_ne hno hne hr
          exact ⟨hxne, hold l x (reach_hasLayer hca hel hr) hxne⟩
        have hpr : ∀ x nbx, x ∈ (h.alloc data label L).select_neighbors o dist data W
            (h.alloc data label L).M → h.nbAt l x = some nbx →
            addPruned o dist (h.alloc data label L) h.nodes.length x nbx
              = setInsert nbx h.nodes.length := by
          intro x nbx hx hnbx
          apply addPruned_eq_setInsert
          have h3 : (h.alloc data label L).M_max = h.M_max := rfl
          rw [h3]
          exact hq l _ x nbx (by rw [nbAt_congr_nodes hn, hd2 h.nodes.length, if_pos rfl])
            hx hnbx
        rw [hd2 m] at hnb
        split at hnb
        · rename_i hm
          simp only [Option.some.injEq] at hnb
          subst hnb
          left
          refine ⟨hm, hSnd, ?_⟩
          intro x hx
          obtain ⟨hx1, hx2, hx3⟩ := hSold x hx
          obtain ⟨nbx, hnbx⟩ := nbAt_of_hasLayer
            (reach_hasLayer hca hel (hWr x (hS1 x hx)))
          refine ⟨hx1, nbx, hx3 ▸ hnbx, ?_⟩
          rw [nbAt_congr_nodes hn, hd2 x, if_neg hx1, if_pos hx, hnbx]
          simp only [Option.map_some', Option.some.injEq]
          exact hpr x nbx hx (hx3 ▸ hnbx)
        · rename_i hm
          right
          split at hnb
          · rename_i hmS
            obtain ⟨-, hm2, hm3⟩ := hSold m hmS
            obtain ⟨nb0, hnb0, rfl⟩ := Option.map_eq_some'.1 hnb
            rw [hm3] at hnb0
            refine ⟨hm2, nb0, hnb0, Or.inr ⟨hpr m nb0 hmS hnb0, _, ?_, hmS⟩⟩
            rw [nbAt_congr_nodes hn, hd2 h.nodes.length, if_pos rfl]
          · have hml := hold l m (hasLayer_of_nbAt hnb) hm
            exact ⟨hml.1, nb2, hml.2 ▸ hnb, Or.inl rfl⟩
      · rw [hsame l (by omega) m, nbAt_alloc] at hnb
        split at hnb
        · rename_i hm
          exact Or.inr ⟨hm, nb2, hnb, Or.inl rfl⟩
        · split at hnb
          · rename_i hm
            simp only [Option.some.injEq] at hnb
            subst hnb
            exact Or.inl ⟨hm.1, List.nodup_nil, fun x hx => absurd hx (List.not_mem_nil _)⟩
          · cases hnb
    refine ⟨?_, ?_, ?_⟩
    · intro l n nb2 hnb
      rcases hdesc l n nb2 hnb with ⟨-, hnd, -⟩ | ⟨-, nb, hnb0, rfl | ⟨rfl, -⟩⟩
      · exact hnd
      · exact hs.nodup l n _ hnb0
      · exact nodup_setInsert (hs.nodup l n nb hnb0)
    · intro l n nb2 hnb hmem
      rcases hdesc l n nb2 hnb with ⟨hm, -, hx⟩ | ⟨hm, nb, hnb0, rfl | ⟨rfl, -⟩⟩
      · exact (hx n hmem).1 hm
      · exact hs.noself l n _ hnb0 hmem
      · rcases mem_setInsert.1 hmem with h1 | h1
        · exact hs.noself l n nb hnb0 h1
        · omega
    · intro l a b nbA nbB hA hB ha
      rcases hdesc l b nbB hB with ⟨hb, -, hx⟩ | ⟨hb, nb, hnb0, hcase⟩
      · obtain ⟨-, nba, -, hA2⟩ := hx a ha
        rw [hA] at hA2
        simp only [Option.some.injEq] at hA2
        subst hA2 hb
        exact mem_setInsert.2 (Or.inr rfl)
      · have haold : a ∈ nb → b ∈ nbA := by
          intro ha2
          have halt : a < h.nodes.length := hasLayer_lt (hwf.closed l b nb hnb0 a ha2)
          rcases hdesc l a nbA hA with ⟨hm, -, -⟩ | ⟨-, nb1, hnb1, rfl | ⟨rfl, -⟩⟩
          · omega
          · exact hs.sym l a b _ nb hnb1 hnb0 ha2
          · exact mem_setInsert.2 (Or.inl (hs.sym l a b nb1 nb hnb1 hnb0 ha2))
        rcases hcase with rfl | ⟨rfl, S, hS, hbS⟩
        · exact haold ha
        · rcases mem_setInsert.1 ha with h1 | h1
          · exact haold h1
          · subst h1
            rw [hA] at hS
            simp only [Option.some.injEq] at hS
            subst hS
            exact hbS


theorem symInv_reachable {dist : Dist} (hd : DistInRange dist) {h0 h : HNSW}
    (hf : h0.isFresh) (hmax : h0.M_max ≤ INT_MAX) (hr : Reachable dist h0 h) :
    (h.nodes.length : Int) ≤ h0.M_max + 1 → SymInv h := by
  induction hr with
  | init =>
    intro _
    refine ⟨?_, ?_, ?_⟩ <;> intro l n <;> simp [HNSW.nbAt, hf.1]
  | @step g g1 o data label L hr1 hins ih =>
    intro hN
    have hwf := reachable_wf hd hf hr1
    obtain ⟨-, -, -, -, -, hlen⟩ := insert_config o hd hwf data label L hins
    obtain ⟨-, c2b, -, -, -⟩ := reachable_config hd hf hr1
    rw [hlen] at hN
    push_cast at hN
    exact symInv_insert o hd hwf (ih (by omega)) data label L hins
      (fun l _ m nb _ _ hnb => small_no_eviction hwf (ih (by omega)) (by rw [c2b]; omega)
        (by rw [c2b]; exact hmax) l m nb hnb)

/-! ## Exhaustive search on small components -/

theorem visitStep_small {o : IterOrder} {d : Nat → Int} {ef : Int} {G : Nat → Prop}
    (hsmall : ∀ l : List Nat, l.Nodup → (∀ x ∈ l, G x) → l.length ≤ toSizeT ef)
    {n : Nat} (hn : G n) {W V C : List Nat} (inv : SearchInv G ef W V C) (hnV : n ∉ V) :
    visitStep o d ef n W V C = some (setInsert W n, setInsert V n, setInsert C n) := by
  have hnW : n ∉ W := fun h => hnV (inv.W_sub n h)
  have hW1 : (setInsert W n).Nodup := nodup_setInsert inv.W_nodup
  have hlen1 := hsmall (setInsert W n) hW1 (by
    intro x hx
    rcases mem_setInsert.1 hx with hx | rfl
    · exact inv.V_good x (inv.W_sub x hx)
    · exact hn)
  have hlen2 := length_setInsert_of_not_mem hnW
  have hlt : W.length < toSizeT ef := by omega
  have hno : ¬ toSizeT ef < (setInsert W n).length := by omega
  simp [visitStep, hnV, hlt, hno]

theorem visitAll_small {o : IterOrder} {d : Nat → Int} {ef : Int} {G : Nat → Prop}
    (hd : ∀ n, LONG_MIN < d n ∧ d n < LONG_MAX)
    (hsmall : ∀ l : List Nat, l.Nodup → (∀ x ∈ l, G x) → l.length ≤ toSizeT ef)
    (ns : List Nat) (hns : ∀ n ∈ ns, G n) {W V C : List Nat} (inv : SearchInv G ef W V C)
    (hVW : ∀ x ∈ V, x ∈ W) (hCW : ∀ x ∈ C, x ∈ W) :
    ∃ W2 V2 C2, visitAll o d ef ns W V C = some (W2, V2, C2) ∧
      (∀ x ∈ V2, x ∈ W2) ∧ (∀ x ∈ C2, x ∈ W2) ∧ (∀ x ∈ C, x ∈ C2) ∧
      (∀ x ∈ V2, x ∉ V → x ∈ C2) ∧ (∀ x ∈ V, x ∈ V2) ∧ (∀ x ∈ ns, x ∈ V2) := by
  induction ns generalizing W V C with
  | nil =>
    exact ⟨W, V, C, rfl, hVW, hCW, fun x hx => hx, fun x hx hnx => absurd hx hnx,
      fun x hx => hx, fun x hx => absurd hx (List.not_mem_nil _)⟩
  | cons n ns ih =>
    obtain ⟨W1, V1, C1, h1, inv1, -, -, hm1⟩ :=
      visitStep_base (o := o) hd (hns n (List.mem_cons_self _ _)) inv
    have hstep : (∀ x ∈ V1, x ∈ W1) ∧ (∀ x ∈ C1, x ∈ W1) ∧ (∀ x ∈ C, x ∈ C1) ∧
        (∀ x ∈ V1, x ∉ V → x ∈ C1) := by
      by_cases hnV : n ∈ V
      · have e : visitStep o d ef n W V C = some (W, V, C) := by simp [visitStep, hnV]
        rw [e] at h1
        simp only [Option.some.injEq, Prod.mk.injEq] at h1
        obtain ⟨rfl, rfl, rfl⟩ := h1
        exact ⟨hVW, hCW, fun x hx => hx, fun x hx hnx => absurd hx hnx⟩
      · rw [visitStep_small hsmall (hns n (List.mem_cons_self _ _)) inv hnV] at h1
        simp only [Option.some.injEq, Prod.mk.injEq] at h1
        obtain ⟨rfl, rfl, rfl⟩ := h1
        refine ⟨?_, ?_, fun x hx => mem_setInsert.2 (Or.inl hx), ?_⟩
        · intro x hx
          rcases mem_setInsert.1 hx with hx | rfl
          · exact mem_setInsert.2 (Or.inl (hVW x hx))
          · exact mem_setInsert.2 (Or.inr rfl)
        · intro x hx
          rcases mem_setInsert.1 hx with hx | rfl
          · exact mem_setInsert.2 (Or.inl (hCW x hx))
          · exact mem_setInsert.2 (Or.inr rfl)
        · intro x hx hxV
          rcases mem_setInsert.1 hx with hx | rfl
          · exact absurd hx hxV
          · exact mem_setInsert.2 (Or.inr rfl)
    obtain ⟨s1, s2, s3, s4⟩ := hstep
    obtain ⟨W2, V2, C2, h2, g1, g2, g3, g4, g5, g6⟩ :=
      ih (fun m hm => hns m (List.mem_cons_of_mem _ hm)) inv1 s1 s2
    refine ⟨W2, V2, C2, by simp [visitAll, h1, h2], g1, g2, fun x hx => g3 x (s3 x hx), ?_,
      fun x hx => g5 x ((hm1 x).2 (Or.inl hx)), ?_⟩
    · intro x hx hxV
      by_cases hx1 : x ∈ V1
      · exact g3 x (s4 x hx1 hxV)
      · exact g4 x hx hx1
    · intro x hx
      rcases List.mem_cons.1 hx with rfl | hx
      · exact g5 x ((hm1 x).2 (Or.inr rfl))
      · exact g6 x hx

theorem searchLoop_full {o : IterOrder} {d : Nat → Int} {adj : Nat → Option (List Nat)}
    {ef : Int} {N : Nat} {ep : Nat}
    (hd : ∀ n, LONG_MIN < d n ∧ d n < LONG_MAX)
    (hvalid : ∀ x, Reach adj ep x → x < N ∧ ∃ nbs, adj x = some nbs)
    (hsmall : ∀ l : List Nat, l.Nodup → (∀ x ∈ l, Reach adj ep x) → l.length ≤ toSizeT ef) :
    ∃ R, searchLoop o d adj ef (N + 1) [ep] [ep] [ep] = some R ∧ R.Nodup ∧
      ∀ x, x ∈ R ↔ Reach adj ep x := by
  have hGlt : ∀ x, Reach adj ep x → x < N := fun x hx => (hvalid x hx).1
  have hGadj : ∀ x, Reach adj ep x → ∃ nbs, adj x = some nbs ∧ ∀ n ∈ nbs, Reach adj ep n := by
    intro x hx
    obtain ⟨nbs, hnbs⟩ := (hvalid x hx).2
    exact ⟨nbs, hnbs, fun n hn => Relation.ReflTransGen.tail hx ⟨nbs, hnbs, hn⟩⟩
  have hexit : ∀ W V C, SearchInv (Reach adj ep) ef W V C ∧ FullInv adj ep W V C → C = [] →
      W.Nodup ∧ ∀ x, x ∈ W ↔ Reach adj ep x := by
    rintro W V C ⟨inv, full⟩ hC
    refine ⟨inv.W_nodup, fun x => ⟨fun hx => inv.V_good x (inv.W_sub x hx), fun hx => ?_⟩⟩
    apply full.V_sub
    refine reach_closed (P := fun y => y ∈ V) ?_ full.ep_mem hx
    intro a nb ha hnb b hb
    exact full.closed a ha (by rw [hC]; exact List.not_mem_nil _) nb hnb b hb
  have hmain := searchLoop_induct o d adj ef N
    (fun W V C => SearchInv (Reach adj ep) ef W V C ∧ FullInv adj ep W V C)
    (fun R => R.Nodup ∧ ∀ x, x ∈ R ↔ Reach adj ep x) hexit
    (fun W V C hP hC => by
      obtain ⟨inv, full⟩ := hP
      obtain ⟨c, f, hc, hf, h⟩ := searchBody_base (o := o) hd hGlt hGadj inv hC
      have hcC := (nearestOf_some hc).1
      rcases h with ⟨hbr, -⟩ | ⟨-, nbs, W2, V2, C2, hnbs, hvis, hb, inv2, hm⟩
      · exact absurd hbr (not_lt.2 ((furthestOf_some hf).2 c (full.C_subW c hcC)))
      · right
        refine ⟨W2, V2, C2, hb, ⟨inv2, ?_⟩, hm⟩
        have inv1 : SearchInv (Reach adj ep) ef W V (setErase C (some c)) :=
          ⟨inv.W_ne, inv.W_nodup, inv.W_len, inv.V_nodup, nodup_setErase _ inv.C_nodup,
            inv.W_sub, fun x hx => inv.C_sub x (mem_of_mem_setErase hx), inv.V_good⟩
        obtain ⟨nbs2, hnbs2, hG⟩ := hGadj c (inv.V_good c (inv.C_sub c hcC))
        rw [hnbs] at hnbs2
        simp only [Option.some.injEq] at hnbs2
        subst hnbs2
        obtain ⟨W3, V3, C3, hvis3, g1, g2, g3, g4, g5, g6⟩ :=
          visitAll_small (o := o) hd hsmall (o.run nbs)
            (fun n hn => hG n (o.mem_run.1 hn)) inv1 full.V_sub
            (fun x hx => full.C_subW x (mem_of_mem_setErase hx))
        rw [hvis] at hvis3
        simp only [Option.some.injEq, Prod.mk.injEq] at hvis3
        obtain ⟨rfl, rfl, rfl⟩ := hvis3
        refine ⟨g1, g2, g5 ep full.ep_mem, ?_⟩
        intro x hx hxC nbs3 hnbs3 n hn
        by_cases hxV : x ∈ V
        · have hx1 : x ∉ setErase C (some c) := fun hmem => hxC (g3 x hmem)
          by_cases hxc : x = c
          · subst hxc
            rw [hnbs] at hnbs3
            simp only [Option.some.injEq] at hnbs3
            subst hnbs3
            exact g6 n (o.mem_run.2 hn)
          · have hxC0 : x ∉ C := fun hmem =>
              hx1 ((mem_setErase_some inv.C_nodup).2 ⟨hxc, hmem⟩)
            exact g5 n (full.closed x hxV hxC0 nbs3 hnbs3 n hn)
        · exact absurd (g4 x hx hxV) hxC)
  have hep : Reach adj ep ep := Relation.ReflTransGen.refl
  have hN : 0 < N := Nat.lt_of_le_of_lt (Nat.zero_le _) (hGlt ep hep)
  refine hmain (N + 1) [ep] [ep] [ep] ⟨?_, ?_⟩ ?_
  · refine ⟨by simp, by simp, by simp, by simp, by simp, fun x hx => hx, fun x hx => hx, ?_⟩
    intro x hx
    rw [List.mem_singleton.1 hx]
    exact hep
  · refine ⟨fun x hx => hx, fun x hx => hx, by simp, ?_⟩
    intro x hx hxC
    exact absurd hx hxC
  · simp only [List.length_singleton]
    omega

theorem search_layer_full (o : IterOrder) {dist : Dist} (hd : DistInRange dist) (h : HNSW)
    (q : Vec) (ep : Nat) (ef : Int) (layer : Nat)
    (hclosed : ∀ x, Reach (h.nbAt layer) ep x → h.hasLayer layer x)
    (hsmall : h.nodes.length ≤ toSizeT ef) :
    ∃ W, h.search_layer o dist q (some ep) ef layer = some W ∧ W.Nodup ∧
      ∀ x, x ∈ W ↔ Reach (h.nbAt layer) ep x := by
  unfold HNSW.search_layer
  apply searchLoop_full
  · intro n
    exact hd _ _ _
  · intro x hx
    exact ⟨hasLayer_lt (hclosed x hx), nbAt_of_hasLayer (hclosed x hx)⟩
  · intro l hl hlr
    have := length_le_of_nodup_lt hl (fun x hx => hasLayer_lt (hclosed x (hlr x hx)))
    omega


/-! ## The effect of `insert` on layer 0 of a small index -/

theorem reach_mono {adj adj2 : Nat → Option (List Nat)} {ep x : Nat}
    (hsub : ∀ a nb, adj a = some nb → adj2 a = some nb) (hr : Reach adj ep x) :
    Reach adj2 ep x := by
  induction hr with
  | refl => exact Relation.ReflTransGen.refl
  | tail _ hedge ih =>
    obtain ⟨nb, hnb, hb⟩ := hedge
    exact Relation.ReflTransGen.tail ih ⟨nb, hsub _ nb hnb, hb⟩

theorem length_eq_of_mem_iff_lt {W : List Nat} {N : Nat} (hnd : W.Nodup)
    (hmem : ∀ x, x ∈ W ↔ x < N) : W.length = N := by
  have hp : W.Perm (List.range N) :=
    (List.perm_ext_iff_of_nodup hnd (List.nodup_range N)).2
      (fun x => by rw [hmem, List.mem_range])
  rw [hp.length_eq, List.length_range]

theorem dataOf_alloc (h : HNSW) (data : Vec) (label : Int) (L m : Nat) :
    (h.alloc data label L).dataOf m =
      if m < h.nodes.length then h.dataOf m else if m = h.nodes.length then data else [] := by
  unfold HNSW.dataOf
  rw [nodes_alloc]
  by_cases h1 : m < h.nodes.length
  · simp [h1]
  · by_cases h2 : m = h.nodes.length
    · simp [h2, Node.new]
    · have : h.nodes.length ≤ m := by omega
      simp [h1, h2]

theorem labelOf_alloc (h : HNSW) (data : Vec) (label : Int) (L m : Nat) :
    (h.alloc data label L).labelOf m =
      if m < h.nodes.length then h.labelOf m else if m = h.nodes.length then label else 0 := by
  unfold HNSW.labelOf
  rw [nodes_alloc]
  by_cases h1 : m < h.nodes.length
  · simp [h1]
  · by_cases h2 : m = h.nodes.length
    · simp [h2, Node.new]
    · simp [h1, h2]

theorem dataOf_congr_nodes {h h1 : HNSW} (hn : h1.nodes = h.nodes) (m : Nat) :
    h1.dataOf m = h.dataOf m ∧ h1.labelOf m = h.labelOf m := by
  unfold HNSW.dataOf HNSW.labelOf
  rw [hn]
  exact ⟨rfl, rfl⟩

theorem insert_records (o : IterOrder) {dist : Dist} (hd : DistInRange dist) {h : HNSW}
    (hwf : WF h) (data : Vec) (label : Int) (L : Nat) {h2 : HNSW}
    (hins : h.insert o dist data label L = some h2) (m : Nat) :
    h2.dataOf m =
      (if m < h.nodes.length then h.dataOf m else if m = h.nodes.length then data else []) ∧
    h2.labelOf m =
      (if m < h.nodes.length then h.labelOf m else if m = h.nodes.length then label else 0) := by
  cases hentry : h.entry_point with
  | none =>
    rw [insert_fresh o dist hentry] at hins
    simp only [Option.some.injEq] at hins
    subst hins
    exact ⟨dataOf_alloc h data label 0 m, labelOf_alloc h data label 0 m⟩
  | some e0 =>
    obtain ⟨hfin, hn, -, -, -, -, -, f, -, -, -⟩ :=
      insert_nodes o hd hwf hentry data label L hins
    obtain ⟨e1, e2⟩ := dataOf_congr_nodes hn m
    rw [e1, e2, f.dataOf, f.labelOf, dataOf_alloc, labelOf_alloc]
    exact ⟨rfl, rfl⟩

theorem insert_entry_some (o : IterOrder) {dist : Dist} (hd : DistInRange dist) {h : HNSW}
    (hwf : WF h) (data : Vec) (label : Int) (L : Nat) {h2 : HNSW}
    (hins : h.insert o dist data label L = some h2) : ∃ e, h2.entry_point = some e := by
  obtain ⟨h3, hins3, hwf3⟩ := insert_wf o hd hwf data label L
  rw [hins] at hins3
  simp only [Option.some.injEq] at hins3
  subst hins3
  obtain ⟨-, -, -, -, -, hlen⟩ := insert_config o hd hwf data label L hins
  cases he : h2.entry_point with
  | none =>
    have := (hwf3.entry_none he).1
    rw [this] at hlen
    simp at hlen
  | some e => exact ⟨e, rfl⟩

theorem insert_layer0 (o : IterOrder) {dist : Dist} (hd : DistInRange dist) {h : HNSW}
    (hwf : WF h) {e0 : Nat} (hentry : h.entry_point = some e0) (data : Vec) (label : Int)
    (L : Nat) {h2 : HNSW} (hins : h.insert o dist data label L = some h2)
    (hconn : ∀ a b, a < h.nodes.length → b < h.nodes.length → Reach (h.nbAt 0) a b)
    (hef : h.nodes.length + 1 ≤ toSizeT h.ef_construction) :
    ∃ S : List Nat, S.Nodup ∧ (∀ x ∈ S, x < h.nodes.length) ∧
      S.length = min h.M.toNat h.nodes.length ∧
      (∀ x ∈ S, ∀ y, y < h.nodes.length → y ∉ S →
        dist (h.dataOf x) data h.vec_dim ≤ dist (h.dataOf y) data h.vec_dim) ∧
      h2.nbAt 0 h.nodes.length = some S ∧
      ∀ m, m < h.nodes.length → h2.nbAt 0 m =
        if m ∈ S then (h.nbAt 0 m).map (addPruned o dist (h.alloc data label L) h.nodes.length m)
        else h.nbAt 0 m := by
  obtain ⟨hfin, hn, -, -, -, -, -, -, -, -, hlinked⟩ :=
    insert_nodes o hd hwf hentry data label L hins
  obtain ⟨e, W, hne, hel, hW, hWnd, -, hdesc⟩ := hlinked 0 (Nat.zero_le _)
  have hca := levelClosed_alloc hwf.closed data label L
  have hno := noRef_alloc hwf.closed data label L 0
  obtain ⟨W2, hW2, -, hWiff⟩ := search_layer_full o hd (h.alloc data label L) data e
    (h.alloc data label L).ef_construction 0 (fun x hx => reach_hasLayer hca hel hx)
    (by
      have : (h.alloc data label L).nodes.length = h.nodes.length + 1 := by simp [HNSW.alloc]
      rw [this]
      exact hef)
  rw [hW] at hW2
  simp only [Option.some.injEq] at hW2
  subst hW2
  have hold : ∀ x, (h.alloc data label L).hasLayer 0 x → x ≠ h.nodes.length →
      x < h.nodes.length := by
    intro x hx hxne
    rcases hasLayer_alloc.1 hx with hx | ⟨hx, -⟩
    · exact hasLayer_lt hx
    · exact absurd hx hxne
  have helt : e < h.nodes.length := hold e hel hne
  have hWmem : ∀ x, x ∈ W ↔ x < h.nodes.length := by
    intro x
    rw [hWiff]
    constructor
    · intro hr
      exact hold x (reach_hasLayer hca hel hr) (reach_ne hno hne hr)
    · intro hx
      refine reach_mono ?_ (hconn e x helt hx)
      intro a nb hnb
      rw [nbAt_alloc, if_pos (hasLayer_lt (hasLayer_of_nbAt hnb))]
      exact hnb
  obtain ⟨hS1, hS2, hS3, hS4⟩ := select_neighbors_sound o dist (h.alloc data label L) data W
    (h.alloc data label L).M hWnd
  have hdist : ∀ x, x < h.nodes.length →
      (h.alloc data label L).distTo dist data x = dist (h.dataOf x) data h.vec_dim := by
    intro x hx
    unfold HNSW.distTo
    rw [dataOf_alloc, if_pos hx]
    rfl
  refine ⟨(h.alloc data label L).select_neighbors o dist data W (h.alloc data label L).M, hS2,
    fun x hx => (hWmem x).1 (hS1 x hx), ?_, ?_, ?_, ?_⟩
  · rw [hS3, length_eq_of_mem_iff_lt hWnd hWmem]
    have : (h.alloc data label L).M = h.M := rfl
    rw [this]
    congr 1
    omega
  · intro x hx y hy hyS
    rw [← hdist x ((hWmem x).1 (hS1 x hx)), ← hdist y hy]
    exact hS4 x hx y ((hWmem y).2 hy) hyS
  · rw [nbAt_congr_nodes hn, hdesc, if_pos rfl]
  · intro m hm
    rw [nbAt_congr_nodes hn, hdesc, if_neg (Nat.ne_of_lt hm), nbAt_alloc, if_pos hm]


/-! ## The four-point scenario -/

theorem holds_insert (o : IterOrder) {h : HNSW} {pts : List Vec} (hk : Holds h pts)
    (data : Vec) (L : Nat) :
    ∃ h2, h.insert o l2distance data (pts.length : Int) L = some h2 ∧
      Holds h2 (pts ++ [data]) := by
  obtain ⟨h2, hins, hwf2⟩ := insert_wf o l2distance_inRange hk.wf data (pts.length : Int) L
  obtain ⟨c1, c2, c3, c4, c5, hlen⟩ :=
    insert_config o l2distance_inRange hk.wf data (pts.length : Int) L hins
  refine ⟨h2, hins, hwf2, ?_, c1.trans hk.cM, c2.trans hk.cM_max, c3.trans hk.cefc,
    c4.trans hk.cefs, c5.trans hk.cdim, ?_, ?_⟩
  · rw [hlen, hk.len]
    simp
  · intro m hm
    rw [(insert_records o l2distance_inRange hk.wf data _ L hins m).1, hk.len]
    by_cases h1 : m < pts.length
    · rw [if_pos h1, hk.data m h1]
      simp [List.getD, List.getElem?_append, h1]
    · have h2 : m = pts.length := by
        simp only [List.length_append, List.length_singleton] at hm
        omega
      rw [if_neg h1, if_pos h2, h2]
      simp [List.getD]
  · intro m hm
    rw [(insert_records o l2distance_inRange hk.wf data _ L hins m).2, hk.len]
    by_cases h1 : m < pts.length
    · rw [if_pos h1, hk.label m h1]
    · have h2 : m = pts.length := by
        simp only [List.length_append, List.length_singleton] at hm
        omega
      rw [if_neg h1, if_pos h2, h2]

theorem holds_alloc_dist {h : HNSW} {pts : List Vec} (hk : Holds h pts) (data : Vec)
    (label : Int) (L : Nat) (q : Vec) (y : Nat) (hy : y < pts.length + 1) :
    (h.alloc data label L).distTo l2distance q y
      = l2distance ((pts ++ [data]).getD y []) q 2 := by
  unfold HNSW.distTo
  have hv : (h.alloc data label L).vec_dim = 2 := hk.cdim
  rw [hv, dataOf_alloc, hk.len]
  by_cases h1 : y < pts.length
  · rw [if_pos h1, hk.data y h1]
    simp [List.getD, List.getElem?_append, h1]
  · have h2 : y = pts.length := by omega
    rw [if_neg h1, if_pos h2, h2]
    simp [List.getD]

theorem holds_dist {h : HNSW} {pts : List Vec} (hk : Holds h pts) (q : Vec) (y : Nat)
    (hy : y < pts.length) :
    h.distTo l2distance q y = l2distance (pts.getD y []) q 2 := by
  unfold HNSW.distTo
  rw [hk.cdim, hk.data y hy]

theorem furthestOf_eq_of_max (o : IterOrder) {d : Nat → Int}
    (hd : ∀ n, LONG_MIN < d n ∧ d n < LONG_MAX) {l : List Nat} {x : Nat} (hx : x ∈ l)
    (hmax : ∀ y ∈ l, y ≠ x → d y < d x) : furthestOf o d l = some x := by
  obtain ⟨f, hf⟩ := furthestOf_exists o (List.ne_nil_of_mem hx) (fun y _ => (hd y).1)
  obtain ⟨hfm, hfmax⟩ := furthestOf_some hf
  by_cases hfx : f = x
  · rw [hf, hfx]
  · exact absurd (hmax f hfm hfx) (not_lt.2 (hfmax x hx))

theorem reach_edge {adj : Nat → Option (List Nat)} {a b : Nat} {nb : List Nat}
    (hnb : adj a = some nb) (hb : b ∈ nb) : Reach adj a b :=
  Relation.ReflTransGen.single ⟨nb, hnb, hb⟩

theorem reach_all_of_hub {adj : Nat → Option (List Nat)} {N : Nat}
    (hto : ∀ a, a < N → Reach adj a 0) (hfrom : ∀ b, b < N → Reach adj 0 b) :
    ∀ a b, a < N → b < N → Reach adj a b :=
  fun a b ha hb => Relation.ReflTransGen.trans (hto a ha) (hfrom b hb)

theorem demo_holds1 : Holds demoIndex1 [[0, 0]] := by
  refine ⟨wf_insert_fresh (wf_fresh demo_fresh) rfl [0, 0] 0, rfl, rfl, rfl, rfl, rfl, rfl,
    ?_, ?_⟩
  · intro m hm
    have : m = 0 := by simpa using hm
    subst this
    rfl
  · intro m hm
    have : m = 0 := by simpa using hm
    subst this
    rfl

theorem scenario_step2 (o : IterOrder) (L : Nat) :
    ∃ h2, demoIndex1.insert o l2distance [10, 10] 1 L = some h2 ∧
      Holds h2 [[0, 0], [10, 10]] ∧ h2.nbAt 0 0 = some [1] ∧ h2.nbAt 0 1 = some [0] := by
  obtain ⟨h2, hins, hk2⟩ := holds_insert o demo_holds1 [10, 10] L
  refine ⟨h2, hins, hk2, ?_⟩
  obtain ⟨S, hSnd, hSlt, hSlen, -, hnew, hold⟩ :=
    insert_layer0 o l2distance_inRange demo_holds1.wf
      (rfl : demoIndex1.entry_point = some 0) [10, 10] _ L hins
      (by
        intro a b ha hb
        have ha0 : a = 0 := by simpa [demoIndex1] using ha
        have hb0 : b = 0 := by simpa [demoIndex1] using hb
        subst ha0 hb0
        exact Relation.ReflTransGen.refl)
      (by decide)
  have hS : S = [0] := by
    have hl : S.length = 1 := by rw [hSlen]; decide
    match S, hl, hSlt with
    | [x], _, hlt =>
      have : x < 1 := hlt x (List.mem_singleton.2 rfl)
      have : x = 0 := by omega
      rw [this]
  subst hS
  refine ⟨?_, hnew⟩
  rw [hold 0 (by decide), if_pos (List.mem_singleton.2 rfl)]
  have : demoIndex1.nbAt 0 0 = some [] := rfl
  rw [this, Option.map_some', addPruned_eq_setInsert]
  · rfl
  · show (setInsert [] 1).length ≤ toSizeT 2
    decide


theorem holds_entry {h : HNSW} {pts : List Vec} (hk : Holds h pts) (hp : 0 < pts.length) :
    ∃ e, h.entry_point = some e := by
  cases he : h.entry_point with
  | none =>
    have := (hk.wf.entry_none he).1
    have hl := hk.len
    rw [this] at hl
    simp only [List.length_nil] at hl
    omega
  | some e => exact ⟨e, rfl⟩

theorem mem_of_full {S : List Nat} {N : Nat} (hnd : S.Nodup) (hlt : ∀ x ∈ S, x < N)
    (hlen : S.length = N) : ∀ x, x < N → x ∈ S := by
  have hsub : S ⊆ List.range N := fun x hx => List.mem_range.2 (hlt x hx)
  have hp : S.Perm (List.range N) :=
    (List.subperm_of_subset hnd hsub).perm_of_length_le (by simp [hlen])
  intro x hx
  exact hp.mem_iff.2 (List.mem_range.2 hx)

theorem addPruned_evict (o : IterOrder) (dist : Dist) {h : HNSW} (newId n : Nat)
    {nb : List Nat} {f : Nat} (hgt : toSizeT h.M_max < (setInsert nb newId).length)
    (hf : furthestOf o (h.distTo dist (h.dataOf n)) (setInsert nb newId) = some f) :
    addPruned o dist h newId n nb = (setInsert nb newId).erase f := by
  unfold addPruned HNSW.get_furthest
  simp only
  rw [if_pos hgt, hf]
  rfl

theorem scenario_step3 (o : IterOrder) (L : Nat) {h2 : HNSW}
    (hk : Holds h2 [[0, 0], [10, 10]]) (n0 : h2.nbAt 0 0 = some [1])
    (n1 : h2.nbAt 0 1 = some [0]) :
    ∃ h3, h2.insert o l2distance [0, 10] 2 L = some h3 ∧
      Holds h3 [[0, 0], [10, 10], [0, 10]] ∧ h3.nbAt 0 0 = some [1, 2] ∧
      h3.nbAt 0 1 = some [0, 2] ∧
      ∃ S, h3.nbAt 0 2 = some S ∧ ∀ x, x ∈ S ↔ x = 0 ∨ x = 1 := by
  obtain ⟨h3, hins, hk3⟩ := holds_insert o hk [0, 10] L
  obtain ⟨e0, he0⟩ := holds_entry hk (by decide)
  have hlen : h2.nodes.length = 2 := hk.len
  refine ⟨h3, hins, hk3, ?_⟩
  obtain ⟨S, hSnd, hSlt, hSlen, -, hnew, hold⟩ :=
    insert_layer0 o l2distance_inRange hk.wf he0 [0, 10] _ L hins
      (by
        rw [hlen]
        apply reach_all_of_hub
        · intro a ha
          have : a = 0 ∨ a = 1 := by omega
          rcases this with rfl | rfl
          · exact Relation.ReflTransGen.refl
          · exact reach_edge n1 (by decide)
        · intro b hb
          have : b = 0 ∨ b = 1 := by omega
          rcases this with rfl | rfl
          · exact Relation.ReflTransGen.refl
          · exact reach_edge n0 (by decide))
      (by rw [hlen, hk.cefc]; decide)
  rw [hlen] at hSlt hnew hold
  rw [hlen, hk.cM] at hSlen
  have hSall := mem_of_full hSnd hSlt hSlen
  have hsz : ∀ D, toSizeT (h2.alloc [0, 10] D L).M_max = 2 := by
    intro D
    show toSizeT h2.M_max = 2
    rw [hk.cM_max]
    decide
  refine ⟨?_, ?_, S, hnew, ?_⟩
  · rw [hold 0 (by decide), if_pos (hSall 0 (by decide)), n0, Option.map_some',
      addPruned_eq_setInsert]
    · rfl
    · rw [hsz]
      decide
  · rw [hold 1 (by decide), if_pos (hSall 1 (by decide)), n1, Option.map_some',
      addPruned_eq_setInsert]
    · rfl
    · rw [hsz]
      decide
  · intro x
    constructor
    · intro hx
      have := hSlt x hx
      omega
    · rintro (rfl | rfl)
      · exact hSall 0 (by decide)
      · exact hSall 1 (by decide)


theorem scenario_step4 (o : IterOrder) (L : Nat) {h3 : HNSW}
    (hk : Holds h3 [[0, 0], [10, 10], [0, 10]]) (n0 : h3.nbAt 0 0 = some [1, 2])
    (n1 : h3.nbAt 0 1 = some [0, 2]) {S3 : List Nat} (n2 : h3.nbAt 0 2 = some S3)
    (hS3 : ∀ x, x ∈ S3 ↔ x = 0 ∨ x = 1) :
    ∃ h4, h3.insert o l2distance [10, 0] 3 L = some h4 ∧
      Holds h4 [[0, 0], [10, 10], [0, 10], [10, 0]] ∧ h4.nbAt 0 0 = some [2, 3] ∧
      h4.nbAt 0 1 = some [2, 3] ∧ h4.nbAt 0 2 = some S3 ∧
      ∃ S, h4.nbAt 0 3 = some S ∧ ∀ x, x ∈ S ↔ x = 0 ∨ x = 1 := by
  obtain ⟨h4, hins, hk4⟩ := holds_insert o hk [10, 0] L
  obtain ⟨e0, he0⟩ := holds_entry hk (by decide)
  have hlen : h3.nodes.length = 3 := hk.len
  refine ⟨h4, hins, hk4, ?_⟩
  obtain ⟨S, hSnd, hSlt, hSlen, hSord, hnew, hold⟩ :=
    insert_layer0 o l2distance_inRange hk.wf he0 [10, 0] _ L hins
      (by
        rw [hlen]
        apply reach_all_of_hub
        · intro a ha
          have : a = 0 ∨ a = 1 ∨ a = 2 := by omega
          rcases this with rfl | rfl | rfl
          · exact Relation.ReflTransGen.refl
          · exact reach_edge n1 (by decide)
          · exact reach_edge n2 ((hS3 0).2 (Or.inl rfl))
        · intro b hb
          have : b = 0 ∨ b = 1 ∨ b = 2 := by omega
          rcases this with rfl | rfl | rfl
          · exact Relation.ReflTransGen.refl
          · exact reach_edge n0 (by decide)
          · exact reach_edge n0 (by decide))
      (by rw [hlen, hk.cefc]; decide)
  rw [hlen] at hSlt hnew hold hSord
  rw [hlen, hk.cM] at hSlen
  have hSlen2 : S.length = 2 := by rw [hSlen]; decide
  have hd0 : h3.dataOf 0 = [0, 0] := hk.data 0 (by decide)
  have hd1 : h3.dataOf 1 = [10, 10] := hk.data 1 (by decide)
  have hd2 : h3.dataOf 2 = [0, 10] := hk.data 2 (by decide)
  rw [hk.cdim] at hSord
  have h2S : 2 ∉ S := by
    intro h2mem
    have hex : 0 ∉ S ∨ 1 ∉ S := by
      by_contra hcon
      have h0 : 0 ∈ S := by
        by_contra h0
        exact hcon (Or.inl h0)
      have h1 : 1 ∈ S := by
        by_contra h1
        exact hcon (Or.inr h1)
      have hsub : [0, 1, 2] ⊆ S := by
        intro x hx
        simp only [List.mem_cons, List.mem_singleton, List.not_mem_nil, or_false] at hx
        rcases hx with rfl | rfl | rfl
        · exact h0
        · exact h1
        · exact h2mem
      have := (List.subperm_of_subset (by decide) hsub).length_le
      rw [hSlen2] at this
      simp at this
    rcases hex with h0 | h1
    · have := hSord 2 h2mem 0 (by decide) h0
      rw [hd2, hd0] at this
      exact absurd this (by decide)
    · have := hSord 2 h2mem 1 (by decide) h1
      rw [hd2, hd1] at this
      exact absurd this (by decide)
  have hSlt2 : ∀ x ∈ S, x < 2 := by
    intro x hx
    have h1 := hSlt x hx
    have h2 : x ≠ 2 := fun e => h2S (e ▸ hx)
    omega
  have hSall := mem_of_full hSnd hSlt2 hSlen2
  have hsz : ∀ D, toSizeT (h3.alloc [10, 0] D L).M_max = 2 := by
    intro D
    show toSizeT h3.M_max = 2
    rw [hk.cM_max]
    decide
  have hdist : ∀ D q y, y < 4 → (h3.alloc [10, 0] D L).distTo l2distance q y
      = l2distance (([[0, 0], [10, 10], [0, 10], [10, 0]] : List Vec).getD y []) q 2 :=
    fun D q y hy => holds_alloc_dist hk [10, 0] D L q y hy
  have hdata : ∀ D y, y < 3 → (h3.alloc [10, 0] D L).dataOf y = h3.dataOf y := by
    intro D y hy
    rw [dataOf_alloc, hlen, if_pos hy]
  refine ⟨?_, ?_, ?_, S, hnew, ?_⟩
  · rw [hold 0 (by decide), if_pos (hSall 0 (by decide)), n0, Option.map_some']
    have hins3 : setInsert [1, 2] 3 = [1, 2, 3] := by decide
    rw [addPruned_evict o l2distance 3 0 (f := 1)]
    · rw [hins3]
      rfl
    · rw [hsz, hins3]
      decide
    · rw [hins3, hdata _ 0 (by decide), hd0]
      apply furthestOf_eq_of_max o (fun n => l2distance_inRange _ _ _) (by decide)
      intro y hy hne
      simp only [List.mem_cons, List.mem_singleton, List.not_mem_nil, or_false] at hy
      rcases hy with rfl | rfl | rfl
      · exact absurd rfl hne
      · show (h3.alloc [10, 0] _ L).distTo l2distance [0, 0] 2
          < (h3.alloc [10, 0] _ L).distTo l2distance [0, 0] 1
        rw [hdist _ _ 2 (by decide), hdist _ _ 1 (by decide)]
        decide
      · show (h3.alloc [10, 0] _ L).distTo l2distance [0, 0] 3
          < (h3.alloc [10, 0] _ L).distTo l2distance [0, 0] 1
        rw [hdist _ _ 3 (by decide), hdist _ _ 1 (by decide)]
        decide
  · rw [hold 1 (by decide), if_pos (hSall 1 (by decide)), n1, Option.map_some']
    have hins3 : setInsert [0, 2] 3 = [0, 2, 3] := by decide
    rw [addPruned_evict o l2distance 3 1 (f := 0)]
    · rw [hins3]
      rfl
    · rw [hsz, hins3]
      decide
    · rw [hins3, hdata _ 1 (by decide), hd1]
      apply furthestOf_eq_of_max o (fun n => l2distance_inRange _ _ _) (by decide)
      intro y hy hne
      simp only [List.mem_cons, List.mem_singleton, List.not_mem_nil, or_false] at hy
      rcases hy with rfl | rfl | rfl
      · exact absurd rfl hne
      · show (h3.alloc [10, 0] _ L).distTo l2distance [10, 10] 2
          < (h3.alloc [10, 0] _ L).distTo l2distance [10, 10] 0
        rw [hdist _ _ 2 (by decide), hdist _ _ 0 (by decide)]
        decide
      · show (h3.alloc [10, 0] _ L).distTo l2distance [10, 10] 3
          < (h3.alloc [10, 0] _ L).distTo l2distance [10, 10] 0
        rw [hdist _ _ 3 (by decide), hdist _ _ 0 (by decide)]
        decide
  · rw [hold 2 (by decide), if_neg h2S, n2]
  · intro x
    constructor
    · intro hx
      have := hSlt2 x hx
      omega
    · rintro (rfl | rfl)
      · exact hSall 0 (by decide)
      · exact hSall 1 (by decide)

theorem scenario_search {h4 : HNSW} (hk : Holds h4 [[0, 0], [10, 10], [0, 10], [10, 0]])
    (n0 : h4.nbAt 0 0 = some [2, 3]) (n1 : h4.nbAt 0 1 = some [2, 3]) {S2 S3 : List Nat}
    (n2 : h4.nbAt 0 2 = some S2) (hS2 : ∀ x, x ∈ S2 ↔ x = 0 ∨ x = 1)
    (n3 : h4.nbAt 0 3 = some S3) (hS3 : ∀ x, x ∈ S3 ↔ x = 0 ∨ x = 1)
    (o : IterOrder) (q : Vec) (k : Int) :
    ∃ W : List Nat, W.Nodup ∧ (∀ x, x ∈ W ↔ x < 4) ∧
      h4.queryNodes o l2distance q k = some (o.run (h4.select_neighbors o l2distance q W k)) := by
  have hlen : h4.nodes.length = 4 := hk.len
  obtain ⟨e0, he0⟩ := holds_entry hk (by decide)
  have hconn : ∀ a b, a < 4 → b < 4 → Reach (h4.nbAt 0) a b := by
    apply reach_all_of_hub
    · intro a ha
      have : a = 0 ∨ a = 1 ∨ a = 2 ∨ a = 3 := by omega
      rcases this with rfl | rfl | rfl | rfl
      · exact Relation.ReflTransGen.refl
      · exact Relation.ReflTransGen.trans (reach_edge n1 (by decide))
          (reach_edge n2 ((hS2 0).2 (Or.inl rfl)))
      · exact reach_edge n2 ((hS2 0).2 (Or.inl rfl))
      · exact reach_edge n3 ((hS3 0).2 (Or.inl rfl))
    · intro b hb
      have : b = 0 ∨ b = 1 ∨ b = 2 ∨ b = 3 := by omega
      rcases this with rfl | rfl | rfl | rfl
      · exact Relation.ReflTransGen.refl
      · exact Relation.ReflTransGen.trans (reach_edge n0 (by decide))
          (reach_edge n2 ((hS2 1).2 (Or.inr rfl)))
      · exact reach_edge n0 (by decide)
      · exact reach_edge n0 (by decide)
  rcases queryNodes_spec o l2distance_inRange hk.wf q k with
    ⟨hnone, -⟩ | ⟨ep, W, hep, hW, -, hWnd, -, hq⟩
  · rw [he0] at hnone
    cases hnone
  · obtain ⟨W2, hW2, -, hWiff⟩ := search_layer_full o l2distance_inRange h4 q ep h4.ef_search 0
      (fun x hx => reach_hasLayer hk.wf.closed hep hx) (by rw [hlen, hk.cefs]; decide)
    rw [hW] at hW2
    simp only [Option.some.injEq] at hW2
    subst hW2
    refine ⟨W, hWnd, ?_, hq⟩
    intro x
    rw [hWiff]
    constructor
    · intro hr
      have := hasLayer_lt (reach_hasLayer hk.wf.closed hep hr)
      omega
    · intro hx
      exact hconn ep x (by have := hasLayer_lt hep; omega) hx


theorem scenario_query_near {h4 : HNSW}
    (hk : Holds h4 [[0, 0], [10, 10], [0, 10], [10, 0]]) {W : List Nat} (hWnd : W.Nodup)
    (hW : ∀ x, x ∈ W ↔ x < 4) (o : IterOrder) :
    h4.select_neighbors o l2distance [1, 1] W 1 = [0] := by
  obtain ⟨hS1, -, hS3, hS4⟩ := select_neighbors_sound o l2distance h4 [1, 1] W 1 hWnd
  rw [length_eq_of_mem_iff_lt hWnd hW] at hS3
  have hlen : (h4.select_neighbors o l2distance [1, 1] W 1).length = 1 := by
    rw [hS3]
    decide
  match hS : h4.select_neighbors o l2distance [1, 1] W 1, hlen with
  | [x], _ =>
    rw [hS] at hS1 hS4
    have hx : x < 4 := (hW x).1 (hS1 x (List.mem_singleton.2 rfl))
    by_cases hx0 : x = 0
    · rw [hx0]
    · exfalso
      have h0 : (0 : Nat) ∉ [x] := by
        intro hmem
        exact hx0 (List.mem_singleton.1 hmem).symm
      have hle := hS4 x (List.mem_singleton.2 rfl) 0 ((hW 0).2 (by decide)) h0
      rw [holds_dist hk [1, 1] x hx, holds_dist hk [1, 1] 0 (by decide)] at hle
      have : x = 1 ∨ x = 2 ∨ x = 3 := by omega
      rcases this with rfl | rfl | rfl <;> exact absurd hle (by decide)

theorem scenario_query_far {h4 : HNSW}
    (hk : Holds h4 [[0, 0], [10, 10], [0, 10], [10, 0]]) {W : List Nat} (hWnd : W.Nodup)
    (hW : ∀ x, x ∈ W ↔ x < 4) (o : IterOrder) :
    (h4.select_neighbors o l2distance [9, 9] W 2).length = 2 ∧
      1 ∈ h4.select_neighbors o l2distance [9, 9] W 2 := by
  obtain ⟨hS1, -, hS3, hS4⟩ := select_neighbors_sound o l2distance h4 [9, 9] W 2 hWnd
  rw [length_eq_of_mem_iff_lt hWnd hW] at hS3
  have hlen : (h4.select_neighbors o l2distance [9, 9] W 2).length = 2 := by
    rw [hS3]
    decide
  refine ⟨hlen, ?_⟩
  by_contra h1
  have hne : h4.select_neighbors o l2distance [9, 9] W 2 ≠ [] := by
    intro he
    rw [he] at hlen
    simp at hlen
  obtain ⟨x, hxS⟩ := List.exists_mem_of_ne_nil _ hne
  have hx : x < 4 := (hW x).1 (hS1 x hxS)
  have hx1 : x ≠ 1 := fun e => h1 (e ▸ hxS)
  have hle := hS4 x hxS 1 ((hW 1).2 (by decide)) h1
  rw [holds_dist hk [9, 9] x hx, holds_dist hk [9, 9] 1 (by decide)] at hle
  have : x = 0 ∨ x = 2 ∨ x = 3 := by omega
  rcases this with rfl | rfl | rfl <;> exact absurd hle (by decide)

/-- C1. The four-point scenario: on an index with `vec_dim = 2`, `M = M_max = 2`,
`ef_construction = ef_search = 4` and the squared Euclidean distance, for every iteration
order of the sets and every sequence of sampled levels, the calls `insert((0,0), 0)`,
`insert((10,10), 1)`, `insert((0,10), 2)`, `insert((10,0), 3)` return, after which
`query((1,1), 1)` returns `[0]` and `query((9,9), 2)` returns two labels, one of which is
`1`. -/
theorem scenario_four_points (o1 o2 o3 o4 o5 o6 : IterOrder) (L0 L1 L2 L3 : Nat) :
    ∃ h1 h2 h3 h4, demoIndex0.insert o1 l2distance [0, 0] 0 L0 = some h1 ∧
      h1.insert o2 l2distance [10, 10] 1 L1 = some h2 ∧
      h2.insert o3 l2distance [0, 10] 2 L2 = some h3 ∧
      h3.insert o4 l2distance [10, 0] 3 L3 = some h4 ∧
      h4.query o5 l2distance [1, 1] 1 = some [0] ∧
      ∃ r, h4.query o6 l2distance [9, 9] 2 = some r ∧ r.length = 2 ∧ (1 : Int) ∈ r := by
  obtain ⟨h2, hins2, hk2, a0, a1⟩ := scenario_step2 o2 L1
  obtain ⟨h3, hins3, hk3, b0, b1, S3, b2, hS3⟩ := scenario_step3 o3 L2 hk2 a0 a1
  obtain ⟨h4, hins4, hk4, c0, c1, c2, S4, c3, hS4⟩ := scenario_step4 o4 L3 hk3 b0 b1 b2 hS3
  refine ⟨demoIndex1, h2, h3, h4, ?_, hins2, hins3, hins4, ?_, ?_⟩
  · rw [insert_fresh o1 l2distance rfl]
    rfl
  · obtain ⟨W, hWnd, hW, hq⟩ := scenario_search hk4 c0 c1 c2 hS3 c3 hS4 o5 [1, 1] 1
    rw [scenario_query_near hk4 hWnd hW o5] at hq
    have hrun : o5.run [0] = [0] := List.perm_singleton.1 (o5.perm [0])
    rw [hrun] at hq
    have hl : h4.labelOf 0 = 0 := hk4.label 0 (by decide)
    simp [HNSW.query, hq, hl]
  · obtain ⟨W, hWnd, hW, hq⟩ := scenario_search hk4 c0 c1 c2 hS3 c3 hS4 o6 [9, 9] 2
    obtain ⟨hlen, hmem⟩ := scenario_query_far hk4 hWnd hW o6
    refine ⟨(o6.run (h4.select_neighbors o6 l2distance [9, 9] W 2)).map h4.labelOf,
      by simp [HNSW.query, hq], ?_, ?_⟩
    · rw [List.length_map, o6.length_run, hlen]
    · have hl : h4.labelOf 1 = 1 := hk4.label 1 (by decide)
      exact List.mem_map.2 ⟨1, o6.mem_run.2 hmem, hl⟩

/-! ## The empty index and the index with one node -/

theorem eq_singleton_of_forall_eq {l : List Nat} {a : Nat} (hne : l ≠ []) (hnd : l.Nodup)
    (hall : ∀ x ∈ l, x = a) : l = [a] := by
  match l, hne, hnd, hall with
  | [x], _, _, hall => rw [hall x (List.mem_singleton.2 rfl)]
  | x :: y :: t, _, hnd, hall =>
    exfalso
    have hx := hall x (List.mem_cons_self _ _)
    have hy := hall y (List.mem_cons_of_mem _ (List.mem_cons_self _ _))
    have := (List.nodup_cons.1 hnd).1
    apply this
    rw [hx, hy]
    exact List.mem_cons_self _ _

/-- C11. The single-node scenario: on an index on which `insert` has not been called,
`insert(v, label)` returns, after which `query(q, k)` returns exactly `[label]` for every
query vector `q` and every `k >= 1`. -/
theorem single_node_query {dist : Dist} (hd : DistInRange dist) {h0 : HNSW}
    (hf : h0.isFresh) (o1 o2 : IterOrder) (v : Vec) (label : Int) (L : Nat) (q : Vec)
    (k : Int) (hk : 1 ≤ k) :
    ∃ h1, h0.insert o1 dist v label L = some h1 ∧ h1.query o2 dist q k = some [label] := by
  have hentry : h0.entry_point = none := hf.2.1
  have hwf1 := wf_insert_fresh (wf_fresh hf) hentry v label
  refine ⟨_, insert_fresh o1 dist hentry v label L, ?_⟩
  have hnodes : (HNSW.mk (h0.alloc v label 0).nodes (some h0.nodes.length) h0.M h0.M_max
      h0.ef_construction h0.ef_search h0.vec_dim h0.max_level).nodes
        = [Node.new v label 0] := by
    simp [HNSW.alloc, hf.1]
  have hlab : HNSW.labelOf { h0.alloc v label 0 with entry_point := some h0.nodes.length } 0
      = label := by
    unfold HNSW.labelOf
    have : (HNSW.mk (h0.alloc v label 0).nodes (some h0.nodes.length) h0.M h0.M_max
      h0.ef_construction h0.ef_search h0.vec_dim h0.max_level).nodes[0]?
        = some (Node.new v label 0) := by
      rw [hnodes]
      rfl
    show (match (HNSW.mk (h0.alloc v label 0).nodes (some h0.nodes.length) h0.M h0.M_max
      h0.ef_construction h0.ef_search h0.vec_dim h0.max_level).nodes[0]? with
      | some nd => nd.label
      | none => 0) = label
    rw [this]
    rfl
  rcases queryNodes_spec o2 hd hwf1 q k with ⟨hnone, -⟩ | ⟨ep, W, hep, -, hWne, hWnd, hWr, hq⟩
  · cases hnone
  · have hlt : ∀ x, Reach (HNSW.nbAt
        { h0.alloc v label 0 with entry_point := some h0.nodes.length } 0) ep x → x = 0 := by
      intro x hx
      have h1 := hasLayer_lt (reach_hasLayer hwf1.closed hep hx)
      rw [hnodes] at h1
      simpa using h1
    have hW : W = [0] := eq_singleton_of_forall_eq hWne hWnd (fun x hx => hlt x (hWr x hx))
    obtain ⟨hS1, hS2, hS3, -⟩ := select_neighbors_sound o2 dist
      { h0.alloc v label 0 with entry_point := some h0.nodes.length } q W k hWnd
    rw [hW] at hS1 hS3 hq
    have hSne : HNSW.select_neighbors o2 dist
        { h0.alloc v label 0 with entry_point := some h0.nodes.length } q [0] k ≠ [] := by
      intro he
      rw [he] at hS3
      simp only [List.length_nil, List.length_singleton] at hS3
      omega
    have hS : HNSW.select_neighbors o2 dist
        { h0.alloc v label 0 with entry_point := some h0.nodes.length } q [0] k = [0] :=
      eq_singleton_of_forall_eq hSne (hW ▸ hS2) (fun x hx => List.mem_singleton.1 (hS1 x hx))
    rw [hS] at hq
    have hrun : o2.run [0] = [0] := List.perm_singleton.1 (o2.perm [0])
    rw [hrun] at hq
    simp [HNSW.query, hq, hlab]

/-- An instance of C11 on the index built by `HNSW(2)`: label 7 and `k = 3`. -/
theorem single_node_query_witness :
    DistInRange l2distance ∧ (HNSW.new 2).isFresh ∧ (1 : Int) ≤ 3 ∧
    ∃ h1, (HNSW.new 2).insert IterOrder.stored l2distance [5, 5] 7 0 = some h1 ∧
      h1.query IterOrder.reversed l2distance [1, 2] 3 = some [7] :=
  ⟨l2distance_inRange, ⟨rfl, rfl, rfl⟩, by decide,
    single_node_query l2distance_inRange ⟨rfl, rfl, rfl⟩ IterOrder.stored IterOrder.reversed
      [5, 5] 7 0 [1, 2] 3 (by decide)⟩

/-! ## The stopping rule of `search_layer` -/

theorem searchBody_inl {o : IterOrder} {d : Nat → Int} {adj : Nat → Option (List Nat)}
    {ef : Int} {W V C R : List Nat} (h : searchBody o d adj ef W V C = some (Sum.inl R)) :
    R = W ∧ ∃ c f, nearestOf o d C = some c ∧ furthestOf o d W = some f ∧ d c > d f := by
  unfold searchBody at h
  cases hc : nearestOf o d C with
  | none => simp [hc] at h
  | some c =>
    cases hf : furthestOf o d W with
    | none => simp [hc, hf] at h
    | some f =>
      simp only [hc, hf] at h
      by_cases hbr : d c > d f
      · simp only [hbr, if_true, Option.some.injEq, Sum.inl.injEq] at h
        exact ⟨h.symm, c, f, rfl, rfl, hbr⟩
      · simp only [hbr, if_false] at h
        cases ha : adj c with
        | none => simp [ha] at h
        | some nbs =>
          simp only [ha] at h
          cases hv : visitAll o d ef (o.run nbs) W V (setErase C (some c)) with
          | none => simp [hv] at h
          | some r => simp [hv] at h

theorem searchBody_inr {o : IterOrder} {d : Nat → Int} {adj : Nat → Option (List Nat)}
    {ef : Int} {W V C W2 V2 C2 : List Nat}
    (h : searchBody o d adj ef W V C = some (Sum.inr (W2, V2, C2))) :
    ∃ c f nbs, nearestOf o d C = some c ∧ furthestOf o d W = some f ∧ ¬ d c > d f ∧
      adj c = some nbs ∧
      visitAll o d ef (o.run nbs) W V (setErase C (some c)) = some (W2, V2, C2) := by
  unfold searchBody at h
  cases hc : nearestOf o d C with
  | none => simp [hc] at h
  | some c =>
    cases hf : furthestOf o d W with
    | none => simp [hc, hf] at h
    | some f =>
      simp only [hc, hf] at h
      by_cases hbr : d c > d f
      · simp [hbr] at h
      · simp only [hbr, if_false] at h
        cases ha : adj c with
        | none => simp [ha] at h
        | some nbs =>
          simp only [ha] at h
          cases hv : visitAll o d ef (o.run nbs) W V (setErase C (some c)) with
          | none => simp [hv] at h
          | some r =>
            simp only [hv, Option.some.injEq, Sum.inr.injEq] at h
            exact ⟨c, f, nbs, rfl, rfl, hbr, ha, by rw [hv, h]⟩

theorem visitStep_breakInv {o : IterOrder} {d : Nat → Int} {ef : Int} {n : Nat}
    {W V C W1 V1 C1 : List Nat} (hb : BreakInv ef W C)
    (h : visitStep o d ef n W V C = some (W1, V1, C1)) : BreakInv ef W1 C1 := by
  unfold visitStep at h
  by_cases hV : n ∈ V
  · simp only [hV, if_true, Option.some.injEq, Prod.mk.injEq] at h
    obtain ⟨rfl, -, rfl⟩ := h
    exact hb
  · simp only [hV, if_false] at h
    have hle := length_setInsert_le W n
    have hge := length_le_setInsert W n
    by_cases hlen : W.length < toSizeT ef
    · have hno : ¬ toSizeT ef < (setInsert W n).length := by omega
      simp only [hlen, if_true, hno, if_false, Option.some.injEq, Prod.mk.injEq] at h
      obtain ⟨rfl, -, rfl⟩ := h
      refine ⟨fun _ x hx => ?_, by omega⟩
      rcases mem_setInsert.1 hx with hx | rfl
      · exact mem_setInsert.2 (Or.inl (hb.1 hlen x hx))
      · exact mem_setInsert.2 (Or.inr rfl)
    · simp only [hlen, if_false] at h
      cases hf : furthestOf o d W with
      | none => simp [hf] at h
      | some fi =>
        simp only [hf] at h
        have hfW : fi ∈ W := (furthestOf_some hf).1
        by_cases hlt : d n < d fi
        · simp only [hlt, decide_True, Option.some.injEq, Prod.mk.injEq] at h
          obtain ⟨rfl, -, rfl⟩ := h
          have hb2 := hb.2
          split
          · have hlenE := length_setErase_some (mem_setInsert.2 (Or.inl hfW) :
              fi ∈ setInsert W n)
            exact ⟨fun hcon => by omega, by omega⟩
          · exact ⟨fun hcon => by omega, by omega⟩
        · simp only [hlt, decide_False, Option.some.injEq, Prod.mk.injEq] at h
          obtain ⟨rfl, -, rfl⟩ := h
          exact ⟨fun hcon => absurd hcon hlen, hb.2⟩

theorem visitAll_breakInv {o : IterOrder} {d : Nat → Int} {ef : Int} (ns : List Nat)
    {W V C W1 V1 C1 : List Nat} (hb : BreakInv ef W C)
    (h : visitAll o d ef ns W V C = some (W1, V1, C1)) : BreakInv ef W1 C1 := by
  induction ns generalizing W V C with
  | nil =>
    simp only [visitAll, Option.some.injEq, Prod.mk.injEq] at h
    obtain ⟨rfl, -, rfl⟩ := h
    exact hb
  | cons n ns ih =>
    simp only [visitAll] at h
    cases hs : visitStep o d ef n W V C with
    | none => simp [hs] at h
    | some r =>
      obtain ⟨Wa, Va, Ca⟩ := r
      simp only [hs] at h
      exact ih (visitStep_breakInv hb hs) h

theorem breakInv_step {o : IterOrder} {d : Nat → Int} {adj : Nat → Option (List Nat)}
    {ef : Int} {W V C W2 V2 C2 : List Nat} (hb : BreakInv ef W C)
    (h : searchBody o d adj ef W V C = some (Sum.inr (W2, V2, C2))) : BreakInv ef W2 C2 := by
  obtain ⟨c, f, nbs, -, -, -, -, hv⟩ := searchBody_inr h
  exact visitAll_breakInv (o.run nbs)
    ⟨fun hl x hx => hb.1 hl x (mem_of_mem_setErase hx), hb.2⟩ hv

theorem breakInv_loopState {o : IterOrder} {d : Nat → Int} {adj : Nat → Option (List Nat)}
    {ef : Int} {ep : Nat} {W V C : List Nat} (hs : LoopState o d adj ef ep W V C) :
    BreakInv ef W C := by
  induction hs with
  | init =>
    refine ⟨fun _ x hx => hx, ?_⟩
    simp only [List.length_singleton]
    omega
  | step _ _ hbody ih => exact breakInv_step ih hbody

theorem not_break_of_small {o : IterOrder} {d : Nat → Int} {ef : Int} {W C : List Nat}
    (hb : BreakInv ef W C) {c f : Nat} (hc : nearestOf o d C = some c)
    (hf : furthestOf o d W = some f) (hbr : d c > d f) : toSizeT ef ≤ W.length := by
  by_contra hlt
  have hcW := hb.1 (by omega) c (nearestOf_some hc).1
  exact absurd hbr (not_lt.2 ((furthestOf_some hf).2 c hcW))

theorem searchBodySpec_eq {o : IterOrder} {d : Nat → Int} {adj : Nat → Option (List Nat)}
    {ef : Int} {W V C : List Nat} (hb : BreakInv ef W C) :
    searchBodySpec o d adj ef W V C = searchBody o d adj ef W V C := by
  unfold searchBodySpec searchBody
  cases hc : nearestOf o d C with
  | none => rfl
  | some c =>
    cases hf : furthestOf o d W with
    | none => rfl
    | some f =>
      simp only
      by_cases hbr : d c > d f
      · have := not_break_of_small hb hc hf hbr
        simp [hbr, this]
      · simp [hbr]

theorem searchLoopSpec_eq {o : IterOrder} {d : Nat → Int} {adj : Nat → Option (List Nat)}
    {ef : Int} (fuel : Nat) :
    ∀ W V C, BreakInv ef W C →
      searchLoopSpec o d adj ef fuel W V C = searchLoop o d adj ef fuel W V C := by
  induction fuel with
  | zero =>
    intro W V C _
    rfl
  | succ fuel ih =>
    intro W V C hb
    unfold searchLoopSpec searchLoop
    by_cases hC : C = []
    · simp [hC]
    · simp only [hC, if_false]
      rw [searchBodySpec_eq hb]
      cases hbody : searchBody o d adj ef W V C with
      | none => rfl
      | some r =>
        cases r with
        | inl R => rfl
        | inr r2 =>
          obtain ⟨W2, V2, C2⟩ := r2
          exact ih W2 V2 C2 (breakInv_step hb hbody)

/-- C14. Greedy termination: for `ef >= 1`, in every state in which the loop of
`search_layer` evaluates its condition, the candidates are members of `W` as long as `W` has
fewer than `ef` members, and the `break` is taken only when `W` has exactly `ef` members;
hence `search_layer` returns what the variant of the specification returns, which stops
only when `c` is farther than the farthest member of the result and the result already has
`ef` members. -/
theorem greedy_termination_refines (o : IterOrder) (dist : Dist) (h : HNSW) (q : Vec)
    (ep : Nat) (ef : Int) (layer : Nat) (hef : 1 ≤ ef) (hint : ef ≤ INT_MAX) :
    h.search_layer o dist q (some ep) ef layer
      = h.search_layer_spec o dist q (some ep) ef layer ∧
    ∀ W V C, LoopState o (h.distTo dist q) (h.nbAt layer) ef ep W V C →
      (W.length < toSizeT ef → ∀ x ∈ C, x ∈ W) ∧
      (∀ R, searchBody o (h.distTo dist q) (h.nbAt layer) ef W V C = some (Sum.inl R) →
        R = W ∧ (W.length : Int) = ef) := by
  have hsz := toSizeT_of_int (by omega) hint
  have hinit : BreakInv ef [ep] [ep] := by
    refine ⟨fun _ x hx => hx, ?_⟩
    simp only [List.length_singleton]
    omega
  refine ⟨?_, ?_⟩
  · unfold HNSW.search_layer HNSW.search_layer_spec
    exact (searchLoopSpec_eq _ _ _ _ hinit).symm
  · intro W V C hs
    have hb := breakInv_loopState hs
    refine ⟨hb.1, ?_⟩
    intro R hbody
    obtain ⟨hR, c, f, hc, hf, hbr⟩ := searchBody_inl hbody
    have h1 := not_break_of_small hb hc hf hbr
    have h2 := hb.2
    refine ⟨hR, ?_⟩
    omega

/-- An instance of C14 on a concrete index, with the hypotheses discharged. -/
theorem greedy_termination_refines_witness :
    (1 : Int) ≤ 2 ∧ (2 : Int) ≤ INT_MAX ∧
    (demoIndex4.search_layer IterOrder.stored l2distance [9, 9] (some 0) 2 0
      = demoIndex4.search_layer_spec IterOrder.stored l2distance [9, 9] (some 0) 2 0 ∧
    ∀ W V C, LoopState IterOrder.stored (demoIndex4.distTo l2distance [9, 9])
        (demoIndex4.nbAt 0) 2 0 W V C →
      (W.length < toSizeT 2 → ∀ x ∈ C, x ∈ W) ∧
      (∀ R, searchBody IterOrder.stored (demoIndex4.distTo l2distance [9, 9])
          (demoIndex4.nbAt 0) 2 W V C = some (Sum.inl R) →
        R = W ∧ (W.length : Int) = 2)) :=
  ⟨by decide, by decide,
    greedy_termination_refines IterOrder.stored l2distance demoIndex4 [9, 9] 0 2 0
      (by decide) (by decide)⟩

/-! ## Exhaustive search and `query` on small components -/

theorem search_layer_component (o : IterOrder) {dist : Dist} (hd : DistInRange dist)
    (h : HNSW) (q : Vec) (ep : Nat) (ef : Int) (layer : Nat) (comp : List Nat)
    (hcomp : ∀ x, x ∈ comp ↔ Reach (h.nbAt layer) ep x)
    (hlay : ∀ x ∈ comp, h.hasLayer layer x) (hlen : comp.length ≤ toSizeT ef) :
    ∃ W, h.search_layer o dist q (some ep) ef layer = some W ∧ W.Nodup ∧
      ∀ x, x ∈ W ↔ x ∈ comp := by
  have hclosed : ∀ x, Reach (h.nbAt layer) ep x → h.hasLayer layer x :=
    fun x hx => hlay x ((hcomp x).2 hx)
  obtain ⟨W, hW, hWnd, hWiff⟩ := @searchLoop_full o (h.distTo dist q) (h.nbAt layer) ef
    h.nodes.length ep (fun n => hd _ _ _)
    (fun x hx => ⟨hasLayer_lt (hclosed x hx), nbAt_of_hasLayer (hclosed x hx)⟩)
    (by
      intro l hl hlr
      have hsub : l ⊆ comp := fun x hx => (hcomp x).2 (hlr x hx)
      have := (List.subperm_of_subset hl hsub).length_le
      omega)
  refine ⟨W, ?_, hWnd, fun x => (hWiff x).trans (hcomp x).symm⟩
  unfold HNSW.search_layer
  exact hW

theorem queryNodes_descend (o : IterOrder) {dist : Dist} (hd : DistInRange dist) {h : HNSW}
    (hwf : WF h) (q : Vec) (k : Int) {e0 : Nat} (hentry : h.entry_point = some e0) :
    ∃ ep, descend o dist h q h.max_level 0 (some e0) = some (some ep) ∧ h.hasLayer 0 ep ∧
      ∀ W, h.search_layer o dist q (some ep) h.ef_search 0 = some W →
        h.queryNodes o dist q k = some (o.run (h.select_neighbors o dist q W k)) := by
  obtain ⟨nd0, hnd0, hlv0⟩ := hwf.entry_some e0 hentry
  have hlen0 := hwf.layers e0 nd0 hnd0
  have he0 : h.hasLayer h.max_level e0 := hasLayer_iff.2 ⟨nd0, hnd0, by omega⟩
  obtain ⟨ep, hdesc, hel, -⟩ := descend_spec o hd hwf.closed q h.max_level 0 e0 h.max_level
    he0 (Or.inr (by omega))
  refine ⟨ep, hdesc, hasLayer_mono (Nat.zero_le _) hel, ?_⟩
  intro W hW
  simp [HNSW.queryNodes, hentry, hdesc, hW]

/-- C15. Exhaustive search on small components: when the nodes reachable from `ep` at the
layer are the `comp.length <= ef` members of `comp`, `search_layer(q, ep, ef, layer)` returns
exactly the set `comp`.  Consequently, in a state reached by calls of `insert`, when the
layer-0 component `comp` of the node `ep` at which the descent of `query` ends has at most
`ef_search` members, `query(q, k)` returns the labels of `min(max(k, 0), |comp|)` distinct
members of `comp`, each at most as far from `q` as every member that is not returned. -/
theorem exhaustive_search (o : IterOrder) {dist : Dist} (hd : DistInRange dist) (h : HNSW)
    (q : Vec) :
    (∀ (ep : Nat) (ef : Int) (layer : Nat) (comp : List Nat), comp.Nodup →
      (∀ x, x ∈ comp ↔ Reach (h.nbAt layer) ep x) → (∀ x ∈ comp, h.hasLayer layer x) →
      1 ≤ ef → ef ≤ INT_MAX → (comp.length : Int) ≤ ef →
      ∃ W, h.search_layer o dist q (some ep) ef layer = some W ∧ W.Nodup ∧
        ∀ x, x ∈ W ↔ x ∈ comp) ∧
    (∀ (h0 : HNSW) (k : Int) (e0 : Nat), h0.isFresh → Reachable dist h0 h →
      h.entry_point = some e0 →
      ∃ ep, descend o dist h q h.max_level 0 (some e0) = some (some ep) ∧ h.hasLayer 0 ep ∧
        ∀ comp : List Nat, comp.Nodup → (∀ x, x ∈ comp ↔ Reach (h.nbAt 0) ep x) →
          1 ≤ h.ef_search → h.ef_search ≤ INT_MAX → (comp.length : Int) ≤ h.ef_search →
          ∃ ids : List Nat, h.queryNodes o dist q k = some ids ∧
            h.query o dist q k = some (ids.map h.labelOf) ∧ ids.Nodup ∧
            (∀ i ∈ ids, i ∈ comp) ∧ ids.length = min (max k 0).toNat comp.length ∧
            ∀ i ∈ ids, ∀ j ∈ comp, j ∉ ids → h.distTo dist q i ≤ h.distTo dist q j) := by
  refine ⟨?_, ?_⟩
  · intro ep ef layer comp hnd hcomp hlay hef hint hlen
    have hsz := toSizeT_of_int (by omega) hint
    exact search_layer_component o hd h q ep ef layer comp hcomp hlay (by omega)
  · intro h0 k e0 hf hr hentry
    have hwf := reachable_wf hd hf hr
    obtain ⟨ep, hdesc, hep, hq⟩ := queryNodes_descend o hd hwf q k hentry
    refine ⟨ep, hdesc, hep, ?_⟩
    intro comp hnd hcomp hef hint hlen
    have hsz := toSizeT_of_int (by omega) hint
    obtain ⟨W, hW, hWnd, hWiff⟩ := search_layer_component o hd h q ep h.ef_search 0 comp
      hcomp (fun x hx => reach_hasLayer hwf.closed hep ((hcomp x).1 hx)) (by omega)
    have hq2 := hq W hW
    obtain ⟨hS1, hS2, hS3, hS4⟩ := select_neighbors_sound o dist h q W k hWnd
    have hWlen : W.length = comp.length :=
      ((List.perm_ext_iff_of_nodup hWnd hnd).2 hWiff).length_eq
    refine ⟨o.run (h.select_neighbors o dist q W k), hq2, by simp [HNSW.query, hq2],
      o.nodup_run hS2, fun i hi => (hWiff i).1 (hS1 i (o.mem_run.1 hi)), ?_, ?_⟩
    · rw [o.length_run, hS3, hWlen]
    · intro i hi j hj hjn
      exact hS4 i (o.mem_run.1 hi) j ((hWiff j).2 hj) (fun hmem => hjn (o.mem_run.2 hmem))

theorem demoIndex4_component (ep : Nat) (hep : demoIndex4.hasLayer 0 ep) :
    ∀ x, x ∈ [0, 1, 2, 3] ↔ Reach (demoIndex4.nbAt 0) ep x := by
  have n0 : demoIndex4.nbAt 0 0 = some [2, 3] := rfl
  have n1 : demoIndex4.nbAt 0 1 = some [2, 3] := rfl
  have n2 : demoIndex4.nbAt 0 2 = some [0, 1] := rfl
  have n3 : demoIndex4.nbAt 0 3 = some [0, 1] := rfl
  have hconn : ∀ a b, a < 4 → b < 4 → Reach (demoIndex4.nbAt 0) a b := by
    apply reach_all_of_hub
    · intro a ha
      have : a = 0 ∨ a = 1 ∨ a = 2 ∨ a = 3 := by omega
      rcases this with rfl | rfl | rfl | rfl
      · exact Relation.ReflTransGen.refl
      · exact Relation.ReflTransGen.trans (reach_edge n1 (by decide)) (reach_edge n2 (by decide))
      · exact reach_edge n2 (by decide)
      · exact reach_edge n3 (by decide)
    · intro b hb
      have : b = 0 ∨ b = 1 ∨ b = 2 ∨ b = 3 := by omega
      rcases this with rfl | rfl | rfl | rfl
      · exact Relation.ReflTransGen.refl
      · exact Relation.ReflTransGen.trans (reach_edge n0 (by decide)) (reach_edge n2 (by decide))
      · exact reach_edge n0 (by decide)
      · exact reach_edge n0 (by decide)
  have hwf := reachable_wf l2distance_inRange demo_fresh demo_reachable4
  have hlt : ep < 4 := hasLayer_lt hep
  intro x
  constructor
  · intro hx
    apply hconn ep x hlt
    simp only [List.mem_cons, List.mem_singleton, List.not_mem_nil, or_false] at hx
    omega
  · intro hr
    have : x < 4 := hasLayer_lt (reach_hasLayer hwf.closed hep hr)
    simp only [List.mem_cons, List.mem_singleton, List.not_mem_nil, or_false]
    omega

/-- An instance of C15 on a concrete index, with the hypotheses discharged: the search
from node 0 with `ef = 4` returns all four nodes, and so does the search of `query`. -/
theorem exhaustive_search_witness :
    DistInRange l2distance ∧
    (∃ W, demoIndex4.search_layer IterOrder.stored l2distance [9, 9] (some 0) 4 0 = some W ∧
      W.Nodup ∧ ∀ x, x ∈ W ↔ x ∈ [0, 1, 2, 3]) ∧
    ∃ ep, descend IterOrder.stored l2distance demoIndex4 [9, 9] demoIndex4.max_level 0
        (some 0) = some (some ep) ∧
      ∃ ids : List Nat,
        demoIndex4.queryNodes IterOrder.stored l2distance [9, 9] 2 = some ids ∧
        demoIndex4.query IterOrder.stored l2distance [9, 9] 2
          = some (ids.map demoIndex4.labelOf) ∧ ids.Nodup ∧
        (∀ i ∈ ids, i ∈ [0, 1, 2, 3]) ∧
        ids.length = min (max (2 : Int) 0).toNat [0, 1, 2, 3].length ∧
        ∀ i ∈ ids, ∀ j ∈ [0, 1, 2, 3], j ∉ ids →
          demoIndex4.distTo l2distance [9, 9] i ≤ demoIndex4.distTo l2distance [9, 9] j := by
  have hmain := exhaustive_search IterOrder.stored l2distance_inRange demoIndex4 [9, 9]
  refine ⟨l2distance_inRange, ?_, ?_⟩
  · exact hmain.1 0 4 0 [0, 1, 2, 3] (by decide) (demoIndex4_component 0 (by decide))
      (by decide) (by decide) (by decide) (by decide)
  · obtain ⟨ep, hdesc, hep, hq⟩ := hmain.2 demoIndex0 2 0 demo_fresh demo_reachable4 rfl
    exact ⟨ep, hdesc, hq [0, 1, 2, 3] (by decide) (demoIndex4_component ep hep) (by decide)
      (by decide) (by decide)⟩

/-! ## The greedy descent step: `search_layer` with `ef = 1` -/

theorem furthestOf_singleton (o : IterOrder) {d : Nat → Int}
    (hd : ∀ n, LONG_MIN < d n ∧ d n < LONG_MAX) (w : Nat) : furthestOf o d [w] = some w := by
  obtain ⟨f, hf⟩ := furthestOf_exists o (l := [w]) (by simp) (fun y _ => (hd y).1)
  rw [hf, List.mem_singleton.1 (furthestOf_some hf).1]

theorem nearestOf_singleton (o : IterOrder) {d : Nat → Int}
    (hd : ∀ n, LONG_MIN < d n ∧ d n < LONG_MAX) (w : Nat) : nearestOf o d [w] = some w := by
  obtain ⟨f, hf⟩ := nearestOf_exists o (l := [w]) (by simp) (fun y _ => (hd y).2)
  rw [hf, List.mem_singleton.1 (nearestOf_some hf).1]

theorem visitStep_greedy (o : IterOrder) {d : Nat → Int}
    (hd : ∀ n, LONG_MIN < d n ∧ d n < LONG_MAX) (n w : Nat) (V C : List Nat) (hw : w ∈ V) :
    visitStep o d 1 n [w] V C =
      if n ∈ V then some ([w], V, C)
      else if d n < d w then some ([n], setInsert V n, setInsert C n)
      else some ([w], setInsert V n, C) := by
  by_cases hV : n ∈ V
  · simp [visitStep, hV]
  · have hne : n ≠ w := fun e => hV (e ▸ hw)
    have hsz : toSizeT 1 = 1 := by decide
    have hins : setInsert [w] n = [w, n] := by
      unfold setInsert
      simp [hne]
    by_cases hlt : d n < d w
    · simp [visitStep, hV, hsz, furthestOf_singleton o hd w, hlt, hins, setErase]
    · simp [visitStep, hV, hsz, furthestOf_singleton o hd w, hlt]

theorem visitAll_greedy (o : IterOrder) {d : Nat → Int}
    (hd : ∀ n, LONG_MIN < d n ∧ d n < LONG_MAX) (ns : List Nat) :
    ∀ (w : Nat) (V C : List Nat), w ∈ V → (∀ x ∈ V, d w ≤ d x) →
      ∃ w2 V2 C2, visitAll o d 1 ns [w] V C = some ([w2], V2, C2) ∧ w2 ∈ V2 ∧
        (∀ x ∈ V2, d w2 ≤ d x) ∧ (w2 = w ∨ w2 ∈ C2) ∧ (∀ x ∈ C, x ∈ C2) ∧
        (∀ x ∈ V, x ∈ V2) ∧ (∀ x ∈ ns, x ∈ V2) := by
  induction ns with
  | nil =>
    intro w V C hw hmin
    exact ⟨w, V, C, rfl, hw, hmin, Or.inl rfl, fun x hx => hx, fun x hx => hx,
      fun x hx => absurd hx (List.not_mem_nil _)⟩
  | cons n ns ih =>
    intro w V C hw hmin
    have hstep := visitStep_greedy o hd n w V C hw
    by_cases hV : n ∈ V
    · rw [if_pos hV] at hstep
      obtain ⟨w2, V2, C2, h2, g1, g2, g3, g4, g5, g6⟩ := ih w V C hw hmin
      refine ⟨w2, V2, C2, by simp [visitAll, hstep, h2], g1, g2, g3, g4, g5, ?_⟩
      intro x hx
      rcases List.mem_cons.1 hx with rfl | hx
      · exact g5 x hV
      · exact g6 x hx
    · rw [if_neg hV] at hstep
      by_cases hlt : d n < d w
      · rw [if_pos hlt] at hstep
        obtain ⟨w2, V2, C2, h2, g1, g2, g3, g4, g5, g6⟩ :=
          ih n (setInsert V n) (setInsert C n) (mem_setInsert.2 (Or.inr rfl)) (by
            intro x hx
            rcases mem_setInsert.1 hx with hx | rfl
            · exact le_trans (le_of_lt hlt) (hmin x hx)
            · exact le_refl _)
        refine ⟨w2, V2, C2, by simp [visitAll, hstep, h2], g1, g2, ?_,
          fun x hx => g4 x (mem_setInsert.2 (Or.inl hx)),
          fun x hx => g5 x (mem_setInsert.2 (Or.inl hx)), ?_⟩
        · rcases g3 with g3 | g3
          · right
            rw [g3]
            exact g4 n (mem_setInsert.2 (Or.inr rfl))
          · exact Or.inr g3
        · intro x hx
          rcases List.mem_cons.1 hx with rfl | hx
          · exact g5 x (mem_setInsert.2 (Or.inr rfl))
          · exact g6 x hx
      · rw [if_neg hlt] at hstep
        obtain ⟨w2, V2, C2, h2, g1, g2, g3, g4, g5, g6⟩ :=
          ih w (setInsert V n) C (mem_setInsert.2 (Or.inl hw)) (by
            intro x hx
            rcases mem_setInsert.1 hx with hx | rfl
            · exact hmin x hx
            · exact not_lt.1 hlt)
        refine ⟨w2, V2, C2, by simp [visitAll, hstep, h2], g1, g2, g3, g4,
          fun x hx => g5 x (mem_setInsert.2 (Or.inl hx)), ?_⟩
        intro x hx
        rcases List.mem_cons.1 hx with rfl | hx
        · exact g5 x (mem_setInsert.2 (Or.inr rfl))
        · exact g6 x hx

theorem searchLoop_greedy {o : IterOrder} {d : Nat → Int} {adj : Nat → Option (List Nat)}
    {N : Nat} {ep : Nat} (hd : ∀ n, LONG_MIN < d n ∧ d n < LONG_MAX)
    (hvalid : ∀ x, Reach adj ep x → x < N ∧ ∃ nbs, adj x = some nbs) :
    ∃ w, searchLoop o d adj 1 (N + 1) [ep] [ep] [ep] = some [w] ∧ d w ≤ d ep ∧
      ∀ nb, adj w = some nb → ∀ n ∈ nb, d w ≤ d n := by
  have hGlt : ∀ x, Reach adj ep x → x < N := fun x hx => (hvalid x hx).1
  have hGadj : ∀ x, Reach adj ep x → ∃ nbs, adj x = some nbs ∧ ∀ n ∈ nbs, Reach adj ep n := by
    intro x hx
    obtain ⟨nbs, hnbs⟩ := (hvalid x hx).2
    exact ⟨nbs, hnbs, fun n hn => Relation.ReflTransGen.tail hx ⟨nbs, hnbs, hn⟩⟩
  have hfinal : ∀ W V C, GreedyInv d adj ep W V C →
      (∀ w, W = [w] → w ∈ C → False) →
      ∃ w, W = [w] ∧ d w ≤ d ep ∧ ∀ nb, adj w = some nb → ∀ n ∈ nb, d w ≤ d n := by
    rintro W V C ⟨w, hW, hwV, hepV, hmin, hcl⟩ hnot
    refine ⟨w, hW, hmin ep hepV, ?_⟩
    rcases hcl with hcl | hcl
    · exact absurd hcl (hnot w hW)
    · intro nb hnb n hn
      exact hmin n (hcl nb hnb n hn)
  have hmain := searchLoop_induct o d adj 1 N
    (fun W V C => SearchInv (Reach adj ep) 1 W V C ∧ GreedyInv d adj ep W V C)
    (fun R => ∃ w, R = [w] ∧ d w ≤ d ep ∧ ∀ nb, adj w = some nb → ∀ n ∈ nb, d w ≤ d n)
    (fun W V C hP hC => hfinal W V C hP.2 (fun w _ hwC => by
      rw [hC] at hwC
      exact List.not_mem_nil _ hwC))
    (fun W V C hP hC => by
      obtain ⟨inv, gr⟩ := hP
      obtain ⟨c, f, hc, hf, hcase⟩ := searchBody_base (o := o) hd hGlt hGadj inv hC
      have hcC := (nearestOf_some hc).1
      rcases hcase with ⟨hbr, hb⟩ | ⟨hnbr, nbs, W2, V2, C2, hnbs, hvis, hb, inv2, hm⟩
      · left
        refine ⟨hb, hfinal W V C gr ?_⟩
        intro w hW hwC
        have hfw : f = w := by
          have := (furthestOf_some hf).1
          rw [hW] at this
          exact List.mem_singleton.1 this
        have := (nearestOf_some hc).2 w hwC
        rw [hfw] at hbr
        exact absurd hbr (not_lt.2 this)
      · right
        refine ⟨W2, V2, C2, hb, ⟨inv2, ?_⟩, hm⟩
        obtain ⟨w, hW, hwV, hepV, hmin, hcl⟩ := gr
        subst hW
        obtain ⟨w2, V3, C3, hvis3, g1, g2, g3, g4, g5, g6⟩ :=
          visitAll_greedy o hd (o.run nbs) w V (setErase C (some c)) hwV hmin
        rw [hvis] at hvis3
        simp only [Option.some.injEq, Prod.mk.injEq] at hvis3
        obtain ⟨rfl, rfl, rfl⟩ := hvis3
        refine ⟨w2, rfl, g1, g5 ep hepV, g2, ?_⟩
        rcases g3 with g3 | g3
        · subst g3
          by_cases hcw : c = w2
          · right
            intro nb hnb n hn
            rw [← hcw, hnbs] at hnb
            simp only [Option.some.injEq] at hnb
            subst hnb
            exact g6 n (o.mem_run.2 hn)
          · rcases hcl with hcl | hcl
            · left
              apply g4
              exact (mem_setErase_some inv.C_nodup).2 ⟨fun e => hcw e.symm, hcl⟩
            · right
              intro nb hnb n hn
              exact g5 n (hcl nb hnb n hn)
        · exact Or.inl g3)
  have hep : Reach adj ep ep := Relation.ReflTransGen.refl
  have hN : 0 < N := Nat.lt_of_le_of_lt (Nat.zero_le _) (hGlt ep hep)
  have hs : SearchInv (Reach adj ep) 1 [ep] [ep] [ep] := by
    refine ⟨by simp, by simp, by simp, by simp, by simp, fun x hx => hx, fun x hx => hx, ?_⟩
    intro x hx
    rw [List.mem_singleton.1 hx]
    exact hep
  have hg : GreedyInv d adj ep [ep] [ep] [ep] :=
    ⟨ep, rfl, by simp, by simp, by simp, Or.inl (by simp)⟩
  have hfuel : N - [ep].length + [ep].length < N + 1 := by
    simp only [List.length_singleton]
    omega
  obtain ⟨R, hR, w, hRw, h1, h2⟩ := hmain (N + 1) [ep] [ep] [ep] ⟨hs, hg⟩ hfuel
  exact ⟨w, hRw ▸ hR, h1, h2⟩

/-- C16. The greedy descent step: on a graph in which every node reachable from `ep` at
the layer has that layer, `search_layer(q, ep, 1, layer)` returns exactly one node `w`; `w`
is no farther from `q` than `ep`, no node of `w->neighbors[layer]` is strictly closer to `q`
than `w`, and `get_nearest` of the result is `w`, not null. -/
theorem greedy_descent_step (o : IterOrder) {dist : Dist} (hd : DistInRange dist) (h : HNSW)
    (q : Vec) (ep : Nat) (layer : Nat)
    (hclosed : ∀ x, Reach (h.nbAt layer) ep x → h.hasLayer layer x) :
    ∃ w, h.search_layer o dist q (some ep) 1 layer = some [w] ∧
      h.distTo dist q w ≤ h.distTo dist q ep ∧
      (∀ nb, h.nbAt layer w = some nb → ∀ n ∈ nb, h.distTo dist q w ≤ h.distTo dist q n) ∧
      h.get_nearest o dist [w] q = some w := by
  obtain ⟨w, hw, h1, h2⟩ := @searchLoop_greedy o (h.distTo dist q) (h.nbAt layer)
    h.nodes.length ep (fun n => hd _ _ _)
    (fun x hx => ⟨hasLayer_lt (hclosed x hx), nbAt_of_hasLayer (hclosed x hx)⟩)
  refine ⟨w, ?_, h1, h2, ?_⟩
  · unfold HNSW.search_layer
    exact hw
  · unfold HNSW.get_nearest
    exact nearestOf_singleton o (fun n => hd _ _ _) w

/-- An instance of C16 on a concrete index, with the hypotheses discharged. -/
theorem greedy_descent_step_witness :
    DistInRange l2distance ∧
    (∀ x, Reach (demoIndex4.nbAt 0) 0 x → demoIndex4.hasLayer 0 x) ∧
    ∃ w, demoIndex4.search_layer IterOrder.stored l2distance [9, 9] (some 0) 1 0 = some [w] ∧
      demoIndex4.distTo l2distance [9, 9] w ≤ demoIndex4.distTo l2distance [9, 9] 0 ∧
      (∀ nb, demoIndex4.nbAt 0 w = some nb →
        ∀ n ∈ nb, demoIndex4.distTo l2distance [9, 9] w
          ≤ demoIndex4.distTo l2distance [9, 9] n) ∧
      demoIndex4.get_nearest IterOrder.stored l2distance [w] [9, 9] = some w :=
  have hc : ∀ x, Reach (demoIndex4.nbAt 0) 0 x → demoIndex4.hasLayer 0 x :=
    fun _ hx => reach_hasLayer (reachable_wf l2distance_inRange demo_fresh
      demo_reachable4).closed (by decide) hx
  ⟨l2distance_inRange, hc,
    greedy_descent_step IterOrder.stored l2distance_inRange demoIndex4 [9, 9] 0 0 hc⟩

/-! ## Connectivity of layer 0 -/

theorem reach_mono_sub {adj adj2 : Nat → Option (List Nat)} {ep x : Nat}
    (hsub : ∀ a nb, adj a = some nb → ∃ nb2, adj2 a = some nb2 ∧ ∀ y ∈ nb, y ∈ nb2)
    (hr : Reach adj ep x) : Reach adj2 ep x := by
  induction hr with
  | refl => exact Relation.ReflTransGen.refl
  | tail _ hedge ih =>
    obtain ⟨nb, hnb, hb⟩ := hedge
    obtain ⟨nb2, hnb2, hsub2⟩ := hsub _ nb hnb
    exact Relation.ReflTransGen.tail ih ⟨nb2, hnb2, hsub2 _ hb⟩

theorem insert_layer0_links (o : IterOrder) {dist : Dist} (hd : DistInRange dist) {h : HNSW}
    (hwf : WF h) (hM : 1 ≤ h.M) {e0 : Nat} (hentry : h.entry_point = some e0)
    (data : Vec) (label : Int) (L : Nat) {h2 : HNSW}
    (hins : h.insert o dist data label L = some h2)
    (hq : ∀ S m nb, h2.nbAt 0 h.nodes.length = some S → m ∈ S → h.nbAt 0 m = some nb →
      (setInsert nb h.nodes.length).length ≤ toSizeT h.M_max) :
    (∀ m nb, h.nbAt 0 m = some nb → ∃ nb2, h2.nbAt 0 m = some nb2 ∧ ∀ y ∈ nb, y ∈ nb2) ∧
    ∃ s S nb2, s < h.nodes.length ∧ h2.nbAt 0 h.nodes.length = some S ∧ s ∈ S ∧
      h2.nbAt 0 s = some nb2 ∧ h.nodes.length ∈ nb2 := by
  obtain ⟨hfin, hn, -, -, -, -, -, -, -, -, hlinked⟩ :=
    insert_nodes o hd hwf hentry data label L hins
  obtain ⟨e, W, hne, hel, hW, hWnd, hWr, hd2⟩ := hlinked 0 (Nat.zero_le _)
  have hca := levelClosed_alloc hwf.closed data label L
  have hno := noRef_alloc hwf.closed data label L 0
  obtain ⟨hS1, -, hS3, -⟩ :=
    select_neighbors_sound o dist (h.alloc data label L) data W (h.alloc data label L).M hWnd
  have hWne : W ≠ [] := by
    obtain ⟨W2, hW2, hne2, -⟩ := search_layer_spec o hd (h.alloc data label L) data e
      (h.alloc data label L).ef_construction 0 (fun x hx => reach_hasLayer hca hel hx)
    rw [hW] at hW2
    simp only [Option.some.injEq] at hW2
    exact hW2 ▸ hne2
  have hSold : ∀ x ∈ (h.alloc data label L).select_neighbors o dist data W
      (h.alloc data label L).M,
      x ≠ h.nodes.length ∧ x < h.nodes.length ∧ ∃ nb, h.nbAt 0 x = some nb := by
    intro x hx
    have hr := hWr x (hS1 x hx)
    have hxne := reach_ne hno hne hr
    rcases hasLayer_alloc.1 (reach_hasLayer hca hel hr) with hx2 | ⟨hx2, -⟩
    · exact ⟨hxne, hasLayer_lt hx2, nbAt_of_hasLayer hx2⟩
    · exact absurd hx2 hxne
  have hpr : ∀ x nbx, x ∈ (h.alloc data label L).select_neighbors o dist data W
      (h.alloc data label L).M → h.nbAt 0 x = some nbx →
      addPruned o dist (h.alloc data label L) h.nodes.length x nbx
        = setInsert nbx h.nodes.length := by
    intro x nbx hx hnbx
    apply addPruned_eq_setInsert
    have h3 : (h.alloc data label L).M_max = h.M_max := rfl
    rw [h3]
    exact hq _ x nbx (by rw [nbAt_congr_nodes hn, hd2 h.nodes.length, if_pos rfl]) hx hnbx
  refine ⟨?_, ?_⟩
  · intro m nb hnb
    have hm : m < h.nodes.length := hasLayer_lt (hasLayer_of_nbAt hnb)
    have hold : (h.alloc data label L).nbAt 0 m = some nb := by
      rw [nbAt_alloc, if_pos hm, hnb]
    rw [nbAt_congr_nodes hn, hd2 m, if_neg (Nat.ne_of_lt hm), hold]
    split
    · rename_i hmS
      refine ⟨_, rfl, ?_⟩
      intro y hy
      rw [hpr m nb hmS hnb]
      exact mem_setInsert.2 (Or.inl hy)
    · exact ⟨nb, rfl, fun y hy => hy⟩
  · have hlen : 0 < ((h.alloc data label L).select_neighbors o dist data W
        (h.alloc data label L).M).length := by
      rw [hS3]
      have h3 : (h.alloc data label L).M = h.M := rfl
      have h4 : 0 < W.length := List.length_pos.2 hWne
      rw [h3]
      have : 1 ≤ (max h.M 0).toNat := by omega
      omega
    obtain ⟨s, hsS⟩ := List.exists_mem_of_length_pos hlen
    obtain ⟨hs1, hs2, nb, hnb⟩ := hSold s hsS
    have hold : (h.alloc data label L).nbAt 0 s = some nb := by
      rw [nbAt_alloc, if_pos hs2, hnb]
    refine ⟨s, _, setInsert nb h.nodes.length, hs2, ?_, hsS, ?_,
      mem_setInsert.2 (Or.inr rfl)⟩
    · rw [nbAt_congr_nodes hn, hd2 h.nodes.length, if_pos rfl]
    · rw [nbAt_congr_nodes hn, hd2 s, if_neg hs1, if_pos hsS, hold]
      simp only [Option.map_some', Option.some.injEq]
      exact hpr s nb hsS hnb

theorem conn_insert (o : IterOrder) {dist : Dist} (hd : DistInRange dist) {h : HNSW}
    (hwf : WF h) (hM : 1 ≤ h.M)
    (hconn : ∀ a b, a < h.nodes.length → b < h.nodes.length → Reach (h.nbAt 0) a b)
    (data : Vec) (label : Int) (L : Nat) {h2 : HNSW}
    (hins : h.insert o dist data label L = some h2)
    (hq : ∀ S m nb, h2.nbAt 0 h.nodes.length = some S → m ∈ S → h.nbAt 0 m = some nb →
      (setInsert nb h.nodes.length).length ≤ toSizeT h.M_max) :
    ∀ a b, a < h2.nodes.length → b < h2.nodes.length → Reach (h2.nbAt 0) a b := by
  obtain ⟨-, -, -, -, -, hlen⟩ := insert_config o hd hwf data label L hins
  cases hentry : h.entry_point with
  | none =>
    intro a b ha hb
    rw [hlen, (hwf.entry_none hentry).1] at ha hb
    simp only [List.length_nil, Nat.zero_add, Nat.lt_one_iff] at ha hb
    rw [ha, hb]
    exact Relation.ReflTransGen.refl
  | some e0 =>
    obtain ⟨hsub, s, S, nb2, hs1, hS, hsS, hnb2, hNmem⟩ :=
      insert_layer0_links o hd hwf hM hentry data label L hins hq
    have hold : ∀ a b, a < h.nodes.length → b < h.nodes.length → Reach (h2.nbAt 0) a b :=
      fun a b ha hb => reach_mono_sub hsub (hconn a b ha hb)
    have hto : ∀ a, a < h2.nodes.length → Reach (h2.nbAt 0) a s := by
      intro a ha
      rw [hlen] at ha
      by_cases hlt : a < h.nodes.length
      · exact hold a s hlt hs1
      · have : a = h.nodes.length := by omega
        rw [this]
        exact reach_edge hS hsS
    have hfrom : ∀ b, b < h2.nodes.length → Reach (h2.nbAt 0) s b := by
      intro b hb
      rw [hlen] at hb
      by_cases hlt : b < h.nodes.length
      · exact hold s b hs1 hlt
      · have : b = h.nodes.length := by omega
        rw [this]
        exact reach_edge hnb2 hNmem
    exact fun a b ha hb => Relation.ReflTransGen.trans (hto a ha) (hfrom b hb)

theorem conn_reachable {dist : Dist} (hd : DistInRange dist) {h0 h : HNSW}
    (hf : h0.isFresh) (hM : 1 ≤ h0.M) (hmax : h0.M_max ≤ INT_MAX)
    (hr : Reachable dist h0 h) :
    (h.nodes.length : Int) ≤ h0.M_max + 1 →
      ∀ a b, a < h.nodes.length → b < h.nodes.length → Reach (h.nbAt 0) a b := by
  induction hr with
  | init =>
    intro _ a b ha
    rw [hf.1] at ha
    exact absurd ha (Nat.not_lt_zero _)
  | @step g g1 o data label L hr1 hins ih =>
    intro hN
    have hwf := reachable_wf hd hf hr1
    obtain ⟨-, -, -, -, -, hlen⟩ := insert_config o hd hwf data label L hins
    obtain ⟨c1, c2, -, -, -⟩ := reachable_config hd hf hr1
    rw [hlen] at hN
    push_cast at hN
    exact conn_insert o hd hwf (by rw [c1]; exact hM) (ih (by omega)) data label L hins
      (fun _ m nb _ _ hnb => small_no_eviction hwf (symInv_reachable hd hf hmax hr1 (by omega))
        (by rw [c2]; omega) (by rw [c2]; exact hmax) 0 m nb hnb)

theorem line_reach_lt {x : Nat} (hr : Reach (lineIndex3.nbAt 0) 0 x) : x < 2 := by
  refine reach_closed (P := fun y => y < 2) ?_ (by decide) hr
  intro a nb ha hnb b hb
  have ha2 : a = 0 ∨ a = 1 := by omega
  rcases ha2 with rfl | rfl
  · have : nb = [1] := by
      have h1 : lineIndex3.nbAt 0 0 = some [1] := rfl
      rw [h1] at hnb
      simp only [Option.some.injEq] at hnb
      exact hnb.symm
    subst this
    simp only [List.mem_singleton] at hb
    omega
  · have : nb = [0] := by
      have h1 : lineIndex3.nbAt 0 1 = some [0] := rfl
      rw [h1] at hnb
      simp only [Option.some.injEq] at hnb
      exact hnb.symm
    subst this
    simp only [List.mem_singleton] at hb
    omega

theorem line_query_misses (o : IterOrder) (q : Vec) (k : Int) :
    ∃ res, lineIndex3.query o l2distance q k = some res ∧ (2 : Int) ∉ res := by
  have hfresh : lineIndex0.isFresh := ⟨rfl, rfl, rfl⟩
  have hwf := reachable_wf l2distance_inRange hfresh line_reachable3
  obtain ⟨ep, hdesc, hep, hq⟩ :=
    queryNodes_descend o l2distance_inRange hwf q k
      (show lineIndex3.entry_point = some 0 from rfl)
  have hep0 : ep = 0 := by
    have h1 : descend o l2distance lineIndex3 q lineIndex3.max_level 0 (some 0)
        = some (some 0) := rfl
    rw [h1] at hdesc
    simp only [Option.some.injEq] at hdesc
    exact hdesc.symm
  subst hep0
  obtain ⟨W, hW, -, hWnd, -, hWr⟩ := search_layer_spec o l2distance_inRange lineIndex3 q 0
    lineIndex3.ef_search 0 (fun x hx => reach_hasLayer hwf.closed hep hx)
  obtain ⟨hS1, -, -, -⟩ := select_neighbors_sound o l2distance lineIndex3 q W k hWnd
  refine ⟨(o.run (lineIndex3.select_neighbors o l2distance q W k)).map lineIndex3.labelOf,
    by simp only [HNSW.query, hq W hW], ?_⟩
  intro hmem
  obtain ⟨i, hi, hlab⟩ := List.mem_map.1 hmem
  have hi2 : i < 2 := line_reach_lt (hWr i (hS1 i (o.mem_run.1 hi)))
  have hi3 : i = 0 ∨ i = 1 := by omega
  rcases hi3 with rfl | rfl
  · exact absurd hlab (by decide)
  · exact absurd hlab (by decide)

theorem addPruned_cases (o : IterOrder) {dist : Dist} (hd : DistInRange dist) (h : HNSW)
    (newId n : Nat) (nb : List Nat) :
    ((setInsert nb newId).length ≤ toSizeT h.M_max ∧
      addPruned o dist h newId n nb = setInsert nb newId) ∨
    (toSizeT h.M_max < (setInsert nb newId).length ∧
      ∃ f, f ∈ setInsert nb newId ∧
        (∀ y ∈ setInsert nb newId,
          h.distTo dist (h.dataOf n) y ≤ h.distTo dist (h.dataOf n) f) ∧
        addPruned o dist h newId n nb = (setInsert nb newId).erase f) := by
  by_cases hgt : toSizeT h.M_max < (setInsert nb newId).length
  · right
    obtain ⟨f, hf⟩ := furthestOf_exists o (d := h.distTo dist (h.dataOf n))
      (l := setInsert nb newId) (setInsert_ne_nil _ _) (fun y _ => (hd _ _ _).1)
    exact ⟨hgt, f, (furthestOf_some hf).1, (furthestOf_some hf).2,
      addPruned_evict o dist newId n hgt hf⟩
  · left
    exact ⟨by omega, addPruned_eq_setInsert o dist newId n (by omega)⟩

theorem insert_frame_aux (o : IterOrder) {dist : Dist} (hd : DistInRange dist) {h : HNSW}
    (hwf : WF h) {e0 : Nat} (hentry : h.entry_point = some e0) (data : Vec) (label : Int)
    (L : Nat) {h2 : HNSW} (hins : h.insert o dist data label L = some h2) :
    h2.nodes.map Node.shapeOf = h.nodes.map Node.shapeOf ++ [(data, label, L, L + 1)] ∧
    (∀ l, min L h.max_level < l → ∀ m, m < h.nodes.length → h2.nbAt l m = h.nbAt l m) ∧
    (∀ l, l ≤ min L h.max_level → ∃ S, h2.nbAt l h.nodes.length = some S ∧
      ∀ m nb, m < h.nodes.length → h.nbAt l m = some nb →
        h.nodes.length ∉ nb ∧
        (m ∉ S → h2.nbAt l m = some nb) ∧
        (m ∈ S →
          ((setInsert nb h.nodes.length).length ≤ toSizeT h.M_max ∧
            h2.nbAt l m = some (setInsert nb h.nodes.length)) ∨
          (toSizeT h.M_max < (setInsert nb h.nodes.length).length ∧
            ∃ f, f ∈ setInsert nb h.nodes.length ∧
              (∀ y ∈ setInsert nb h.nodes.length,
                h2.distTo dist (h2.dataOf m) y ≤ h2.distTo dist (h2.dataOf m) f) ∧
              h2.nbAt l m = some ((setInsert nb h.nodes.length).erase f)))) ∧
    (L ≤ h.max_level → h2.max_level = h.max_level ∧ h2.entry_point = h.entry_point) ∧
    (h.max_level < L → h2.max_level = L ∧ h2.entry_point = some h.nodes.length) := by
  obtain ⟨hfin, hins2, f, -, hsame, hlinked⟩ := insert_spec o hd hwf hentry data label L
  rw [hins] at hins2
  simp only [Option.some.injEq] at hins2
  have hn : h2.nodes = hfin.nodes := by
    rw [hins2]
    split <;> rfl
  have hdim : h2.vec_dim = (h.alloc data label L).vec_dim := by
    rw [hins2]
    split <;> exact f.cdim
  have hdata : ∀ m, h2.dataOf m = (h.alloc data label L).dataOf m := by
    intro m
    rw [(insert_records o hd hwf data label L hins m).1, dataOf_alloc]
  have hdist : ∀ q y, h2.distTo dist q y = (h.alloc data label L).distTo dist q y := by
    intro q y
    unfold HNSW.distTo
    rw [hdata y, hdim]
  refine ⟨?_, ?_, ?_, ?_, ?_⟩
  · rw [hn, f.shape]
    simp [HNSW.alloc, Node.shapeOf, Node.new]
  · intro l hl m hm
    rw [nbAt_congr_nodes hn, hsame l hl m, nbAt_alloc, if_pos hm]
  · intro l hl
    obtain ⟨e, W, -, -, -, -, -, hd2⟩ := hlinked l hl
    refine ⟨_, by rw [nbAt_congr_nodes hn, hd2 h.nodes.length, if_pos rfl], ?_⟩
    intro m nb hm hnb
    have hold : (h.alloc data label L).nbAt l m = some nb := by
      rw [nbAt_alloc, if_pos hm, hnb]
    refine ⟨?_, ?_, ?_⟩
    · intro hmem
      exact absurd (hasLayer_lt (hwf.closed l m nb hnb _ hmem)) (Nat.lt_irrefl _)
    · intro hmS
      rw [nbAt_congr_nodes hn, hd2 m, if_neg (Nat.ne_of_lt hm), if_neg hmS, hold]
    · intro hmS
      have h2m : h2.nbAt l m
          = some (addPruned o dist (h.alloc data label L) h.nodes.length m nb) := by
        rw [nbAt_congr_nodes hn, hd2 m, if_neg (Nat.ne_of_lt hm), if_pos hmS, hold]
        rfl
      rcases addPruned_cases o hd (h.alloc data label L) h.nodes.length m nb with
        ⟨h1, h3⟩ | ⟨h1, g, hg1, hg2, h3⟩
      · left
        exact ⟨h1, by rw [h2m, h3]⟩
      · right
        refine ⟨h1, g, hg1, ?_, by rw [h2m, h3]⟩
        intro y hy
        rw [hdist, hdist, hdata]
        exact hg2 y hy
  · intro hL
    rw [hins2, if_neg (by omega)]
    exact ⟨f.lvl, f.entry⟩
  · intro hL
    rw [hins2, if_pos hL]
    exact ⟨rfl, rfl⟩

/-- C18. The frame of a non-first `insert` with sampled level `L` in a state reached by
calls of `insert`, with `N` the number of nodes before the call: every existing node keeps
its data, label, `max_level` and number of layers; above layer `min(L, max_level)` every
existing neighbour set is unchanged; at a layer `l <= min(L, max_level)`, with `S` the set
stored in the new node, the set `nb` of an existing node outside `S` is unchanged, and the
set of a node in `S` gains the new node `N` and, only if its size then exceeds `M_max`, loses
one member `f` at maximal distance from that node's own vector; `entry_point` and
`max_level` change only when `L > max_level`. -/
theorem insert_frame {dist : Dist} (hd : DistInRange dist) {h0 h : HNSW} (hf : h0.isFresh)
    (hr : Reachable dist h0 h) (o : IterOrder) {e0 : Nat} (hentry : h.entry_point = some e0)
    (data : Vec) (label : Int) (L : Nat) {h2 : HNSW}
    (hins : h.insert o dist data label L = some h2) :
    h2.nodes.map Node.shapeOf = h.nodes.map Node.shapeOf ++ [(data, label, L, L + 1)] ∧
    (∀ l, min L h.max_level < l → ∀ m, m < h.nodes.length → h2.nbAt l m = h.nbAt l m) ∧
    (∀ l, l ≤ min L h.max_level → ∃ S, h2.nbAt l h.nodes.length = some S ∧
      ∀ m nb, m < h.nodes.length → h.nbAt l m = some nb →
        h.nodes.length ∉ nb ∧
        (m ∉ S → h2.nbAt l m = some nb) ∧
        (m ∈ S →
          ((setInsert nb h.nodes.length).length ≤ toSizeT h.M_max ∧
            h2.nbAt l m = some (setInsert nb h.nodes.length)) ∨
          (toSizeT h.M_max < (setInsert nb h.nodes.length).length ∧
            ∃ f, f ∈ setInsert nb h.nodes.length ∧
              (∀ y ∈ setInsert nb h.nodes.length,
                h2.distTo dist (h2.dataOf m) y ≤ h2.distTo dist (h2.dataOf m) f) ∧
              h2.nbAt l m = some ((setInsert nb h.nodes.length).erase f)))) ∧
    (L ≤ h.max_level → h2.max_level = h.max_level ∧ h2.entry_point = h.entry_point) ∧
    (h.max_level < L → h2.max_level = L ∧ h2.entry_point = some h.nodes.length) :=
  insert_frame_aux o hd (reachable_wf hd hf hr) hentry data label L hins

/-- An instance of C18 on a concrete index, with the hypotheses discharged: the fourth
insertion of the four-point scenario, in which nodes 0 and 1 each evict a neighbour. -/
theorem insert_frame_witness :
    DistInRange l2distance ∧ demoIndex0.isFresh ∧ Reachable l2distance demoIndex0 demoIndex3 ∧
    demoIndex3.entry_point = some 0 ∧
    demoIndex3.insert IterOrder.reversed l2distance [10, 0] 3 0 = some demoIndex4 ∧
    demoIndex4.nodes.map Node.shapeOf
      = demoIndex3.nodes.map Node.shapeOf ++ [([10, 0], 3, 0, 0 + 1)] ∧
    (∀ l, min 0 demoIndex3.max_level < l → ∀ m, m < demoIndex3.nodes.length →
      demoIndex4.nbAt l m = demoIndex3.nbAt l m) ∧
    (∀ l, l ≤ min 0 demoIndex3.max_level →
      ∃ S, demoIndex4.nbAt l demoIndex3.nodes.length = some S ∧
      ∀ m nb, m < demoIndex3.nodes.length → demoIndex3.nbAt l m = some nb →
        demoIndex3.nodes.length ∉ nb ∧
        (m ∉ S → demoIndex4.nbAt l m = some nb) ∧
        (m ∈ S →
          ((setInsert nb demoIndex3.nodes.length).length ≤ toSizeT demoIndex3.M_max ∧
            demoIndex4.nbAt l m = some (setInsert nb demoIndex3.nodes.length)) ∨
          (toSizeT demoIndex3.M_max < (setInsert nb demoIndex3.nodes.length).length ∧
            ∃ f, f ∈ setInsert nb demoIndex3.nodes.length ∧
              (∀ y ∈ setInsert nb demoIndex3.nodes.length,
                demoIndex4.distTo l2distance (demoIndex4.dataOf m) y
                  ≤ demoIndex4.distTo l2distance (demoIndex4.dataOf m) f) ∧
              demoIndex4.nbAt l m
                = some ((setInsert nb demoIndex3.nodes.length).erase f)))) ∧
    (0 ≤ demoIndex3.max_level →
      demoIndex4.max_level = demoIndex3.max_level ∧
      demoIndex4.entry_point = demoIndex3.entry_point) ∧
    (demoIndex3.max_level < 0 →
      demoIndex4.max_level = 0 ∧ demoIndex4.entry_point = some demoIndex3.nodes.length) :=
  ⟨l2distance_inRange, demo_fresh, demo_reachable3, rfl, demo_step4,
    insert_frame l2distance_inRange demo_fresh demo_reachable3 IterOrder.reversed
      (show demoIndex3.entry_point = some 0 from rfl) [10, 0] 3 0 demo_step4⟩

/-! ## Termination of `search_layer` -/

theorem visitStep_candidates {o : IterOrder} {d : Nat → Int} {ef : Int} {n : Nat}
    {W V C W1 V1 C1 : List Nat} (h : visitStep o d ef n W V C = some (W1, V1, C1)) :
    ∀ x, x ∈ C1 → x ∈ C ∨ (x = n ∧ n ∉ V ∧ n ∈ V1) := by
  intro x hx
  unfold visitStep at h
  by_cases hV : n ∈ V
  · rw [if_pos hV] at h
    simp only [Option.some.injEq, Prod.mk.injEq] at h
    obtain ⟨-, -, rfl⟩ := h
    exact Or.inl hx
  · rw [if_neg hV] at h
    simp only at h
    split at h
    · cases h
    · simp only [Option.some.injEq, Prod.mk.injEq] at h
      obtain ⟨-, -, rfl⟩ := h
      exact Or.inl hx
    · simp only [Option.some.injEq, Prod.mk.injEq] at h
      obtain ⟨-, rfl, rfl⟩ := h
      rcases mem_setInsert.1 hx with hx | hx
      · exact Or.inl hx
      · exact Or.inr ⟨hx, hV, mem_setInsert.2 (Or.inr rfl)⟩

theorem searchLoopCount_mono {o : IterOrder} {d : Nat → Int}
    {adj : Nat → Option (List Nat)} {ef : Int} :
    ∀ (fuel : Nat) (W V C : List Nat) (r : List Nat × Nat),
      searchLoopCount o d adj ef fuel W V C = some r →
      ∀ k, searchLoopCount o d adj ef (fuel + k) W V C = some r := by
  intro fuel
  induction fuel with
  | zero =>
    intro W V C r h
    simp [searchLoopCount] at h
  | succ fuel ih =>
    intro W V C r h k
    have e : fuel + 1 + k = (fuel + k) + 1 := by omega
    rw [e]
    unfold searchLoopCount at h ⊢
    by_cases hC : C = []
    · rw [if_pos hC] at h ⊢
      exact h
    · rw [if_neg hC] at h ⊢
      cases hb : searchBody o d adj ef W V C with
      | none =>
        rw [hb] at h
        cases h
      | some s =>
        cases s with
        | inl R =>
          rw [hb] at h
          exact h
        | inr t =>
          obtain ⟨W2, V2, C2⟩ := t
          rw [hb] at h
          simp only at h ⊢
          cases hrec : searchLoopCount o d adj ef fuel W2 V2 C2 with
          | none =>
            rw [hrec] at h
            cases h
          | some r2 =>
            rw [hrec] at h
            rw [ih W2 V2 C2 r2 hrec k]
            exact h

theorem searchLoopCount_spec {o : IterOrder} {d : Nat → Int} {adj : Nat → Option (List Nat)}
    {ef : Int} {G : Nat → Prop} {N : Nat}
    (hd : ∀ n, LONG_MIN < d n ∧ d n < LONG_MAX)
    (hGlt : ∀ x, G x → x < N)
    (hGadj : ∀ x, G x → ∃ nbs, adj x = some nbs ∧ ∀ n ∈ nbs, G n) :
    ∀ (fuel : Nat) (W V C : List Nat) (k : Nat), SearchInv G ef W V C →
      k + C.length ≤ V.length → (N - V.length) + C.length < fuel →
      ∃ R n, searchLoopCount o d adj ef fuel W V C = some (R, n) ∧
        searchLoop o d adj ef fuel W V C = some R ∧
        ∃ V1 : List Nat, V1.Nodup ∧ (∀ x ∈ V1, G x) ∧ k + n ≤ V1.length := by
  intro fuel
  induction fuel with
  | zero =>
    intro W V C k _ _ hlt
    exact absurd hlt (Nat.not_lt_zero _)
  | succ fuel ih =>
    intro W V C k inv hk hlt
    by_cases hC : C = []
    · refine ⟨W, 0, by simp [searchLoopCount, hC], by simp [searchLoop, hC],
        V, inv.V_nodup, inv.V_good, ?_⟩
      omega
    · have hCpos : 0 < C.length := List.length_pos.2 hC
      obtain ⟨c, f, -, -, hcase⟩ := @searchBody_base o d adj ef G N hd hGlt hGadj W V C inv hC
      rcases hcase with ⟨-, hb⟩ | ⟨-, nbs, W2, V2, C2, -, -, hb, inv2, hm⟩
      · refine ⟨W, 1, by simp [searchLoopCount, hC, hb], by simp [searchLoop, hC, hb],
          V, inv.V_nodup, inv.V_good, ?_⟩
        omega
      · have hV : V.length ≤ N :=
          length_le_of_nodup_lt inv.V_nodup (fun x hx => hGlt x (inv.V_good x hx))
        have hV2 : V2.length ≤ N :=
          length_le_of_nodup_lt inv2.V_nodup (fun x hx => hGlt x (inv2.V_good x hx))
        obtain ⟨R, n, h1, h2, V1, g1, g2, g3⟩ := ih W2 V2 C2 (k + 1) inv2 (by omega) (by omega)
        refine ⟨R, n + 1, by simp [searchLoopCount, hC, hb, h1],
          by simp [searchLoop, hC, hb, h2], V1, g1, g2, ?_⟩
        omega

theorem search_layer_count (o : IterOrder) {dist : Dist} (hd : DistInRange dist) (h : HNSW)
    (q : Vec) (ep : Nat) (ef : Int) (layer : Nat)
    (hclosed : ∀ x, Reach (h.nbAt layer) ep x → h.hasLayer layer x) :
    ∃ W n, h.search_layer o dist q (some ep) ef layer = some W ∧
      (∀ fuel, h.nodes.length + 1 ≤ fuel →
        searchLoopCount o (h.distTo dist q) (h.nbAt layer) ef fuel [ep] [ep] [ep]
          = some (W, n)) ∧
      n ≤ h.nodes.length ∧
      ∀ comp : List Nat, (∀ x, Reach (h.nbAt layer) ep x → x ∈ comp) → n ≤ comp.length := by
  have hGlt : ∀ x, Reach (h.nbAt layer) ep x → x < h.nodes.length :=
    fun x hx => hasLayer_lt (hclosed x hx)
  have hep : Reach (h.nbAt layer) ep ep := Relation.ReflTransGen.refl
  have hN : 0 < h.nodes.length := Nat.lt_of_le_of_lt (Nat.zero_le _) (hGlt ep hep)
  have hs : SearchInv (Reach (h.nbAt layer) ep) ef [ep] [ep] [ep] := by
    refine ⟨by simp, by simp, by simp, by simp, by simp, fun x hx => hx, fun x hx => hx, ?_⟩
    intro x hx
    rw [List.mem_singleton.1 hx]
    exact hep
  obtain ⟨R, n, h1, h2, V1, g1, g2, g3⟩ :=
    @searchLoopCount_spec o (h.distTo dist q) (h.nbAt layer) ef
      (Reach (h.nbAt layer) ep) h.nodes.length (fun n => hd _ _ _) hGlt
      (fun x hx => by
        obtain ⟨nbs, hnbs⟩ := nbAt_of_hasLayer (hclosed x hx)
        exact ⟨nbs, hnbs, fun n hn => Relation.ReflTransGen.tail hx ⟨nbs, hnbs, hn⟩⟩)
      (h.nodes.length + 1) [ep] [ep] [ep] 0 hs (by simp) (by
        simp only [List.length_singleton]
        omega)
  refine ⟨R, n, h2, ?_, ?_, ?_⟩
  · intro fuel hfuel
    have := searchLoopCount_mono (h.nodes.length + 1) [ep] [ep] [ep] (R, n) h1
      (fuel - (h.nodes.length + 1))
    rw [show h.nodes.length + 1 + (fuel - (h.nodes.length + 1)) = fuel by omega] at this
    exact this
  · have := length_le_of_nodup_lt g1 (fun x hx => hGlt x (g2 x hx))
    omega
  · intro comp hcomp
    have hsub : V1 ⊆ comp := fun x hx => hcomp x (g2 x hx)
    have := (List.subperm_of_subset g1 hsub).length_le
    omega

/-- C19. Termination: on a graph in which every node reachable from `ep` at the layer has
that layer (cycles and one-directional references allowed), `search_layer(q, ep, ef, layer)`
returns after a number `n` of iterations of its `while` loop that is at most the number of
nodes reachable from `ep` (the length of any list `comp` holding them all), whatever larger
iteration budget is given; a node enters `C` only in the step that first adds it to `V`; and
in every state reached by calls of `insert`, `insert` and `query` return. -/
theorem search_layer_terminates (o : IterOrder) {dist : Dist} (hd : DistInRange dist)
    (h : HNSW) (q : Vec) :
    (∀ ep ef layer, (∀ x, Reach (h.nbAt layer) ep x → h.hasLayer layer x) →
      ∃ W n, h.search_layer o dist q (some ep) ef layer = some W ∧
        (∀ fuel, h.nodes.length + 1 ≤ fuel →
          searchLoopCount o (h.distTo dist q) (h.nbAt layer) ef fuel [ep] [ep] [ep]
            = some (W, n)) ∧
        n ≤ h.nodes.length ∧
        ∀ comp : List Nat, (∀ x, Reach (h.nbAt layer) ep x → x ∈ comp) →
          n ≤ comp.length) ∧
    (∀ ef n W V C W1 V1 C1,
      visitStep o (h.distTo dist q) ef n W V C = some (W1, V1, C1) →
      ∀ x, x ∈ C1 → x ∈ C ∨ (x = n ∧ n ∉ V ∧ n ∈ V1)) ∧
    (∀ h0, h0.isFresh → Reachable dist h0 h →
      (∀ data label L, ∃ h2, h.insert o dist data label L = some h2) ∧
      (∀ k, ∃ res, h.query o dist q k = some res)) := by
  refine ⟨fun ep ef layer hc => search_layer_count o hd h q ep ef layer hc,
    fun ef n W V C W1 V1 C1 hv => visitStep_candidates hv, ?_⟩
  intro h0 hf hr
  have hwf := reachable_wf hd hf hr
  refine ⟨?_, ?_⟩
  · intro data label L
    obtain ⟨h2, hins, -⟩ := insert_wf o hd hwf data label L
    exact ⟨h2, hins⟩
  · intro k
    rcases queryNodes_spec o hd hwf q k with ⟨-, hq⟩ | ⟨ep, W, -, -, -, -, -, hq⟩
    · exact ⟨[], by simp [HNSW.query, hq]⟩
    · exact ⟨(o.run (h.select_neighbors o dist q W k)).map h.labelOf,
        by simp [HNSW.query, hq]⟩

/-- An instance of C19 on a concrete index, with the hypotheses discharged: on the 4-cycle of
the four-point scenario the search from node 0 with `ef = 2` returns after at most 4
iterations. -/
theorem search_layer_terminates_witness :
    DistInRange l2distance ∧
    (∀ x, Reach (demoIndex4.nbAt 0) 0 x → demoIndex4.hasLayer 0 x) ∧
    (∀ x, Reach (demoIndex4.nbAt 0) 0 x → x ∈ [0, 1, 2, 3]) ∧
    (∃ W n, demoIndex4.search_layer IterOrder.stored l2distance [9, 9] (some 0) 2 0 = some W ∧
      (∀ fuel, demoIndex4.nodes.length + 1 ≤ fuel →
        searchLoopCount IterOrder.stored (demoIndex4.distTo l2distance [9, 9])
          (demoIndex4.nbAt 0) 2 fuel [0] [0] [0] = some (W, n)) ∧
      n ≤ [0, 1, 2, 3].length) ∧
    (∀ data label L, ∃ h2, demoIndex4.insert IterOrder.stored l2distance data label L
      = some h2) ∧
    (∀ k, ∃ res, demoIndex4.query IterOrder.stored l2distance [9, 9] k = some res) :=
  have hwf := reachable_wf l2distance_inRange demo_fresh demo_reachable4
  have hc : ∀ x, Reach (demoIndex4.nbAt 0) 0 x → demoIndex4.hasLayer 0 x :=
    fun _ hx => reach_hasLayer hwf.closed (by decide) hx
  have hcomp : ∀ x, Reach (demoIndex4.nbAt 0) 0 x → x ∈ [0, 1, 2, 3] := by
    intro x hx
    have hlt : x < 4 := hasLayer_lt (hc x hx)
    have : x = 0 ∨ x = 1 ∨ x = 2 ∨ x = 3 := by omega
    rcases this with rfl | rfl | rfl | rfl <;> simp
  have hmain := search_layer_terminates IterOrder.stored l2distance_inRange demoIndex4 [9, 9]
  ⟨l2distance_inRange, hc, hcomp,
    (hmain.1 0 2 0 hc).imp fun _ hW => hW.imp fun _ hn =>
      ⟨hn.1, hn.2.1, hn.2.2.2 [0, 1, 2, 3] hcomp⟩,
    (hmain.2.2 demoIndex0 demo_fresh demo_reachable4).1,
    (hmain.2.2 demoIndex0 demo_fresh demo_reachable4).2⟩

/-! ## The result of `query` -/

/-- C10, amended. In every state reached by calls of `insert`, `query(q, k)` on a non-empty
index descends from the entry point through the layers `max_level..1` to a node `ep`, runs
the layer-0 search from `ep` with `ef_search`, and returns the labels of the nodes of
`select_neighbors(q, W, k)` for the result `W` of that search: `min(max(k, 0), |W|)` distinct
members of `W`, each at most as far from `q` as every member of `W` that is not returned.
They come in the iteration order of the unordered set, which is not specified. -/
theorem query_returns_nearest_of_search {dist : Dist} (hd : DistInRange dist) {h0 h : HNSW}
    (hf : h0.isFresh) (hr : Reachable dist h0 h) (o : IterOrder) (q : Vec) (k : Int) :
    ∃ ids, h.queryNodes o dist q k = some ids ∧ h.query o dist q k = some (ids.map h.labelOf) ∧
      ((h.entry_point = none ∧ ids = []) ∨
       ∃ e0 ep W, h.entry_point = some e0 ∧
        descend o dist h q h.max_level 0 (some e0) = some (some ep) ∧
        h.search_layer o dist q (some ep) h.ef_search 0 = some W ∧
        ids = o.run (h.select_neighbors o dist q W k) ∧
        (∀ i ∈ ids, i ∈ W) ∧ ids.Nodup ∧ ids.length = min (max k 0).toNat W.length ∧
        ∀ i ∈ ids, ∀ j ∈ W, j ∉ ids → h.distTo dist q i ≤ h.distTo dist q j) := by
  have hwf := reachable_wf hd hf hr
  cases hentry : h.entry_point with
  | none =>
    have hq : h.queryNodes o dist q k = some [] := by simp [HNSW.queryNodes, hentry]
    exact ⟨[], hq, by simp [HNSW.query, hq], Or.inl ⟨rfl, rfl⟩⟩
  | some e0 =>
    obtain ⟨ep, hdesc, hep, hq⟩ := queryNodes_descend o hd hwf q k hentry
    obtain ⟨W, hW, -, hWnd, -, -⟩ := search_layer_spec o hd h q ep h.ef_search 0
      (fun x hx => reach_hasLayer hwf.closed hep hx)
    obtain ⟨hS1, hS2, hS3, hS4⟩ := select_neighbors_sound o dist h q W k hWnd
    refine ⟨o.run (h.select_neighbors o dist q W k), hq W hW, by simp [HNSW.query, hq W hW],
      Or.inr ⟨e0, ep, W, rfl, hdesc, hW, rfl, fun i hi => hS1 i (o.mem_run.1 hi),
        o.nodup_run hS2, ?_, ?_⟩⟩
    · rw [o.length_run, hS3]
    · intro i hi j hj hjn
      exact hS4 i (o.mem_run.1 hi) j hj (fun hmem => hjn (o.mem_run.2 hmem))

/-- An instance of C10 as amended on a concrete index, with the hypotheses discharged. -/
theorem query_returns_nearest_of_search_witness :
    DistInRange l2distance ∧ Reachable l2distance demoIndex0 demoIndex4 ∧
    ∃ ids, demoIndex4.queryNodes IterOrder.stored l2distance [9, 9] 2 = some ids ∧
      demoIndex4.query IterOrder.stored l2distance [9, 9] 2
        = some (ids.map demoIndex4.labelOf) ∧
      ((demoIndex4.entry_point = none ∧ ids = []) ∨
       ∃ e0 ep W, demoIndex4.entry_point = some e0 ∧
        descend IterOrder.stored l2distance demoIndex4 [9, 9] demoIndex4.max_level 0 (some e0)
          = some (some ep) ∧
        demoIndex4.search_layer IterOrder.stored l2distance [9, 9] (some ep)
          demoIndex4.ef_search 0 = some W ∧
        ids = IterOrder.stored.run
          (demoIndex4.select_neighbors IterOrder.stored l2distance [9, 9] W 2) ∧
        (∀ i ∈ ids, i ∈ W) ∧ ids.Nodup ∧ ids.length = min (max (2 : Int) 0).toNat W.length ∧
        ∀ i ∈ ids, ∀ j ∈ W, j ∉ ids →
          demoIndex4.distTo l2distance [9, 9] i ≤ demoIndex4.distTo l2distance [9, 9] j) :=
  ⟨l2distance_inRange, demo_reachable4,
    query_returns_nearest_of_search l2distance_inRange demo_fresh demo_reachable4
      IterOrder.stored [9, 9] 2⟩

/-! ## Insertions that erase nothing -/

theorem noEviction_spec (o : IterOrder) {dist : Dist} (hd : DistInRange dist) {h : HNSW}
    (hwf : WF h) (data : Vec) (label : Int) (L : Nat) {h2 : HNSW}
    (hins : h.insert o dist data label L = some h2) (hq : NoEviction h h2) :
    ∀ l S m nb, h2.nbAt l h.nodes.length = some S → m ∈ S → h.nbAt l m = some nb →
      (setInsert nb h.nodes.length).length ≤ toSizeT h.M_max := by
  intro l S m nb hS hm hnb
  obtain ⟨h3, hins3, hwf3⟩ := insert_wf o hd hwf data label L
  rw [hins] at hins3
  simp only [Option.some.injEq] at hins3
  subst hins3
  have hl : l < h2.max_level + 1 := by
    obtain ⟨nd, hnd, hlt⟩ := hasLayer_iff.1 (hasLayer_of_nbAt hS)
    have h1 := hwf3.layers _ nd hnd
    have h2 := hwf3.levels _ nd hnd
    omega
  have hm2 : m < h.nodes.length := hasLayer_lt (hasLayer_of_nbAt hnb)
  have := hq l hl m hm2
  unfold HNSW.evictsAt at this
  rw [hS, hnb] at this
  simp only [Bool.and_eq_false_imp, decide_eq_true_eq, decide_eq_false_iff_not, not_lt] at this
  exact this hm

theorem small_quiet {dist : Dist} (hd : DistInRange dist) {h0 h : HNSW}
    (hf : h0.isFresh) (hmax : h0.M_max ≤ INT_MAX) (hr : Reachable dist h0 h) :
    (h.nodes.length : Int) ≤ h0.M_max + 1 → ReachableQuiet dist h0 h := by
  induction hr with
  | init => exact fun _ => ReachableQuiet.init
  | @step g g1 o data label L hr1 hins ih =>
    intro hN
    have hwf := reachable_wf hd hf hr1
    obtain ⟨-, -, -, -, -, hlen⟩ := insert_config o hd hwf data label L hins
    obtain ⟨-, c2, -, -, -⟩ := reachable_config hd hf hr1
    rw [hlen] at hN
    push_cast at hN
    refine ReachableQuiet.step o data label L (ih (by omega)) hins ?_
    intro l _ m _
    unfold HNSW.evictsAt
    split
    · rename_i S nb hS hnb
      have := small_no_eviction hwf (symInv_reachable hd hf hmax hr1 (by omega))
        (by rw [c2]; omega) (by rw [c2]; exact hmax) l m nb hnb
      simp only [Bool.and_eq_false_imp, decide_eq_true_eq, decide_eq_false_iff_not, not_lt]
      exact fun _ => this
    · rfl

theorem line_step3_evicts : ¬ NoEviction lineIndex2 lineIndex3 := by
  decide

theorem visitAllCost_fst (o : IterOrder) (d : Nat → Int) (ef : Int) (ns : List Nat) :
    ∀ W V C, (visitAllCost o d ef ns W V C).map Prod.fst = visitAll o d ef ns W V C := by
  induction ns with
  | nil =>
    intro W V C
    rfl
  | cons n ns ih =>
    intro W V C
    unfold visitAllCost visitAll
    cases hs : visitStep o d ef n W V C with
    | none => rfl
    | some r =>
      obtain ⟨W1, V1, C1⟩ := r
      simp only
      rw [← ih W1 V1 C1]
      cases visitAllCost o d ef ns W1 V1 C1 with
      | none => rfl
      | some r2 => rfl

theorem searchBodyCost_fst (o : IterOrder) (d : Nat → Int) (adj : Nat → Option (List Nat))
    (ef : Int) (W V C : List Nat) :
    (searchBodyCost o d adj ef W V C).map Prod.fst = searchBody o d adj ef W V C := by
  unfold searchBodyCost searchBody
  cases nearestOf o d C with
  | none => rfl
  | some c =>
    cases furthestOf o d W with
    | none => rfl
    | some f =>
      simp only
      split
      · rfl
      · cases adj c with
        | none => rfl
        | some nbs =>
          simp only
          rw [← visitAllCost_fst]
          cases visitAllCost o d ef (o.run nbs) W V (setErase C (some c)) with
          | none => rfl
          | some r => rfl

theorem searchLoopCost_fst (o : IterOrder) (d : Nat → Int) (adj : Nat → Option (List Nat))
    (ef : Int) :
    ∀ fuel W V C,
      (searchLoopCost o d adj ef fuel W V C).map Prod.fst = searchLoop o d adj ef fuel W V C := by
  intro fuel
  induction fuel with
  | zero =>
    intro W V C
    rfl
  | succ fuel ih =>
    intro W V C
    unfold searchLoopCost searchLoop
    split
    · rfl
    · rw [← searchBodyCost_fst]
      cases hb : searchBodyCost o d adj ef W V C with
      | none => rfl
      | some r =>
        obtain ⟨r1, k⟩ := r
        cases r1 with
        | inl R => rfl
        | inr t =>
          obtain ⟨W2, V2, C2⟩ := t
          simp only [Option.map_some']
          rw [← ih W2 V2 C2]
          cases searchLoopCost o d adj ef fuel W2 V2 C2 with
          | none => rfl
          | some r2 => rfl

theorem search_layerCost_fst (o : IterOrder) (dist : Dist) (h : HNSW) (q : Vec)
    (ep : Option Nat) (ef : Int) (layer : Nat) :
    (h.search_layerCost o dist q ep ef layer).map Prod.fst
      = h.search_layer o dist q ep ef layer := by
  unfold HNSW.search_layerCost HNSW.search_layer
  cases ep with
  | none => rfl
  | some e => exact searchLoopCost_fst o _ _ ef _ _ _ _

theorem descendCost_fst (o : IterOrder) (dist : Dist) (h : HNSW) (q : Vec) :
    ∀ cnt L ep, (descendCost o dist h q cnt L ep).map Prod.fst = descend o dist h q cnt L ep := by
  intro cnt
  induction cnt with
  | zero =>
    intro L ep
    rfl
  | succ cnt ih =>
    intro L ep
    unfold descendCost descend descendStep
    rw [← search_layerCost_fst]
    cases h.search_layerCost o dist q ep 1 (L + cnt + 1) with
    | none => rfl
    | some r =>
      obtain ⟨W, k⟩ := r
      simp only [Option.map_some']
      rw [← ih L (h.get_nearest o dist W q)]
      cases descendCost o dist h q cnt L (h.get_nearest o dist W q) with
      | none => rfl
      | some r2 => rfl

theorem queryCost_fst (o : IterOrder) (dist : Dist) (h : HNSW) (q : Vec) (k : Int) :
    (h.queryCost o dist q k).map Prod.fst = h.query o dist q k := by
  unfold HNSW.queryCost HNSW.query HNSW.queryNodes
  cases h.entry_point with
  | none => rfl
  | some e =>
    simp only
    rw [← descendCost_fst]
    cases descendCost o dist h q h.max_level 0 (some e) with
    | none => rfl
    | some r =>
      obtain ⟨ep, k1⟩ := r
      simp only [Option.map_some']
      rw [← search_layerCost_fst]
      cases h.search_layerCost o dist q ep h.ef_search 0 with
      | none => rfl
      | some r2 => rfl

theorem demo_queryCost :
    demoIndex4.queryCost IterOrder.stored l2distance [9, 9] 2 = some ([1, 2], ⟨36, 42⟩) := by
  decide

/-- C12. A query on an index built by the constructor `HNSW(dim)`, before any insertion,
returns the empty sequence for every query vector and every `k`, for every distance function
and iteration order, and does so having called `l2distance` zero times and read zero fields of
a node; the counting version of `query` returns the value of `query` on every index. -/
theorem empty_index_query (o : IterOrder) (dist : Dist) (dim : Int) (q : Vec) (k : Int) :
    (HNSW.new dim).queryNodes o dist q k = some [] ∧
    (HNSW.new dim).query o dist q k = some [] ∧
    (HNSW.new dim).queryCost o dist q k = some ([], ⟨0, 0⟩) ∧
    (HNSW.new dim).nodes = [] ∧
    ∀ h : HNSW, (h.queryCost o dist q k).map Prod.fst = h.query o dist q k :=
  ⟨rfl, rfl, rfl, rfl, fun h => queryCost_fst o dist h q k⟩

theorem noEviction_iff (o : IterOrder) {dist : Dist} (hd : DistInRange dist) {h : HNSW}
    (hwf : WF h) (data : Vec) (label : Int) (L : Nat) {h2 : HNSW}
    (hins : h.insert o dist data label L = some h2) :
    NoEviction h h2 ↔
      ∀ l S m nb, h2.nbAt l h.nodes.length = some S → m ∈ S → h.nbAt l m = some nb →
        h2.nbAt l m = some (setInsert nb h.nodes.length) := by
  have hkey : ∀ l S m nb, h2.nbAt l h.nodes.length = some S → m ∈ S →
      h.nbAt l m = some nb →
      ((setInsert nb h.nodes.length).length ≤ toSizeT h.M_max ∧
        h2.nbAt l m = some (setInsert nb h.nodes.length)) ∨
      (toSizeT h.M_max < (setInsert nb h.nodes.length).length ∧
        h2.nbAt l m ≠ some (setInsert nb h.nodes.length)) := by
    intro l S m nb hS hm hnb
    have hmlt : m < h.nodes.length := hasLayer_lt (hasLayer_of_nbAt hnb)
    cases hentry : h.entry_point with
    | none =>
      have hnil := (hwf.entry_none hentry).1
      rw [hnil] at hmlt
      exact absurd hmlt (Nat.not_lt_zero _)
    | some e0 =>
      obtain ⟨hfin, hn, -, -, -, -, -, -, -, hsame, hlinked⟩ :=
        insert_nodes o hd hwf hentry data label L hins
      by_cases hl : l ≤ min L h.max_level
      · obtain ⟨e, W, -, -, -, -, -, hd2⟩ := hlinked l hl
        rw [nbAt_congr_nodes hn, hd2 h.nodes.length, if_pos rfl] at hS
        simp only [Option.some.injEq] at hS
        subst hS
        have hold : (h.alloc data label L).nbAt l m = some nb := by
          rw [nbAt_alloc, if_pos hmlt, hnb]
        have h2m : h2.nbAt l m
            = some (addPruned o dist (h.alloc data label L) h.nodes.length m nb) := by
          rw [nbAt_congr_nodes hn, hd2 m, if_neg (Nat.ne_of_lt hmlt), if_pos hm, hold]
          rfl
        rcases addPruned_cases o hd (h.alloc data label L) h.nodes.length m nb with
          ⟨h1, h3⟩ | ⟨h1, g, hg1, -, h3⟩
        · left
          exact ⟨h1, by rw [h2m, h3]⟩
        · right
          refine ⟨h1, ?_⟩
          rw [h2m, h3]
          intro heq
          simp only [Option.some.injEq] at heq
          have hlen := List.length_erase_of_mem hg1
          rw [heq] at hlen
          have hpos : 0 < (setInsert nb h.nodes.length).length :=
            List.length_pos_of_mem hg1
          omega
      · exfalso
        rw [nbAt_congr_nodes hn, hsame l (by omega) h.nodes.length, nbAt_alloc,
          if_neg (Nat.lt_irrefl _)] at hS
        split at hS
        · simp only [Option.some.injEq] at hS
          rw [← hS] at hm
          exact List.not_mem_nil _ hm
        · cases hS
  constructor
  · intro hq l S m nb hS hm hnb
    rcases hkey l S m nb hS hm hnb with ⟨-, h1⟩ | ⟨h1, -⟩
    · exact h1
    · have := noEviction_spec o hd hwf data label L hins hq l S m nb hS hm hnb
      omega
  · intro hall l _ m _
    unfold HNSW.evictsAt
    split
    · rename_i S nb hS hnb
      simp only [Bool.and_eq_false_imp, decide_eq_true_eq, decide_eq_false_iff_not, not_lt]
      intro hm
      rcases hkey l S m nb hS hm hnb with ⟨h1, -⟩ | ⟨-, h1⟩
      · exact h1
      · exact absurd (hall l S m nb hS hm hnb) h1
    · rfl

end HNSWLab

namespace CompressedRadixTree

/-! ## The compressed radix tree: faults, `insert`, `find` and `remove` -/

theorem shr32_count {x : Nat} {c : Int} {y : Nat} (h : shr32 x c = .ok y) :
    0 ≤ c ∧ c < 32 := by
  unfold shr32 at h
  split at h
  · assumption
  · cases h

theorem bitAt_budget {value i : Int} {e : Fault} (h : bitAt value i = .error e) :
    e = .shiftCount := by
  unfold bitAt at h
  split at h
  · cases h
  · cases h
    rfl

theorem node_budget {t : CompressedRadixTree} {p : Nat} {e : Fault}
    (h : t.node p = .error e) : e = .nullDeref := by
  unfold node at h
  split at h
  · cases h
  · cases h
    rfl

theorem shl32_budget {x : Nat} {c : Int} {e : Fault} (h : shl32 x c = .error e) :
    e = .shiftCount := by
  unfold shl32 at h
  split at h
  · cases h
  · cases h
    rfl

theorem shr32_budget {x : Nat} {c : Int} {e : Fault} (h : shr32 x c = .error e) :
    e = .shiftCount := by
  unfold shr32 at h
  split at h
  · cases h
  · cases h
    rfl

theorem pathLoop_budget (value : Int) (t : CompressedRadixTree) :
    ∀ (fuel tmp : Nat) (i : Int), i ≤ fuel →
      pathLoop value t (fuel + 1) tmp i ≠ .error .loopBudget := by
  intro fuel
  induction fuel with
  | zero =>
    intro tmp i hi
    unfold pathLoop
    rw [if_pos (by simpa using hi)]
    simp
  | succ fuel ih =>
    intro tmp i hi
    unfold pathLoop
    split
    · simp
    · split
      · rename_i e _ hb
        rw [bitAt_budget hb]
        simp
      · rename_i e hn _
        rw [node_budget hn]
        simp
      · split
        · simp
        · split
          · rename_i e hn
            rw [node_budget hn]
            simp
          · split
            · rename_i e hs
              rw [shl32_budget hs]
              simp
            · split
              · rename_i e hs
                rw [shr32_budget hs]
                simp
              · rename_i bit2 hs
                split
                · simp
                · apply ih
                  have := shr32_count hs
                  push_cast at hi
                  omega

/-- The iteration budget of `find` is never exhausted: a fault of `find` is undefined
behaviour of the code. -/
theorem find_budget (t : CompressedRadixTree) (value : Int) :
    t.find value ≠ .error .loopBudget := by
  unfold find
  have h := pathLoop_budget value t 32 0 32 (by decide)
  split
  · rename_i e he
    intro hc
    simp only [Except.error.injEq] at hc
    rw [hc] at he
    exact h he
  · simp
  · simp

theorem moveChildren_budget (tmp newChild : Nat) :
    ∀ (js : List Nat) (t : CompressedRadixTree),
      moveChildren tmp newChild js t ≠ .error .loopBudget := by
  intro js
  induction js with
  | nil =>
    intro t
    simp [moveChildren]
  | cons j js ih =>
    intro t
    unfold moveChildren
    split
    · rename_i e hn
      rw [node_budget hn]
      simp
    · simp only
      split
      · rename_i e hn
        rw [node_budget hn]
        simp
      · split
        · exact ih _
        · split
          · rename_i e hn
            rw [node_budget hn]
            simp
          · exact ih _

theorem bind_budget {α β : Type} {x : Except Fault α} {f : α → Except Fault β}
    (hx : x ≠ .error .loopBudget) (hf : ∀ a, f a ≠ .error .loopBudget) :
    (x >>= f) ≠ .error .loopBudget := by
  cases x with
  | error e =>
    intro h
    have h2 : (Except.error e : Except Fault β) = .error .loopBudget := h
    simp only [Except.error.injEq] at h2
    exact hx (by rw [h2])
  | ok a => exact hf a

theorem node_ne_budget (t : CompressedRadixTree) (p : Nat) :
    t.node p ≠ .error .loopBudget := by
  intro h
  have := node_budget h
  cases this

theorem shl32_ne_budget (x : Nat) (c : Int) : shl32 x c ≠ .error .loopBudget := by
  intro h
  have := shl32_budget h
  cases this

theorem shr32_ne_budget (x : Nat) (c : Int) : shr32 x c ≠ .error .loopBudget := by
  intro h
  have := shr32_budget h
  cases this

theorem insertSplit_budget (value : Int) (t : CompressedRadixTree) (tmp : Nat) (i : Int)
    (bit bit2 : Nat) : insertSplit value t tmp i bit bit2 ≠ .error .loopBudget := by
  unfold insertSplit
  refine bind_budget (node_ne_budget _ _) fun tn => ?_
  refine bind_budget (shr32_ne_budget _ _) fun v => ?_
  refine bind_budget (moveChildren_budget _ _ _ _) fun t2 => ?_
  refine bind_budget (node_ne_budget _ _) fun tn2 => ?_
  refine bind_budget (shl32_ne_budget _ _) fun one => ?_
  refine bind_budget (shl32_ne_budget _ _) fun y => ?_
  refine bind_budget (shr32_ne_budget _ _) fun val => ?_
  refine bind_budget (shr32_ne_budget _ _) fun idx => ?_
  split
  · simp
  · refine bind_budget (node_ne_budget _ _) fun nn => ?_
    split
    · simp
    · refine bind_budget (node_ne_budget _ _) fun pn => ?_
      simp

theorem insertLoop_budget (value : Int) :
    ∀ (fuel : Nat) (t : CompressedRadixTree) (tmp : Nat) (i : Int), i ≤ fuel →
      insertLoop value (fuel + 1) t tmp i ≠ .error .loopBudget := by
  intro fuel
  induction fuel with
  | zero =>
    intro t tmp i hi
    unfold insertLoop
    rw [if_pos (by simpa using hi)]
    simp
  | succ fuel ih =>
    intro t tmp i hi
    unfold insertLoop
    split
    · simp
    · split
      · rename_i e _ hb
        rw [bitAt_budget hb]
        simp
      · rename_i e hn _
        rw [node_budget hn]
        simp
      · split
        · split
          · rename_i e hs
            rw [shl32_budget hs]
            simp
          · split
            · rename_i e hs
              rw [shr32_budget hs]
              simp
            · simp
        · split
          · rename_i e hn
            rw [node_budget hn]
            simp
          · split
            · rename_i e hs
              rw [shl32_budget hs]
              simp
            · split
              · rename_i e hs
                rw [shr32_budget hs]
                simp
              · rename_i bit2 hs
                split
                · exact insertSplit_budget _ _ _ _ _ _
                · apply ih
                  have := shr32_count hs
                  push_cast at hi
                  omega

/-- The iteration budget of `insert` is never exhausted: a fault of `insert` is undefined
behaviour of the code. -/
theorem insert_budget (t : CompressedRadixTree) (value : Int) :
    t.insert value ≠ .error .loopBudget :=
  insertLoop_budget value 32 t 0 32 (by decide)

theorem mergeLoop_budget (p childIdx : Nat) :
    ∀ (l : List Nat) (t : CompressedRadixTree),
      mergeLoop p childIdx l t ≠ .error .loopBudget := by
  intro l
  induction l with
  | nil =>
    intro t
    simp [mergeLoop]
  | cons i rest ih =>
    intro t
    unfold mergeLoop
    split
    · rename_i e hn
      rw [node_budget hn]
      simp
    · split
      · simp
      · split
        · rename_i e hn
          rw [node_budget hn]
          simp
        · split
          · exact ih _
          · simp only
            split
            · rename_i e hn
              rw [node_budget hn]
              simp
            · split
              · rename_i e hn
                rw [node_budget hn]
                simp
              · exact ih _

theorem mergeChild_budget (wide : Nat → Int → Nat) (t : CompressedRadixTree)
    (p childIdx : Nat) : mergeChild wide t p childIdx ≠ .error .loopBudget := by
  unfold mergeChild
  refine bind_budget (node_ne_budget _ _) fun pn => ?_
  split
  · simp
  · refine bind_budget (node_ne_budget _ _) fun cn => ?_
    exact mergeLoop_budget _ _ _ _

/-- The iteration budget of `remove` is never exhausted: a fault of `remove` is undefined
behaviour of the code. -/
theorem remove_budget (wide : Nat → Int → Nat) (t : CompressedRadixTree) (value : Int) :
    remove wide t value ≠ .error .loopBudget := by
  unfold remove
  have h := pathLoop_budget value t 32 0 32 (by decide)
  split
  · rename_i e he
    intro hc
    simp only [Except.error.injEq] at hc
    rw [hc] at he
    exact h he
  · simp
  · split
    · rename_i e hn
      rw [node_budget hn]
      simp
    · split
      · simp
      · split
        · rename_i e hn
          rw [node_budget hn]
          simp
        · split
          · simp
          · simp only
            split
            · split
              · rename_i e he
                intro hc
                simp only [Except.error.injEq] at hc
                rw [hc] at he
                exact mergeChild_budget _ _ _ _ he
              · simp
            · simp

/-- C13 fails on the code at the pair `a = 0`, `b = 1`: `insert(0)` stores a leaf and
`find(0)` is true; `insert(1)` splits that leaf, attaches only the new leaf for 1 to the
split node and replaces the old leaf, so afterwards `find(1)` is true and `find(0)` is
false. -/
theorem insert_loses_member :
    empty.insert 0 = .ok tree0 ∧ tree0.find 0 = .ok true ∧
    tree0.insert 1 = .ok tree01 ∧ tree01.find 1 = .ok true ∧ tree01.find 0 = .ok false :=
  ⟨rfl, rfl, rfl, rfl, rfl⟩

theorem remove_false_unchanged (wide : Nat → Int → Nat) (t : CompressedRadixTree)
    (value : Int) (t2 : CompressedRadixTree) (h : remove wide t value = .ok (false, t2)) :
    t2 = t := by
  unfold remove at h
  split at h
  · cases h
  · simp only [Except.ok.injEq, Prod.mk.injEq, true_and] at h
    exact h.symm
  · split at h
    · cases h
    · split at h
      · simp only [Except.ok.injEq, Prod.mk.injEq, true_and] at h
        exact h.symm
      · split at h
        · cases h
        · split at h
          · simp at h
          · simp only at h
            split at h
            · split at h
              · cases h
              · simp at h
            · simp at h

theorem remove_true_find (wide : Nat → Int → Nat) (t : CompressedRadixTree) (value : Int)
    (t2 : CompressedRadixTree) (h : remove wide t value = .ok (true, t2)) :
    t.find value = .ok true := by
  unfold remove at h
  unfold find
  cases hp : pathLoop value t 33 0 32 with
  | error e =>
    rw [hp] at h
    cases h
  | ok r =>
    cases r with
    | none =>
      rw [hp] at h
      simp at h
    | some tmp => rfl

theorem find_false_remove (wide : Nat → Int → Nat) (t : CompressedRadixTree) (value : Int)
    (h : t.find value = .ok false) : remove wide t value = .ok (false, t) := by
  unfold find at h
  unfold remove
  cases hp : pathLoop value t 33 0 32 with
  | error e =>
    rw [hp] at h
    cases h
  | ok r =>
    cases r with
    | none => rfl
    | some tmp =>
      rw [hp] at h
      simp at h

/-! ## The compressed radix tree: parent pointers and `remove` -/

theorem node_ok {t : CompressedRadixTree} {p : Nat} {nd : Node} :
    t.node p = .ok nd ↔ t.nodes[p]? = some nd := by
  unfold node
  cases t.nodes[p]? with
  | none => simp
  | some x => simp

theorem node_lt {t : CompressedRadixTree} {p : Nat} {nd : Node} (h : t.node p = .ok nd) :
    p < t.nodes.length :=
  (List.getElem?_eq_some_iff.1 (node_ok.1 h)).1

theorem node_of_lt {t : CompressedRadixTree} {p : Nat} (h : p < t.nodes.length) :
    ∃ nd, t.node p = .ok nd :=
  ⟨t.nodes[p], node_ok.2 (List.getElem?_eq_getElem h)⟩

theorem length_setNode (t : CompressedRadixTree) (a : Nat) (nd : Node) :
    (t.setNode a nd).nodes.length = t.nodes.length := by
  simp [setNode]

theorem length_alloc (t : CompressedRadixTree) (nd : Node) :
    (t.alloc nd).nodes.length = t.nodes.length + 1 := by
  simp [alloc]

theorem nodes_setNode (t : CompressedRadixTree) (a : Nat) (nd : Node) (j : Nat) :
    (t.setNode a nd).nodes[j]? =
      if a = j then (if a < t.nodes.length then some nd else none) else t.nodes[j]? := by
  unfold setNode
  exact List.getElem?_set

theorem nodes_alloc_old (t : CompressedRadixTree) (nd : Node) {j : Nat}
    (h : j < t.nodes.length) : (t.alloc nd).nodes[j]? = t.nodes[j]? := by
  unfold alloc
  exact List.getElem?_append_left h

theorem nodes_alloc_new (t : CompressedRadixTree) (nd : Node) :
    (t.alloc nd).nodes[t.nodes.length]? = some nd := by
  unfold alloc
  simp

theorem nodes_alloc_cases (t : CompressedRadixTree) (nd x : Node) {j : Nat}
    (h : (t.alloc nd).nodes[j]? = some x) :
    t.nodes[j]? = some x ∨ (j = t.nodes.length ∧ x = nd) := by
  have hj : j < t.nodes.length + 1 := by
    have := (List.getElem?_eq_some_iff.1 h).1
    rwa [length_alloc] at this
  by_cases hlt : j < t.nodes.length
  · left
    rw [← nodes_alloc_old t nd hlt]
    exact h
  · right
    have hj2 : j = t.nodes.length := by omega
    subst hj2
    rw [nodes_alloc_new] at h
    simp only [Option.some.injEq] at h
    exact ⟨rfl, h.symm⟩

theorem bind_ok {α β : Type} {x : Except Fault α} {f : α → Except Fault β} {b : β}
    (h : (x >>= f) = .ok b) : ∃ a, x = .ok a ∧ f a = .ok b := by
  cases x with
  | error e => cases h
  | ok a => exact ⟨a, rfl, h⟩

theorem hasParent_setNode {t : CompressedRadixTree} {a k : Nat} {old nd : Node}
    (ha : t.nodes[a]? = some old)
    (hp : nd.parent = old.parent ∨ ∃ q, nd.parent = some q ∧ q < t.nodes.length)
    (hk : HasParent t k) : HasParent (t.setNode a nd) k := by
  obtain ⟨kn, p, h1, h2, h3⟩ := hk
  have hlt : a < t.nodes.length := (List.getElem?_eq_some_iff.1 ha).1
  by_cases hak : a = k
  · subst hak
    rw [ha] at h1
    simp only [Option.some.injEq] at h1
    subst h1
    rcases hp with hp | ⟨q, hq1, hq2⟩
    · exact ⟨nd, p, by rw [nodes_setNode, if_pos rfl, if_pos hlt], by rw [hp, h2],
        by rw [length_setNode]; exact h3⟩
    · exact ⟨nd, q, by rw [nodes_setNode, if_pos rfl, if_pos hlt], hq1,
        by rw [length_setNode]; exact hq2⟩
  · exact ⟨kn, p, by rw [nodes_setNode, if_neg hak]; exact h1, h2,
      by rw [length_setNode]; exact h3⟩

theorem hasParent_alloc {t : CompressedRadixTree} {k : Nat} (nd : Node)
    (hk : HasParent t k) : HasParent (t.alloc nd) k := by
  obtain ⟨kn, p, h1, h2, h3⟩ := hk
  have hlt : k < t.nodes.length := (List.getElem?_eq_some_iff.1 h1).1
  exact ⟨kn, p, by rw [nodes_alloc_old t nd hlt]; exact h1, h2,
    by rw [length_alloc]; omega⟩

theorem hasParent_alloc_new {t : CompressedRadixTree} {nd : Node} {q : Nat}
    (hp : nd.parent = some q) (hq : q ≤ t.nodes.length) :
    HasParent (t.alloc nd) t.nodes.length :=
  ⟨nd, q, nodes_alloc_new t nd, hp, by rw [length_alloc]; omega⟩

theorem isChild_setNode {t : CompressedRadixTree} {a k : Nat} {nd : Node}
    (h : IsChild (t.setNode a nd) k) : some k ∈ nd.children ∨ IsChild t k := by
  obtain ⟨b, x, h1, h2⟩ := h
  rw [nodes_setNode] at h1
  by_cases hab : a = b
  · rw [if_pos hab] at h1
    split at h1
    · simp only [Option.some.injEq] at h1
      subst h1
      exact Or.inl h2
    · cases h1
  · rw [if_neg hab] at h1
    exact Or.inr ⟨b, x, h1, h2⟩

theorem isChild_alloc {t : CompressedRadixTree} {k : Nat} {nd : Node}
    (h : IsChild (t.alloc nd) k) : some k ∈ nd.children ∨ IsChild t k := by
  obtain ⟨b, x, h1, h2⟩ := h
  rcases nodes_alloc_cases t nd x h1 with h3 | ⟨-, h3⟩
  · exact Or.inr ⟨b, x, h3, h2⟩
  · subst h3
    exact Or.inl h2

theorem ok_setNode {t : CompressedRadixTree} {a : Nat} {old nd : Node} (hok : ChildrenOk t)
    (ha : t.nodes[a]? = some old)
    (hp : nd.parent = old.parent ∨ ∃ q, nd.parent = some q ∧ q < t.nodes.length)
    (hc : ∀ k, some k ∈ nd.children → some k ∈ old.children ∨ HasParent t k) :
    ChildrenOk (t.setNode a nd) := by
  intro k hk
  apply hasParent_setNode ha hp
  rcases isChild_setNode hk with h1 | h1
  · rcases hc k h1 with h2 | h2
    · exact hok k ⟨a, old, ha, h2⟩
    · exact h2
  · exact hok k h1

theorem ok_alloc {t : CompressedRadixTree} {nd : Node} (hok : ChildrenOk t)
    (hc : nd.children = nullChildren) : ChildrenOk (t.alloc nd) := by
  intro k hk
  apply hasParent_alloc
  rcases isChild_alloc hk with h1 | h1
  · rw [hc] at h1
    simp [nullChildren] at h1
  · exact hok k h1

theorem mem_of_getD_some {l : List (Option Nat)} {j k : Nat}
    (h : l.getD j none = some k) : some k ∈ l := by
  rw [List.getD_eq_getElem?_getD] at h
  cases hj : l[j]? with
  | none =>
    rw [hj] at h
    cases h
  | some x =>
    rw [hj] at h
    simp only [Option.getD_some] at h
    subst h
    exact List.getElem?_mem hj

theorem mem_set_cases {l : List (Option Nat)} {j : Nat} {x y : Option Nat}
    (h : y ∈ l.set j x) : y ∈ l ∨ y = x :=
  List.mem_or_eq_of_mem_set h

theorem ok_empty : ChildrenOk empty := by
  intro k hk
  obtain ⟨a, nd, h1, h2⟩ := hk
  have ha : a < 1 := (List.getElem?_eq_some_iff.1 h1).1
  have : a = 0 := by omega
  subst this
  have h3 : nd = ⟨0, 0, none, nullChildren⟩ := by
    have h4 : empty.nodes[0]? = some ⟨0, 0, none, nullChildren⟩ := rfl
    rw [h4] at h1
    simp only [Option.some.injEq] at h1
    exact h1.symm
  subst h3
  simp [nullChildren] at h2

theorem moveChildren_ok (tmp newChild : Nat) :
    ∀ (js : List Nat) (t t2 : CompressedRadixTree), ChildrenOk t →
      moveChildren tmp newChild js t = .ok t2 →
      ChildrenOk t2 ∧ t2.nodes.length = t.nodes.length ∧
        ∀ k, HasParent t k → HasParent t2 k := by
  intro js
  induction js with
  | nil =>
    intro t t2 hok h
    simp only [moveChildren, Except.ok.injEq] at h
    subst h
    exact ⟨hok, rfl, fun k hk => hk⟩
  | cons j js ih =>
    intro t t2 hok h
    unfold moveChildren at h
    split at h
    · cases h
    · rename_i tn htn
      simp only at h
      have htn2 := node_ok.1 htn
      have hok1 : ChildrenOk (t.setNode tmp { tn with children := tn.children.set j none }) :=
        ok_setNode hok htn2 (Or.inl rfl) (fun k hk => by
          rcases mem_set_cases hk with h1 | h1
          · exact Or.inl h1
          · cases h1)
      have hp1 : ∀ k, HasParent t k →
          HasParent (t.setNode tmp { tn with children := tn.children.set j none }) k :=
        fun k hk => hasParent_setNode htn2 (Or.inl rfl) hk
      split at h
      · cases h
      · rename_i nn hnn
        have hnn2 := node_ok.1 hnn
        have hok2 : ChildrenOk
            ((t.setNode tmp { tn with children := tn.children.set j none }).setNode newChild
              { nn with children := nn.children.set j (tn.children.getD j none) }) :=
          ok_setNode hok1 hnn2 (Or.inl rfl) (fun k hk => by
            rcases mem_set_cases hk with h1 | h1
            · exact Or.inl h1
            · right
              exact hp1 k (hok k ⟨tmp, tn, htn2, mem_of_getD_some h1.symm⟩))
        have hp2 : ∀ k, HasParent t k → HasParent
            ((t.setNode tmp { tn with children := tn.children.set j none }).setNode newChild
              { nn with children := nn.children.set j (tn.children.getD j none) }) k :=
          fun k hk => hasParent_setNode hnn2 (Or.inl rfl) (hp1 k hk)
        split at h
        · obtain ⟨g1, g2, g3⟩ := ih _ t2 hok2 h
          refine ⟨g1, ?_, fun k hk => g3 k (hp2 k hk)⟩
          rw [g2, length_setNode, length_setNode]
        · rename_i k hk
          split at h
          · cases h
          · rename_i kn hkn
            have hkn2 := node_ok.1 hkn
            have hN : newChild < ((t.setNode tmp
                { tn with children := tn.children.set j none }).setNode newChild
                { nn with children := nn.children.set j (tn.children.getD j none) }).nodes.length := by
              rw [length_setNode]
              exact node_lt hnn
            have hok3 := @ok_setNode _ k kn ⟨kn.val, kn.len, some newChild, kn.children⟩ hok2
              hkn2 (Or.inr ⟨newChild, rfl, hN⟩) (fun x hx => Or.inl hx)
            obtain ⟨g1, g2, g3⟩ := ih _ t2 hok3 h
            refine ⟨g1, ?_, fun x hx => g3 x ?_⟩
            · rw [g2, length_setNode, length_setNode, length_setNode]
            · exact hasParent_setNode hkn2 (Or.inr ⟨newChild, rfl, hN⟩) (hp2 x hx)

theorem insertSplit_ok {value : Int} {t t2 : CompressedRadixTree} {tmp : Nat} {i : Int}
    {bit bit2 : Nat} (hok : ChildrenOk t) (hc : IsChild t tmp)
    (h : insertSplit value t tmp i bit bit2 = .ok t2) : ChildrenOk t2 := by
  unfold insertSplit at h
  obtain ⟨tn, h1, ha⟩ := bind_ok h
  clear h
  obtain ⟨v, h2, hb⟩ := bind_ok ha
  clear ha
  obtain ⟨tA, h3, hc2⟩ := bind_ok hb
  clear hb
  obtain ⟨tn2, h4, hd⟩ := bind_ok hc2
  clear hc2
  obtain ⟨one, h5, he⟩ := bind_ok hd
  clear hd
  obtain ⟨y, h6, hf⟩ := bind_ok he
  clear he
  obtain ⟨val, h7, hg⟩ := bind_ok hf
  clear hf
  obtain ⟨idx, h8, hh⟩ := bind_ok hg
  clear hg
  obtain ⟨kn, pid, hk1, hk2, hk3⟩ := hok tmp hc
  rw [node_ok.1 h1] at hk1
  simp only [Option.some.injEq] at hk1
  subst hk1
  generalize roundEven (bitLength 32 (bit2 ^^^ tn.val) 0) = r at *
  have ok1 : ChildrenOk (t.alloc ⟨v, tn.len - r, tn.parent, nullChildren⟩) :=
    ok_alloc hok rfl
  have hpN1 : HasParent (t.alloc ⟨v, tn.len - r, tn.parent, nullChildren⟩) t.nodes.length :=
    hasParent_alloc_new hk2 (Nat.le_of_lt hk3)
  obtain ⟨okA, lenA, hpA⟩ := moveChildren_ok tmp t.nodes.length _ _ tA ok1 h3
  rw [length_alloc] at lenA
  have hNA : t.nodes.length < tA.nodes.length := by omega
  have hpNA := hpA _ hpN1
  have ok3 : ChildrenOk (tA.setNode tmp
      ⟨tn2.val &&& (one - 1), r, some t.nodes.length, tn2.children⟩) :=
    ok_setNode okA (node_ok.1 h4) (Or.inr ⟨t.nodes.length, rfl, hNA⟩) (fun k hk => Or.inl hk)
  have hpN3 : HasParent (tA.setNode tmp
      ⟨tn2.val &&& (one - 1), r, some t.nodes.length, tn2.children⟩) t.nodes.length :=
    hasParent_setNode (node_ok.1 h4) (Or.inr ⟨t.nodes.length, rfl, hNA⟩) hpNA
  split at hh
  · cases hh
  · obtain ⟨nn, h9, hi⟩ := bind_ok hh
    clear hh
    generalize htB : tA.setNode tmp
      ⟨tn2.val &&& (one - 1), r, some t.nodes.length, tn2.children⟩ = tB at *
    have hlenB : tB.nodes.length = tA.nodes.length := by
      rw [← htB, length_setNode]
    have ok4 : ChildrenOk (tB.alloc ⟨val, i - tn.len + r, some t.nodes.length, nullChildren⟩) :=
      ok_alloc ok3 rfl
    have hpL : HasParent (tB.alloc ⟨val, i - tn.len + r, some t.nodes.length, nullChildren⟩)
        tB.nodes.length :=
      hasParent_alloc_new rfl (by omega)
    have hpN4 : HasParent (tB.alloc ⟨val, i - tn.len + r, some t.nodes.length, nullChildren⟩)
        t.nodes.length :=
      hasParent_alloc _ hpN3
    generalize htC : tB.alloc ⟨val, i - tn.len + r, some t.nodes.length, nullChildren⟩ = tC at *
    have ok5 : ChildrenOk (tC.setNode t.nodes.length
        ⟨nn.val, nn.len, nn.parent, nn.children.set idx (some tB.nodes.length)⟩) :=
      ok_setNode ok4 (node_ok.1 h9) (Or.inl rfl) (fun k hk => by
        rcases mem_set_cases hk with h0 | h0
        · exact Or.inl h0
        · simp only [Option.some.injEq] at h0
          right
          rw [h0]
          exact hpL)
    have hpN5 : HasParent (tC.setNode t.nodes.length
        ⟨nn.val, nn.len, nn.parent, nn.children.set idx (some tB.nodes.length)⟩)
        t.nodes.length :=
      hasParent_setNode (node_ok.1 h9) (Or.inl rfl) hpN4
    rw [hk2] at hi
    obtain ⟨pn, h10, hj⟩ := bind_ok hi
    clear hi
    simp only [Except.ok.injEq] at hj
    subst hj
    exact ok_setNode ok5 (node_ok.1 h10) (Or.inl rfl) (fun k hk => by
      rcases mem_set_cases hk with h0 | h0
      · exact Or.inl h0
      · simp only [Option.some.injEq] at h0
        right
        rw [h0]
        exact hpN5)

theorem insertLoop_ok (value : Int) :
    ∀ (fuel : Nat) (t : CompressedRadixTree) (tmp : Nat) (i : Int) (t2 : CompressedRadixTree),
      ChildrenOk t → insertLoop value fuel t tmp i = .ok t2 → ChildrenOk t2 := by
  intro fuel
  induction fuel with
  | zero =>
    intro t tmp i t2 _ h
    simp [insertLoop] at h
  | succ fuel ih =>
    intro t tmp i t2 hok h
    unfold insertLoop at h
    split at h
    · simp only [Except.ok.injEq] at h
      subst h
      exact hok
    · split at h
      · cases h
      · cases h
      · rename_i bit tn hbit htn
        have htn2 := node_ok.1 htn
        have hlt := node_lt htn
        split at h
        · split at h
          · cases h
          · split at h
            · cases h
            · rename_i val hval
              simp only [Except.ok.injEq] at h
              subst h
              have ok1 : ChildrenOk (t.alloc ⟨val, i, some tmp, nullChildren⟩) :=
                ok_alloc hok rfl
              have hpN : HasParent (t.alloc ⟨val, i, some tmp, nullChildren⟩)
                  t.nodes.length :=
                hasParent_alloc_new rfl (Nat.le_of_lt hlt)
              refine @ok_setNode _ tmp tn _ ok1 ?_ (Or.inl rfl) ?_
              · rw [nodes_alloc_old t _ hlt]
                exact htn2
              · intro k hk
                rcases mem_set_cases hk with h0 | h0
                · exact Or.inl h0
                · simp only [Option.some.injEq] at h0
                  right
                  rw [h0]
                  exact hpN
        · rename_i c hchild
          have hic : IsChild t c := ⟨tmp, tn, htn2, mem_of_getD_some hchild⟩
          split at h
          · cases h
          · split at h
            · cases h
            · split at h
              · cases h
              · split at h
                · exact insertSplit_ok hok hic h
                · exact ih _ _ _ _ hok h

theorem insert_ok {t t2 : CompressedRadixTree} {value : Int} (hok : ChildrenOk t)
    (h : t.insert value = .ok t2) : ChildrenOk t2 :=
  insertLoop_ok value 33 t 0 32 t2 hok h

theorem built_ok {t : CompressedRadixTree} (hb : Built t) : ChildrenOk t := by
  induction hb with
  | empty => exact ok_empty
  | insert value _ hins ih => exact insert_ok ih hins

theorem pathLoop_child (value : Int) (t : CompressedRadixTree) :
    ∀ (fuel cur : Nat) (i : Int) (tmp : Nat),
      pathLoop value t fuel cur i = .ok (some tmp) → tmp = cur ∨ IsChild t tmp := by
  intro fuel
  induction fuel with
  | zero =>
    intro cur i tmp h
    simp [pathLoop] at h
  | succ fuel ih =>
    intro cur i tmp h
    unfold pathLoop at h
    split at h
    · simp only [Except.ok.injEq, Option.some.injEq] at h
      exact Or.inl h.symm
    · split at h
      · cases h
      · cases h
      · rename_i bit tn hbit htn
        split at h
        · simp at h
        · rename_i c hchild
          have hic : IsChild t c := ⟨cur, tn, node_ok.1 htn, mem_of_getD_some hchild⟩
          split at h
          · cases h
          · split at h
            · cases h
            · split at h
              · cases h
              · split at h
                · simp at h
                · rcases ih _ _ _ h with h0 | h0
                  · right
                    rw [h0]
                    exact hic
                  · exact Or.inr h0

theorem path_isChild {value : Int} {t : CompressedRadixTree} {tmp : Nat}
    (h : pathLoop value t 33 0 32 = .ok (some tmp)) : IsChild t tmp := by
  unfold pathLoop at h
  rw [if_neg (by decide)] at h
  split at h
  · cases h
  · cases h
  · rename_i bit tn hbit htn
    split at h
    · simp at h
    · rename_i c hchild
      have hic : IsChild t c := ⟨0, tn, node_ok.1 htn, mem_of_getD_some hchild⟩
      split at h
      · cases h
      · split at h
        · cases h
        · split at h
          · cases h
          · split at h
            · simp at h
            · rcases pathLoop_child value t _ _ _ _ h with h0 | h0
              · rw [h0]
                exact hic
              · exact h0

theorem slot_lt {l : List (Option Nat)} {ci : Nat} (h : (l.getD ci none).isSome = true) :
    ci < l.length := by
  rw [List.getD_eq_getElem?_getD] at h
  by_contra hlt
  rw [List.getElem?_eq_none (by omega)] at h
  simp at h

theorem slot_set {l : List (Option Nat)} {ci i g : Nat}
    (h : (l.getD ci none).isSome = true) :
    ((l.set i (some g)).getD ci none).isSome = true := by
  have hlt := slot_lt h
  rw [List.getD_eq_getElem?_getD] at h ⊢
  rw [List.getElem?_set]
  by_cases hi : i = ci
  · subst hi
    rw [if_pos rfl, if_pos hlt]
    rfl
  · rw [if_neg hi]
    exact h

theorem slot_set_none {l : List (Option Nat)} {ci i g : Nat}
    (h : (l.getD ci none).isSome = true) :
    (((l.set i none).set i (some g)).getD ci none).isSome = true := by
  have hlt := slot_lt h
  rw [List.getD_eq_getElem?_getD] at h ⊢
  rw [List.getElem?_set]
  by_cases hi : i = ci
  · subst hi
    rw [if_pos rfl, if_pos (by rw [List.length_set]; exact hlt)]
    rfl
  · rw [if_neg hi, List.getElem?_set, if_neg hi]
    exact h

theorem mergeLoop_ok (p ci : Nat) :
    ∀ (l : List Nat) (t : CompressedRadixTree),
      (∀ k, IsChild t k → k < t.nodes.length) →
      (∃ pn, t.nodes[p]? = some pn ∧ (pn.children.getD ci none).isSome = true) →
      ∃ t2, mergeLoop p ci l t = .ok t2 := by
  intro l
  induction l with
  | nil =>
    intro t _ _
    exact ⟨t, rfl⟩
  | cons i rest ih =>
    intro t hv hs
    obtain ⟨pn, hpn, hslot⟩ := hs
    have hplt : p < t.nodes.length := (List.getElem?_eq_some_iff.1 hpn).1
    unfold mergeLoop
    rw [node_ok.2 hpn]
    simp only
    cases hc : pn.children.getD ci none with
    | none =>
      rw [hc] at hslot
      cases hslot
    | some c =>
      simp only
      have hclt : c < t.nodes.length := hv c ⟨p, pn, hpn, mem_of_getD_some hc⟩
      obtain ⟨cn, hcn⟩ := node_of_lt hclt
      have hcn2 := node_ok.1 hcn
      rw [hcn]
      simp only
      cases hg : cn.children.getD i none with
      | none => exact ih t hv ⟨pn, hpn, hslot⟩
      | some g =>
        simp only
        have hglt : g < t.nodes.length := hv g ⟨c, cn, hcn2, mem_of_getD_some hg⟩
        have hp1 : ∃ pn1, (t.setNode c ⟨cn.val, cn.len, cn.parent, cn.children.set i none⟩).nodes[p]?
            = some pn1 ∧
            (pn1.children = pn.children ∨ pn1.children = pn.children.set i none) := by
          rw [nodes_setNode]
          by_cases hcp : c = p
          · rw [if_pos hcp, if_pos hclt]
            refine ⟨_, rfl, Or.inr ?_⟩
            rw [hcp, hpn] at hcn2
            simp only [Option.some.injEq] at hcn2
            rw [hcn2]
          · rw [if_neg hcp]
            exact ⟨pn, hpn, Or.inl rfl⟩
        obtain ⟨pn1, hpn1, hch1⟩ := hp1
        rw [node_ok.2 hpn1]
        simp only
        generalize ht1 : t.setNode c ⟨cn.val, cn.len, cn.parent, cn.children.set i none⟩ = t1
          at hpn1 ⊢
        have hlen1 : t1.nodes.length = t.nodes.length := by rw [← ht1, length_setNode]
        have hv1 : ∀ k, IsChild t1 k → k < t.nodes.length := by
          intro k hk
          rw [← ht1] at hk
          rcases isChild_setNode hk with h0 | h0
          · rcases mem_set_cases h0 with h1 | h1
            · exact hv k ⟨c, cn, hcn2, h1⟩
            · cases h1
          · exact hv k h0
        generalize ht2 : t1.setNode p ⟨pn1.val, pn1.len, pn1.parent,
          pn1.children.set i (some g)⟩ = t2
        have hlen2 : t2.nodes.length = t.nodes.length := by rw [← ht2, length_setNode, hlen1]
        have hp2 : t2.nodes[p]? = some ⟨pn1.val, pn1.len, pn1.parent,
            pn1.children.set i (some g)⟩ := by
          rw [← ht2, nodes_setNode, if_pos rfl, if_pos (by rw [hlen1]; exact hplt)]
        have hv2 : ∀ k, IsChild t2 k → k < t.nodes.length := by
          intro k hk
          rw [← ht2] at hk
          rcases isChild_setNode hk with h0 | h0
          · rcases mem_set_cases h0 with h1 | h1
            · exact hv1 k ⟨p, pn1, hpn1, h1⟩
            · simp only [Option.some.injEq] at h1
              rw [h1]
              exact hglt
          · exact hv1 k h0
        obtain ⟨gn, hgn⟩ := node_of_lt (t := t2) (by rw [hlen2]; exact hglt)
        have hgn2 := node_ok.1 hgn
        rw [hgn]
        simp only
        apply ih
        · intro k hk
          rw [length_setNode, hlen2]
          rcases isChild_setNode hk with h0 | h0
          · exact hv2 k ⟨g, gn, hgn2, h0⟩
          · exact hv2 k h0
        · have hslot2 : ((pn1.children.set i (some g)).getD ci none).isSome = true := by
            rcases hch1 with h0 | h0
            · rw [h0]
              exact slot_set hslot
            · rw [h0]
              exact slot_set_none hslot
          rw [nodes_setNode]
          by_cases hgp : g = p
          · rw [if_pos hgp, if_pos (by rw [hlen2]; exact hglt)]
            refine ⟨_, rfl, ?_⟩
            rw [hgp, hp2] at hgn2
            simp only [Option.some.injEq] at hgn2
            rw [← hgn2]
            exact hslot2
          · rw [if_neg hgp]
            exact ⟨_, hp2, hslot2⟩

theorem countChildren_slot {l : List (Option Nat)} {n ci : Nat}
    (h : countChildren l = (n, some ci)) : (l.getD ci none).isSome = true := by
  unfold countChildren at h
  simp only [List.foldl] at h
  by_cases h3 : (l.getD 3 none).isSome = true
  · rw [if_pos h3] at h
    simp only [Prod.mk.injEq, Option.some.injEq] at h
    rw [← h.2]
    exact h3
  · rw [if_neg h3] at h
    by_cases h2 : (l.getD 2 none).isSome = true
    · rw [if_pos h2] at h
      simp only [Prod.mk.injEq, Option.some.injEq] at h
      rw [← h.2]
      exact h2
    · rw [if_neg h2] at h
      by_cases h1 : (l.getD 1 none).isSome = true
      · rw [if_pos h1] at h
        simp only [Prod.mk.injEq, Option.some.injEq] at h
        rw [← h.2]
        exact h1
      · rw [if_neg h1] at h
        by_cases h0 : (l.getD 0 none).isSome = true
        · rw [if_pos h0] at h
          simp only [Prod.mk.injEq, Option.some.injEq] at h
          rw [← h.2]
          exact h0
        · rw [if_neg h0] at h
          simp at h

theorem mergeChild_ok (wide : Nat → Int → Nat) {t : CompressedRadixTree} {p ci : Nat}
    (hv : ∀ k, IsChild t k → k < t.nodes.length)
    (hs : ∃ pn, t.nodes[p]? = some pn ∧ (pn.children.getD ci none).isSome = true) :
    ∃ t2, mergeChild wide t p ci = .ok t2 := by
  obtain ⟨pn, hpn, hslot⟩ := hs
  have hplt : p < t.nodes.length := (List.getElem?_eq_some_iff.1 hpn).1
  unfold mergeChild
  rw [node_ok.2 hpn]
  show ∃ t2, (match pn.children.getD ci none with
    | none => Except.error Fault.nullDeref
    | some c => do
      let cn ← t.node c
      let sh := shlStored wide pn.val cn.len
      let t1 := t.setNode p { pn with val := sh ||| cn.val, len := pn.len + cn.len }
      mergeLoop p ci [0, 1, 2, 3] t1) = Except.ok t2
  cases hc : pn.children.getD ci none with
  | none =>
    rw [hc] at hslot
    cases hslot
  | some c =>
    have hclt : c < t.nodes.length := hv c ⟨p, pn, hpn, mem_of_getD_some hc⟩
    obtain ⟨cn, hcn⟩ := node_of_lt hclt
    simp only
    rw [hcn]
    show ∃ t2, mergeLoop p ci [0, 1, 2, 3] (t.setNode p
      ⟨shlStored wide pn.val cn.len ||| cn.val, pn.len + cn.len, pn.parent, pn.children⟩)
      = Except.ok t2
    apply mergeLoop_ok
    · intro k hk
      rw [length_setNode]
      rcases isChild_setNode hk with h0 | h0
      · exact hv k ⟨p, pn, hpn, h0⟩
      · exact hv k h0
    · exact ⟨⟨shlStored wide pn.val cn.len ||| cn.val, pn.len + cn.len, pn.parent,
        pn.children⟩, by rw [nodes_setNode, if_pos rfl, if_pos hplt], hslot⟩

theorem remove_ok (wide : Nat → Int → Nat) {t : CompressedRadixTree} (hok : ChildrenOk t)
    {value : Int} {tmp : Nat} (hpath : pathLoop value t 33 0 32 = .ok (some tmp)) :
    ∃ t2, remove wide t value = .ok (true, t2) := by
  have hv : ∀ k, IsChild t k → k < t.nodes.length := by
    intro k hk
    obtain ⟨kn, p, h1, -, -⟩ := hok k hk
    exact (List.getElem?_eq_some_iff.1 h1).1
  obtain ⟨kn, p, hkn, hpar, hplt⟩ := hok tmp (path_isChild hpath)
  obtain ⟨pn, hpn⟩ := node_of_lt hplt
  have hpn2 := node_ok.1 hpn
  unfold remove
  rw [hpath]
  simp only
  rw [node_ok.2 hkn]
  simp only
  rw [hpar]
  simp only
  rw [hpn]
  simp only
  cases hidx : findIdx pn.children tmp with
  | none => exact ⟨t, rfl⟩
  | some idx =>
    simp only
    split
    · rename_i ci hcnt
      have hm := @mergeChild_ok wide (t.setNode p
          ⟨pn.val, pn.len, pn.parent, pn.children.set idx none⟩) p ci
        (by
          intro k hk
          rw [length_setNode]
          rcases isChild_setNode hk with h0 | h0
          · rcases mem_set_cases h0 with h1 | h1
            · exact hv k ⟨p, pn, hpn2, h1⟩
            · cases h1
          · exact hv k h0)
        ⟨⟨pn.val, pn.len, pn.parent, pn.children.set idx none⟩,
          by rw [nodes_setNode, if_pos rfl, if_pos hplt], countChildren_slot hcnt⟩
      obtain ⟨t2, ht2⟩ := hm
      rw [ht2]
      exact ⟨t2, rfl⟩
    · exact ⟨_, rfl⟩

theorem find_true_path {t : CompressedRadixTree} {value : Int}
    (h : t.find value = .ok true) : ∃ tmp, pathLoop value t 33 0 32 = .ok (some tmp) := by
  unfold find at h
  cases hp : pathLoop value t 33 0 32 with
  | error e =>
    rw [hp] at h
    cases h
  | ok r =>
    cases r with
    | none =>
      rw [hp] at h
      simp at h
    | some tmp => exact ⟨tmp, rfl⟩

theorem remove_two_leaves (wide : Nat → Int → Nat) :
    remove wide treeTwoLeaves 0 = .ok (true,
      ⟨[⟨wide 0 32 % 4294967296 ||| 1073741824, 32, none, [none, some 2, none, none]⟩,
        ⟨0, 32, some 0, nullChildren⟩, ⟨1073741824, 32, some 0, nullChildren⟩]⟩) := by
  rfl

theorem built_treeTwoLeaves : Built treeTwoLeaves :=
  Built.insert 1073741824 (Built.insert 0 Built.empty (show empty.insert 0 = .ok tree0 from rfl))
    (show tree0.insert 1073741824 = .ok treeTwoLeaves from rfl)

/-- C20. On every tree built from the empty tree by calls of `insert`, for every value `v`
(and whatever value an out-of-range shift of the merge stores): `remove(v)` returns true
exactly when `find(v)` returns true and returns false, leaving the tree unchanged, exactly
when `find(v)` returns false; a `remove(v)` that returns false leaves the tree unchanged; and
the node at which the common path loop ends has a non-null parent, as has every node
referenced as a child. -/
theorem remove_reports_membership (wide : Nat → Int → Nat) {t : CompressedRadixTree}
    (hb : Built t) (value : Int) :
    (t.find value = .ok true ↔ ∃ t2, remove wide t value = .ok (true, t2)) ∧
    (t.find value = .ok false ↔ remove wide t value = .ok (false, t)) ∧
    (∀ t2, remove wide t value = .ok (false, t2) → t2 = t) ∧
    (∀ tmp, pathLoop value t 33 0 32 = .ok (some tmp) →
      ∃ tn p, t.node tmp = .ok tn ∧ tn.parent = some p) ∧
    (∀ k, IsChild t k → ∃ kn p, t.node k = .ok kn ∧ kn.parent = some p) := by
  have hok := built_ok hb
  refine ⟨⟨?_, ?_⟩, ⟨find_false_remove wide t value, ?_⟩,
    remove_false_unchanged wide t value, ?_, ?_⟩
  · intro hf
    obtain ⟨tmp, hp⟩ := find_true_path hf
    exact remove_ok wide hok hp
  · rintro ⟨t2, h2⟩
    exact remove_true_find wide t value t2 h2
  · intro hr
    unfold remove at hr
    unfold find
    cases hp : pathLoop value t 33 0 32 with
    | error e =>
      rw [hp] at hr
      cases hr
    | ok r =>
      cases r with
      | none => rfl
      | some tmp =>
        obtain ⟨t2, h2⟩ := remove_ok wide hok hp
        have hr2 : remove wide t value = .ok (false, t) := by
          unfold remove
          exact hr
        rw [h2] at hr2
        simp at hr2
  · intro tmp hp
    obtain ⟨kn, p, h1, h2, -⟩ := hok tmp (path_isChild hp)
    exact ⟨kn, p, node_ok.2 h1, h2⟩
  · intro k hk
    obtain ⟨kn, p, h1, h2, -⟩ := hok k hk
    exact ⟨kn, p, node_ok.2 h1, h2⟩

/-- An instance of C20 with the hypothesis discharged: on the tree built by `insert(0)` and
`insert(1073741824)`, `find(0)` is true and `remove(0)` returns true although its merge shifts
by 32, and `find(5)` is false and `remove(5)` returns false. -/
theorem remove_reports_membership_witness :
    Built treeTwoLeaves ∧ treeTwoLeaves.find 0 = .ok true ∧
    (∃ t2, remove (fun x _ => x) treeTwoLeaves 0 = .ok (true, t2)) ∧
    treeTwoLeaves.find 5 = .ok false ∧
    remove (fun x _ => x) treeTwoLeaves 5 = .ok (false, treeTwoLeaves) :=
  ⟨built_treeTwoLeaves, rfl,
    (remove_reports_membership (fun x _ => x) built_treeTwoLeaves 0).1.1 rfl, rfl,
    (remove_reports_membership (fun x _ => x) built_treeTwoLeaves 5).2.1.1 rfl⟩

end CompressedRadixTree
